import Mathlib

/-!
# executable-stories (Go): story builder, collector and finalizer

A shallow embedding of `packages/executable-stories-go` (`types.go`, `doc.go`,
`collector.go`, `story.go`) and theorems about it.

Modelling conventions
* Go strings are Lean `String`s, Go slices are `List`s (a nil slice is `[]`),
  Go pointers that may be nil are `Option`s.
* `S.currentStep` is a pointer into the backing array of `S.steps`.  The only
  assignment to `s.steps` is the `append` in `addStep`, and the very next
  statement re-points `currentStep` to the last slot of the new slice, so the
  pointer always designates a slot of the current slice: it is modelled by the
  index of that slot.  A write through the pointer is `writeCurrent`.
* `time.Now()` is an input of the environment: every function that reads the
  clock takes the reading (nanoseconds, an `Int`) as an argument.
* A Go closure `func()` passed as a step body is a state transformer on the
  `World` (the story it captured plus the observable effects of the test code
  outside the story) that either returns or panics with a value.
* Where a property is about sharing (the slice `getAll` returns, the maps handed to
  `WithMeta`), the objects are put on a heap of addressed arrays, maps and structs
  (`HeapCollector`, `WithMetaH`), and the heap-level functions are shown to compute what
  the value-level ones compute.  A test-case struct on the heap (`CaseCell`) holds its
  fields of pointer, slice and map type as addresses, so that copies of the struct share
  what these fields refer to.
* A library call that runs code of the caller (`json.MarshalIndent`, `fmt.Sprintf`) can
  end with a panic or with the death of the process; `GoLib` and `Sys` give these endings.
-/

namespace ES

/-! ## types.go -/

/-- A value of Go type `any` as far as the library looks at it. -/
inductive GoAny where
  | null
  | bool (b : Bool)
  | int (n : Int)
  | str (s : String)
  | ref (id : Nat)
  deriving DecidableEq, Repr

/-- The value stored under a key of a `DocEntry`. -/
inductive DocValue where
  | str (s : String)
  | strs (xs : List String)
  | rows (xs : List (List String))
  | any (v : GoAny)
  deriving DecidableEq, Repr

/-- The Go type `DocEntry` is `map[string]any`; the keys are listed in the order of
the map literal. -/
abbrev DocEntry := List (String × DocValue)

/-- The Go struct `StoryStep`. -/
structure StoryStep where
  ID : String := ""
  Keyword : String := ""
  Text : String := ""
  Mode : String := ""
  Wrapped : Bool := false
  Docs : List DocEntry := []
  DurationMs : Option Int := none
  deriving DecidableEq, Repr

/-- The Go struct `RawAttachment`. -/
structure RawAttachment where
  Name : String := ""
  MediaType : String := ""
  Path : Option String := none
  Body : Option String := none
  Encoding : Option String := none
  Charset : Option String := none
  FileName : Option String := none
  ByteLength : Option Int := none
  StepIndex : Option Int := none
  StepID : Option String := none
  deriving DecidableEq, Repr

/-- The Go struct `StoryMeta`. -/
structure StoryMeta where
  Scenario : String := ""
  Steps : List StoryStep := []
  Tags : List String := []
  Tickets : List String := []
  Meta : Option (List (String × GoAny)) := none
  SuitePath : List String := []
  Docs : List DocEntry := []
  SourceOrder : Option Nat := none
  deriving DecidableEq, Repr

/-- The Go struct `RawError`. -/
structure RawError where
  Message : String := ""
  Stack : String := ""
  deriving DecidableEq, Repr

/-- The Go struct `RawStepEvent`. -/
structure RawStepEvent where
  Index : Option Int := none
  Title : String := ""
  Status : String := ""
  DurationMs : Option Int := none
  deriving DecidableEq, Repr

/-- The Go struct `RawTestCase`. -/
structure RawTestCase where
  ExternalID : String := ""
  Title : String := ""
  TitlePath : List String := []
  Story : Option StoryMeta := none
  SourceFile : String := ""
  Status : String := ""
  DurationMs : Option Int := none
  Error : Option RawError := none
  Meta : Option (List (String × GoAny)) := none
  Retry : Int := 0
  Retries : Int := 0
  Attachments : List RawAttachment := []
  StepEvents : List RawStepEvent := []
  deriving DecidableEq, Repr

/-! ## The clock -/

/-- Largest `time.Duration` (an `int64` count of nanoseconds). -/
def maxDuration : Int := 2 ^ 63 - 1

/-- Smallest `time.Duration`. -/
def minDuration : Int := -(2 ^ 63)

/-- Go `time.Since(start)` when the clock reads `now`: the difference of the two
readings, saturated to the range of `time.Duration` as `Time.Sub` does. -/
def since (start now : Int) : Int :=
  if now - start > maxDuration then maxDuration
  else if now - start < minDuration then minDuration
  else now - start

/-- Go `Duration.Milliseconds` (`int64(d) / 1e6`, truncating towards zero).  The
conversion `float64(..)` that follows in the source is exact on this range, so the
stored `*float64` is modelled by the integer. -/
def milliseconds (d : Int) : Int := Int.tdiv d 1000000

/-- The expression `float64(time.Since(start).Milliseconds())`. -/
def elapsedMs (start now : Int) : Int := milliseconds (since start now)

/-! ## collector.go -/

/-- The package-level variables `collected`, `startTime`, `orderSeq` (the mutex `mu`
serialises the operations; the model is sequential). -/
structure Collector where
  collected : List RawTestCase := []
  startTime : Int := 0
  orderSeq : Nat := 0
  deriving DecidableEq, Repr

/-- Go `record`. -/
def record (tc : RawTestCase) (c : Collector) : Collector :=
  { c with collected := c.collected ++ [tc] }

/-- Go `getAll`: a copy of the collected cases. -/
def getAll (c : Collector) : List RawTestCase := c.collected

/-- Go `nextOrder`: the value returned and the collector afterwards. -/
def nextOrder (c : Collector) : Nat × Collector :=
  (c.orderSeq, { c with orderSeq := c.orderSeq + 1 })

/-- Go `reset`. -/
def reset (_c : Collector) : Collector :=
  { collected := [], startTime := 0, orderSeq := 0 }

/-! ## doc.go -/

/-- Go `noteEntry`. -/
def noteEntry (text : String) : DocEntry :=
  [("kind", .str "note"), ("text", .str text), ("phase", .str "runtime")]

/-- Go `tagEntry`. -/
def tagEntry (names : List String) : DocEntry :=
  [("kind", .str "tag"), ("names", .strs names), ("phase", .str "runtime")]

/-- Go `kvEntry`. -/
def kvEntry (label : String) (value : GoAny) : DocEntry :=
  [("kind", .str "kv"), ("label", .str label), ("value", .any value), ("phase", .str "runtime")]

/-- Go `codeEntry`. -/
def codeEntry (label content lang : String) : DocEntry :=
  [("kind", .str "code"), ("label", .str label), ("content", .str content),
    ("lang", .str lang), ("phase", .str "runtime")]

/-- Go `tableEntry`. -/
def tableEntry (label : String) (columns : List String) (rows : List (List String)) :
    DocEntry :=
  [("kind", .str "table"), ("label", .str label), ("columns", .strs columns),
    ("rows", .rows rows), ("phase", .str "runtime")]

/-- Go `linkEntry`. -/
def linkEntry (label url : String) : DocEntry :=
  [("kind", .str "link"), ("label", .str label), ("url", .str url), ("phase", .str "runtime")]

/-- Go `sectionEntry`. -/
def sectionEntry (title markdown : String) : DocEntry :=
  [("kind", .str "section"), ("title", .str title), ("markdown", .str markdown),
    ("phase", .str "runtime")]

/-- Go `mermaidEntry`. -/
def mermaidEntry (code title : String) : DocEntry :=
  let entry : DocEntry := [("kind", .str "mermaid"), ("code", .str code), ("phase", .str "runtime")]
  if title ≠ "" then entry ++ [("title", .str title)] else entry

/-- Go `screenshotEntry`. -/
def screenshotEntry (path alt : String) : DocEntry :=
  let entry : DocEntry :=
    [("kind", .str "screenshot"), ("path", .str path), ("phase", .str "runtime")]
  if alt ≠ "" then entry ++ [("alt", .str alt)] else entry

/-- Go `customEntry`. -/
def customEntry (typeName : String) (data : GoAny) : DocEntry :=
  [("kind", .str "custom"), ("type", .str typeName), ("data", .any data),
    ("phase", .str "runtime")]

/-- The two standard-library functions `jsonEntry` calls: `json.MarshalIndent(v, "", "  ")`
(`none` when it returns an error) and `fmt.Sprintf("%v", v)`. -/
structure Lib where
  marshalIndent : GoAny → Option String
  sprintV : GoAny → String

/-- Go `jsonEntry`. -/
def jsonEntry (lib : Lib) (label : String) (value : GoAny) : DocEntry :=
  let b :=
    match lib.marshalIndent value with
    | some b => b
    | none => lib.sprintV value
  codeEntry label b "json"

/-! ## story.go -/

/-- What the library asks of the host handle `TestingT`: the answers of `Name()`,
`Failed()` and `Skipped()`. -/
structure TestingT where
  Name : String := ""
  Failed : Bool := false
  Skipped : Bool := false
  deriving DecidableEq, Repr

/-- The Go struct `S`.  `seenPrimary` is a `map[string]bool` in which only `true`
is ever stored: it is the list of its keys.  `t` is the handle given to `Init`. -/
structure S where
  scenario : String := ""
  steps : List StoryStep := []
  tags : List String := []
  tickets : List String := []
  meta : Option (List (String × GoAny)) := none
  docs : List DocEntry := []
  currentStep : Option Nat := none
  seenPrimary : List String := []
  t : TestingT := {}
  startTime : Int := 0
  sourceOrder : Nat := 0
  stepCounter : Nat := 0
  attachments : List RawAttachment := []
  deriving DecidableEq, Repr

/-- Apply `f` to the element at index `i` (nothing happens past the end). -/
def modifyAt {α : Type} (f : α → α) : Nat → List α → List α
  | _, [] => []
  | 0, x :: xs => f x :: xs
  | i + 1, x :: xs => x :: modifyAt f i xs

/-- A write `s.currentStep.field = ...` through the pointer: `none` is the nil
pointer dereference. -/
def S.writeCurrent (s : S) (f : StoryStep → StoryStep) : Option S :=
  match s.currentStep with
  | none => none
  | some i => some { s with steps := modifyAt f i s.steps }

/-- Go `fmt.Sprintf("step-%d", n)` for a non-negative counter. -/
def stepID (n : Nat) : String := "step-" ++ toString n

/-- The `case "Given", "When", "Then"` of the switch in `addStep`. -/
def isPrimary (keyword : String) : Bool :=
  keyword == "Given" || keyword == "When" || keyword == "Then"

/-- Go `(*S).addStep`. -/
def S.addStep (s : S) (keyword text : String) : S :=
  let seen := s.seenPrimary.contains keyword
  let effective := if isPrimary keyword && seen then "And" else keyword
  let seenPrimary :=
    if isPrimary keyword && !seen then s.seenPrimary ++ [keyword] else s.seenPrimary
  let step : StoryStep := { ID := stepID s.stepCounter, Keyword := effective, Text := text }
  let steps := s.steps ++ [step]
  { s with
    seenPrimary := seenPrimary
    stepCounter := s.stepCounter + 1
    steps := steps
    currentStep := some (steps.length - 1) }

/-- Go `(*S).Given`. -/
def S.Given (s : S) (text : String) : S := s.addStep "Given" text

/-- Go `(*S).When`. -/
def S.When (s : S) (text : String) : S := s.addStep "When" text

/-- Go `(*S).Then`. -/
def S.Then (s : S) (text : String) : S := s.addStep "Then" text

/-- Go `(*S).And`. -/
def S.And (s : S) (text : String) : S := s.addStep "And" text

/-- Go `(*S).But`. -/
def S.But (s : S) (text : String) : S := s.addStep "But" text


/-- Go `(*S).addDoc`. -/
def S.addDoc (s : S) (entry : DocEntry) : S :=
  match s.currentStep with
  | some i => { s with steps := modifyAt (fun st => { st with Docs := st.Docs ++ [entry] }) i s.steps }
  | none => { s with docs := s.docs ++ [entry] }

/-- Go `(*S).Attach`. -/
def S.Attach (s : S) (name mediaType path : String) : S :=
  let a : RawAttachment := { Name := name, MediaType := mediaType }
  let a := if path ≠ "" then { a with Path := some path } else a
  let a :=
    match s.currentStep with
    | some i =>
      { a with
        StepIndex := some ((s.steps.length : Int) - 1)
        StepID := (s.steps[i]?).map (fun st => st.ID) }
    | none => a
  { s with attachments := s.attachments ++ [a] }

/-- Go `(*S).AttachInline`. -/
def S.AttachInline (s : S) (name mediaType body encoding : String) : S :=
  let a : RawAttachment :=
    { Name := name, MediaType := mediaType, Body := some body, Encoding := some encoding }
  let a :=
    match s.currentStep with
    | some i =>
      { a with
        StepIndex := some ((s.steps.length : Int) - 1)
        StepID := (s.steps[i]?).map (fun st => st.ID) }
    | none => a
  { s with attachments := s.attachments ++ [a] }

/-- Go `(*S).Note`. -/
def S.Note (s : S) (text : String) : S := s.addDoc (noteEntry text)

/-- Go `(*S).Tag`. -/
def S.Tag (s : S) (names : List String) : S := s.addDoc (tagEntry names)

/-- Go `(*S).Kv`. -/
def S.Kv (s : S) (label : String) (value : GoAny) : S := s.addDoc (kvEntry label value)

/-- Go `(*S).JSON`. -/
def S.JSON (lib : Lib) (s : S) (label : String) (value : GoAny) : S :=
  s.addDoc (jsonEntry lib label value)

/-- Go `(*S).Code`; `lang` is the variadic argument. -/
def S.Code (s : S) (label content : String) (lang : List String) : S :=
  let l := match lang with
    | [] => ""
    | x :: _ => x
  s.addDoc (codeEntry label content l)

/-- Go `(*S).Table`. -/
def S.Table (s : S) (label : String) (columns : List String) (rows : List (List String)) : S :=
  s.addDoc (tableEntry label columns rows)

/-- Go `(*S).Link`. -/
def S.Link (s : S) (label url : String) : S := s.addDoc (linkEntry label url)

/-- Go `(*S).Section`. -/
def S.Section (s : S) (title markdown : String) : S := s.addDoc (sectionEntry title markdown)

/-- Go `(*S).Mermaid`; `title` is the variadic argument. -/
def S.Mermaid (s : S) (code : String) (title : List String) : S :=
  let t := match title with
    | [] => ""
    | x :: _ => x
  s.addDoc (mermaidEntry code t)

/-- Go `(*S).Screenshot`; `alt` is the variadic argument. -/
def S.Screenshot (s : S) (path : String) (alt : List String) : S :=
  let a := match alt with
    | [] => ""
    | x :: _ => x
  s.addDoc (screenshotEntry path a)

/-- Go `(*S).Custom`. -/
def S.Custom (s : S) (typeName : String) (data : GoAny) : S :=
  s.addDoc (customEntry typeName data)

/-- What test code can see and change: the story it holds and its effects outside the
story (a log of them). -/
structure World where
  story : S
  log : List String := []
  deriving DecidableEq, Repr

/-- A Go closure `func()`: it transforms the world and either returns (`none`) or
panics with a value (`some v`). -/
abbrev Body := World → World × Option String

/-- The panic value of a nil pointer dereference. -/
def nilDeref : String := "runtime error: invalid memory address or nil pointer dereference"

/-- Go `(*S).Fn`.  `start` is the reading of `time.Now()` before the body runs and
`finish` the reading inside the deferred function.  The deferred function runs whether
the body returned or panicked, then the panic (if any) goes on to the caller. -/
def Fn (keyword text : String) (body : Body) (start finish : Int) (w : World) :
    World × Option String :=
  let s1 := w.story.addStep keyword text
  match s1.writeCurrent (fun st => { st with Wrapped := true }) with
  | none => ({ w with story := s1 }, some nilDeref)
  | some s2 =>
    let r := body { w with story := s2 }
    let d := elapsedMs start finish
    match r.1.story.writeCurrent (fun st => { st with DurationMs := some d }) with
    | none => (r.1, some nilDeref)
    | some s3 => ({ r.1 with story := s3 }, r.2)

/-- Go `(*S).Expect`. -/
def Expect (text : String) (body : Body) (start finish : Int) (w : World) :
    World × Option String :=
  Fn "Then" text body start finish w

/-- Go `map[string]any` assignment `m[k] = v` on the list of bindings. -/
def mapSet (m : List (String × GoAny)) (k : String) (v : GoAny) : List (String × GoAny) :=
  if m.any (fun kv => kv.1 == k) then m.map (fun kv => if kv.1 == k then (k, v) else kv)
  else m ++ [(k, v)]

/-- The Go type `Option` (`func(*S)`). -/
abbrev StoryOption := S → S

/-- Go `WithTags`. -/
def WithTags (tags : List String) : StoryOption :=
  fun s => { s with tags := s.tags ++ tags }

/-- Go `WithTicket`. -/
def WithTicket (tickets : List String) : StoryOption :=
  fun s => { s with tickets := s.tickets ++ tickets }

/-- Go `WithMeta`; the argument may be the nil map. -/
def WithMeta (m : Option (List (String × GoAny))) : StoryOption :=
  fun s =>
    let base := match s.meta with
      | none => []
      | some cur => cur
    { s with meta := some ((m.getD []).foldl (fun acc kv => mapSet acc kv.1 kv.2) base) }

/-- The options a caller can build with the exported constructors. -/
inductive Opt where
  | tags (xs : List String)
  | ticket (xs : List String)
  | meta (m : Option (List (String × GoAny)))
  deriving DecidableEq, Repr

/-- The `Option` value an exported constructor returns. -/
def Opt.fn : Opt → StoryOption
  | .tags xs => WithTags xs
  | .ticket xs => WithTicket xs
  | .meta m => WithMeta m

/-- Go `strings.Split(s, string(sep))` on the characters of `s`. -/
def splitChars (sep : Char) : List Char → List (List Char)
  | [] => [[]]
  | c :: cs =>
    if c = sep then [] :: splitChars sep cs
    else
      match splitChars sep cs with
      | [] => [[c]]
      | p :: ps => (c :: p) :: ps

/-- Go `strings.Split(name, "/")`. -/
def splitSlash (name : String) : List String :=
  (splitChars '/' name.toList).map String.mk

/-- The status computed by the closure `Init` registers. -/
def statusOf (t : TestingT) : String :=
  let status := "pass"
  if t.Failed then "fail"
  else if t.Skipped then "skip"
  else status

/-- The test case the closure `Init` registers assembles: `s` and `t` are the story
and the handle as they are when the closure runs, `now` is the clock then. -/
def testCaseOf (s : S) (t : TestingT) (now : Int) : RawTestCase :=
  let duration := elapsedMs s.startTime now
  let status := statusOf t
  let order := s.sourceOrder
  let story : StoryMeta :=
    { Scenario := s.scenario
      Steps := s.steps
      Tags := s.tags
      Tickets := s.tickets
      Meta := s.meta
      Docs := s.docs
      SourceOrder := some order }
  { Title := t.Name
    TitlePath := splitSlash t.Name
    Story := some story
    Status := status
    DurationMs := some duration
    Retry := 0
    Retries := 0
    Attachments := s.attachments }

/-- The closure `Init` passes to `t.Cleanup`. -/
def finalizer (s : S) (t : TestingT) (now : Int) (c : Collector) : Collector :=
  record (testCaseOf s t now) c

/-- A closure registered with `t.Cleanup`, as a function of the story and the handle
it captured, of the clock and of the collector. -/
abbrev Cleanup := S → TestingT → Int → Collector → Collector

/-- What a call of `Init` produces: the story, the collector after `nextOrder`, and
the closures it passed to `t.Cleanup`. -/
structure InitResult where
  story : S
  collector : Collector
  cleanups : List Cleanup

/-- Go `Init`; `now` is the reading of `time.Now()`. -/
def Init (t : TestingT) (scenario : String) (opts : List StoryOption) (now : Int)
    (c : Collector) : InitResult :=
  let o := nextOrder c
  let s : S :=
    { scenario := scenario, t := t, startTime := now, sourceOrder := o.1, seenPrimary := [] }
  let s := opts.foldl (fun acc opt => opt acc) s
  { story := s, collector := o.2, cleanups := [finalizer] }

/-! ## Sequences of calls -/

/-- The three primary keywords. -/
inductive Primary where
  | Given
  | When
  | Then
  deriving DecidableEq, Repr

/-- The keyword a primary call passes to `addStep`. -/
def Primary.literal : Primary → String
  | .Given => "Given"
  | .When => "When"
  | .Then => "Then"

/-- One call of `Given`, `When` or `Then`. -/
def S.primaryCall (s : S) (k : Primary) (text : String) : S :=
  match k with
  | .Given => s.Given text
  | .When => s.When text
  | .Then => s.Then text

/-- A sequence of `Given`/`When`/`Then` calls, in call order. -/
def runPrimary (s : S) (calls : List (Primary × String)) : S :=
  calls.foldl (fun acc c => acc.primaryCall c.1 c.2) s

/-- The five keywords of the text-step methods. -/
inductive Keyword where
  | Given
  | When
  | Then
  | And
  | But
  deriving DecidableEq, Repr

/-- The keyword a text-step method passes to `addStep`. -/
def Keyword.literal : Keyword → String
  | .Given => "Given"
  | .When => "When"
  | .Then => "Then"
  | .And => "And"
  | .But => "But"

/-- The primary keyword of a call, if it is one of `Given`, `When`, `Then`. -/
def Keyword.primary? : Keyword → Option Primary
  | .Given => some .Given
  | .When => some .When
  | .Then => some .Then
  | .And => none
  | .But => none

/-- One call of `Given`, `When`, `Then`, `And` or `But`. -/
def S.textCall (s : S) (k : Keyword) (text : String) : S :=
  match k with
  | .Given => s.Given text
  | .When => s.When text
  | .Then => s.Then text
  | .And => s.And text
  | .But => s.But text

/-- A sequence of text-step calls, in call order. -/
def runText (s : S) (calls : List (Keyword × String)) : S :=
  calls.foldl (fun acc c => acc.textCall c.1 c.2) s

/-- The sequence obtained by deleting all `And` and `But` calls. -/
def primaryOnly (calls : List (Keyword × String)) : List (Primary × String) :=
  calls.filterMap (fun c => (c.1.primary?).map (fun p => (p, c.2)))

/-- The step the claim of auto-conversion predicts at position `i` of `calls`. -/
def primaryStepAt (calls : List (Primary × String)) (i : Nat) (c : Primary × String) :
    StoryStep :=
  { ID := stepID i
    Keyword := if c.1 ∈ (calls.take i).map Prod.fst then "And" else c.1.literal
    Text := c.2 }

/-- The calls of the doc methods. -/
inductive DocCall where
  | Note (text : String)
  | Tag (names : List String)
  | Kv (label : String) (value : GoAny)
  | JSON (label : String) (value : GoAny)
  | Code (label content : String) (lang : List String)
  | Table (label : String) (columns : List String) (rows : List (List String))
  | Link (label url : String)
  | Section (title markdown : String)
  | Mermaid (code : String) (title : List String)
  | Screenshot (path : String) (alt : List String)
  | Custom (typeName : String) (data : GoAny)
  deriving DecidableEq, Repr

/-- One call of a doc method. -/
def S.docCall (lib : Lib) (s : S) : DocCall → S
  | .Note text => s.Note text
  | .Tag names => s.Tag names
  | .Kv label value => s.Kv label value
  | .JSON label value => s.JSON lib label value
  | .Code label content lang => s.Code label content lang
  | .Table label columns rows => s.Table label columns rows
  | .Link label url => s.Link label url
  | .Section title markdown => s.Section title markdown
  | .Mermaid code title => s.Mermaid code title
  | .Screenshot path alt => s.Screenshot path alt
  | .Custom typeName data => s.Custom typeName data

/-- The entry a doc method hands to `addDoc`. -/
def DocCall.entry (lib : Lib) : DocCall → DocEntry
  | .Note text => noteEntry text
  | .Tag names => tagEntry names
  | .Kv label value => kvEntry label value
  | .JSON label value => jsonEntry lib label value
  | .Code label content lang => codeEntry label content (lang.headD "")
  | .Table label columns rows => tableEntry label columns rows
  | .Link label url => linkEntry label url
  | .Section title markdown => sectionEntry title markdown
  | .Mermaid code title => mermaidEntry code (title.headD "")
  | .Screenshot path alt => screenshotEntry path (alt.headD "")
  | .Custom typeName data => customEntry typeName data

/-- Test code that drives one story: a sequence of builder calls and of statements that
do not touch the story, ending by returning or by panicking.  The bodies handed to `Fn`
and `Expect` are test code of the same kind, with the two clock readings of the call. -/
inductive Script where
  | ret
  | panic (v : String)
  | effect (msg : String) (rest : Script)
  | step (k : Keyword) (txt : String) (rest : Script)
  | doc (entry : DocEntry) (rest : Script)
  | Attach (name mediaType path : String) (rest : Script)
  | AttachInline (name mediaType body encoding : String) (rest : Script)
  | Fn (keyword txt : String) (start finish : Int) (body : Script) (rest : Script)
  | Expect (txt : String) (start finish : Int) (body : Script) (rest : Script)

/-- Run test code: the world afterwards, and the panic value if it panicked. -/
def Script.run : Script → Body
  | .ret => fun w => (w, none)
  | .panic v => fun w => (w, some v)
  | .effect msg rest => fun w => rest.run { w with log := w.log ++ [msg] }
  | .step k txt rest => fun w => rest.run { w with story := w.story.textCall k txt }
  | .doc entry rest => fun w => rest.run { w with story := w.story.addDoc entry }
  | .Attach name mediaType path rest => fun w =>
    rest.run { w with story := w.story.Attach name mediaType path }
  | .AttachInline name mediaType body encoding rest => fun w =>
    rest.run { w with story := w.story.AttachInline name mediaType body encoding }
  | .Fn keyword txt start finish body rest => fun w =>
    match ES.Fn keyword txt body.run start finish w with
    | (w1, none) => rest.run w1
    | (w1, some v) => (w1, some v)
  | .Expect txt start finish body rest => fun w =>
    match ES.Expect txt body.run start finish w with
    | (w1, none) => rest.run w1
    | (w1, some v) => (w1, some v)

/-- The stories the code can produce: `Init` creates one, and each further rule is one
of the statements of `story.go` that assign to a story (the `append` of `addStep`, the
appends of `addDoc`, `Attach` and `AttachInline`, and the two writes of `Fn` through
`currentStep`).  Every state a story goes through while test code runs, inside a step
body too, is of this kind. -/
inductive Reachable : S → Prop where
  | init (t : TestingT) (scenario : String) (opts : List Opt) (now : Int) (c : Collector) :
    Reachable (Init t scenario (opts.map Opt.fn) now c).story
  | addStep {s : S} (keyword txt : String) : Reachable s → Reachable (s.addStep keyword txt)
  | addDoc {s : S} (entry : DocEntry) : Reachable s → Reachable (s.addDoc entry)
  | Attach {s : S} (name mediaType path : String) :
    Reachable s → Reachable (s.Attach name mediaType path)
  | AttachInline {s : S} (name mediaType body encoding : String) :
    Reachable s → Reachable (s.AttachInline name mediaType body encoding)
  | wrapped {s s1 : S} : Reachable s →
    s.writeCurrent (fun st => { st with Wrapped := true }) = some s1 → Reachable s1
  | duration {s s1 : S} (d : Int) : Reachable s →
    s.writeCurrent (fun st => { st with DurationMs := some d }) = some s1 → Reachable s1

/-- The representation invariant of a story: `currentStep` is nil exactly when there is
no step and otherwise points to the last one, the counter is the number of steps, and
the step at position `i` has the ID `step-i`. -/
structure S.Inv (s : S) : Prop where
  current : s.currentStep = if s.steps = [] then none else some (s.steps.length - 1)
  counter : s.stepCounter = s.steps.length
  ids : s.steps.map (fun st => st.ID) = (List.range s.steps.length).map stepID

/-- A library whose JSON serialisation always fails, for concrete evaluations. -/
def plainLib : Lib := { marshalIndent := fun _ => none, sprintV := fun _ => "?" }

/-- A fresh story with no options, for concrete evaluations. -/
def story0 : S := (Init { Name := "TestStory" } "a scenario" [] 0 {}).story

/-- Read a list of decimal digit characters back as a number. -/
def readDigits (cs : List Char) : Nat :=
  cs.foldl (fun acc c => 10 * acc + (c.toNat - 48)) 0

/-- The frame of the step list between an earlier story `a` and a later story `b`: no step
was removed, and every step of `a` except its last one is still there, unchanged, at the
same position. -/
def Frame (a b : S) : Prop :=
  a.steps.length ≤ b.steps.length ∧ a.steps.dropLast <+: b.steps

/-- The step literal `addStep` builds and appends. -/
def S.newStep (s : S) (keyword txt : String) : StoryStep :=
  { ID := stepID s.stepCounter
    Keyword := if isPrimary keyword && s.seenPrimary.contains keyword then "And" else keyword
    Text := txt }

/-- The story as the body handed to `Fn` finds it: `addStep` has run and the new step is
marked wrapped. -/
def S.atBodyStart (s : S) (keyword txt : String) : S :=
  { s.addStep keyword txt with steps := s.steps ++
      [{ s.newStep keyword txt with Wrapped := true }] }

/-- A story as `Init` leaves it when the options come from the exported constructors:
no step, nothing seen, counter zero, no current step. -/
structure S.Fresh (s : S) : Prop where
  steps : s.steps = []
  seen : s.seenPrimary = []
  counter : s.stepCounter = 0
  current : s.currentStep = none
  docs : s.docs = []
  attachments : s.attachments = []

/-- The step stored for the call `call` at position `i` of `calls`. -/
def textStepAt (calls : List (Keyword × String)) (i : Nat) (call : Keyword × String) :
    StoryStep :=
  { ID := stepID i
    Keyword :=
      match call.1.primary? with
      | some p =>
        if p ∈ (primaryOnly (calls.take i)).map Prod.fst then "And" else p.literal
      | none => call.1.literal
    Text := call.2 }

/-- Test code that creates no step: no text-step call, no `Fn`, no `Expect`. -/
def Script.noStep : Script → Bool
  | .ret => true
  | .panic _ => true
  | .effect _ rest => rest.noStep
  | .step _ _ _ => false
  | .doc _ rest => rest.noStep
  | .Attach _ _ _ rest => rest.noStep
  | .AttachInline _ _ _ _ rest => rest.noStep
  | .Fn _ _ _ _ _ _ => false
  | .Expect _ _ _ _ _ => false

/-- Test code in which the bodies handed to `Fn` and `Expect` create no step. -/
def Script.flat : Script → Bool
  | .ret => true
  | .panic _ => true
  | .effect _ rest => rest.flat
  | .step _ _ rest => rest.flat
  | .doc _ rest => rest.flat
  | .Attach _ _ _ rest => rest.flat
  | .AttachInline _ _ _ _ rest => rest.flat
  | .Fn _ _ _ _ body rest => body.noStep && rest.flat
  | .Expect _ _ _ body rest => body.noStep && rest.flat

/-- The wrapped flag and the duration of a step. -/
def timing (st : StoryStep) : Bool × Option Int := (st.Wrapped, st.DurationMs)

/-- Every step has a duration exactly when it is wrapped. -/
def Timed (s : S) : Prop :=
  ∀ p ∈ s.steps.map timing, p.2.isSome = p.1

/-- Go `strings.Join(parts, string(sep))` on character lists: the parts with `sep` between
neighbours. -/
def joinChars (sep : Char) : List (List Char) → List Char
  | [] => []
  | [p] => p
  | p :: q :: rest => p ++ sep :: joinChars sep (q :: rest)

/-- What can happen to the package state of `collector.go` between two points of a test
run: a story is created, a finished case is recorded (directly or by a finalizer that
`Init` registered), or the cases are read. -/
inductive Event where
  | Init (t : TestingT) (scenario : String) (opts : List Opt) (now : Int)
  | record (tc : RawTestCase)
  | finalize (s : S) (t : TestingT) (now : Int)
  | getAll

/-- Run the events in order: the stories the `Init` calls returned, in creation order,
and the collector afterwards.  (Builder calls act on a story and have no access to the
collector, so they are no events.) -/
def runEvents : Collector → List Event → List S × Collector
  | c, [] => ([], c)
  | c, .Init t scenario opts now :: rest =>
    let r := ES.Init t scenario (opts.map Opt.fn) now c
    let out := runEvents r.collector rest
    (r.story :: out.1, out.2)
  | c, .record tc :: rest => runEvents (record tc c) rest
  | c, .finalize s t now :: rest => runEvents (finalizer s t now c) rest
  | c, .getAll :: rest =>
    let _cases := getAll c
    runEvents c rest

/-- The number of `Init` calls among the events. -/
def countInit : List Event → Nat
  | [] => 0
  | .Init _ _ _ _ :: rest => countInit rest + 1
  | _ :: rest => countInit rest

/-- The fields of a story that only `Init` and its options assign. -/
def S.header (s : S) :
    String × List String × List String × Option (List (String × GoAny)) × TestingT × Int × Nat :=
  (s.scenario, s.tags, s.tickets, s.meta, s.t, s.startTime, s.sourceOrder)

/-- The story after test code has run on it. -/
def storyAfter (script : Script) (s : S) (log : List String) : S :=
  (script.run { story := s, log := log }).1.story

/-- The arguments of a `WithTags` option (none for the other options). -/
def Opt.tagsArg : Opt → List String
  | .tags xs => xs
  | _ => []

/-- The arguments of a `WithTicket` option (none for the other options). -/
def Opt.ticketArg : Opt → List String
  | .ticket xs => xs
  | _ => []

/-- Whether the option is a `WithMeta` option. -/
def Opt.isMeta : Opt → Bool
  | .meta _ => true
  | _ => false

/-- The `kind` constant of each doc method, as the specification lists them. -/
def DocCall.kindConstant : DocCall → String
  | .Note _ => "note"
  | .Tag _ => "tag"
  | .Kv _ _ => "kv"
  | .JSON _ _ => "code"
  | .Code _ _ _ => "code"
  | .Table _ _ _ => "table"
  | .Link _ _ => "link"
  | .Section _ _ => "section"
  | .Mermaid _ _ => "mermaid"
  | .Screenshot _ _ => "screenshot"
  | .Custom _ _ => "custom"

/-- The kind-specific fields of each doc method, holding its arguments: as the
specification describes them.  The optional title of `Mermaid` and alt text of
`Screenshot` are fields only when given and not empty; the content of `JSON` is the
serialised value, with language `json`. -/
def DocCall.argFields (lib : Lib) : DocCall → List (String × DocValue)
  | .Note text => [("text", .str text)]
  | .Tag names => [("names", .strs names)]
  | .Kv label value => [("label", .str label), ("value", .any value)]
  | .JSON label value =>
    [("label", .str label),
      ("content", .str ((lib.marshalIndent value).getD (lib.sprintV value))),
      ("lang", .str "json")]
  | .Code label content lang =>
    [("label", .str label), ("content", .str content), ("lang", .str (lang.headD ""))]
  | .Table label columns rows =>
    [("label", .str label), ("columns", .strs columns), ("rows", .rows rows)]
  | .Link label url => [("label", .str label), ("url", .str url)]
  | .Section title markdown => [("title", .str title), ("markdown", .str markdown)]
  | .Mermaid code title =>
    ("code", .str code) :: (if title.headD "" = "" then [] else [("title", .str (title.headD ""))])
  | .Screenshot path alt =>
    ("path", .str path) :: (if alt.headD "" = "" then [] else [("alt", .str (alt.headD ""))])
  | .Custom typeName data => [("type", .str typeName), ("data", .any data)]

/-- A sequence of doc calls, in call order. -/
def runDocs (lib : Lib) (s : S) (calls : List DocCall) : S :=
  calls.foldl (fun acc call => acc.docCall lib call) s

/-- The objects on the heap that the fields of pointer, slice and map type of a
`RawTestCase` refer to, by address: the `StoryMeta` behind `Story`, the backing arrays of
`TitlePath`, `Attachments` and `StepEvents`, the `float64` behind `DurationMs`, the
`RawError` behind `Error`, and the map `Meta`. -/
structure Objs where
  stories : List StoryMeta := []
  strings : List (List String) := []
  floats : List Int := []
  errors : List RawError := []
  maps : List (List (String × GoAny)) := []
  attachments : List (List RawAttachment) := []
  events : List (List RawStepEvent) := []
  deriving DecidableEq, Repr

/-- A `RawTestCase` struct as it lies in a variable or in a slot of a backing array: the
fields of string and integer type by value, the fields of pointer, slice and map type by
the address of what they refer to (`none` for nil; a slice field refers to its backing
array). Copying the struct, as `append` and `copy` do, copies the addresses, not the
objects. -/
structure CaseCell where
  ExternalID : String := ""
  Title : String := ""
  TitlePath : Option Nat := none
  Story : Option Nat := none
  SourceFile : String := ""
  Status : String := ""
  DurationMs : Option Nat := none
  Error : Option Nat := none
  Meta : Option Nat := none
  Retry : Int := 0
  Retries : Int := 0
  Attachments : Option Nat := none
  StepEvents : Option Nat := none
  deriving DecidableEq, Repr

/-- The test case a struct stands for: its fields with the references followed. -/
def CaseCell.deref (o : Objs) (c : CaseCell) : RawTestCase :=
  { ExternalID := c.ExternalID
    Title := c.Title
    TitlePath := (c.TitlePath.bind (fun a => o.strings[a]?)).getD []
    Story := c.Story.bind (fun a => o.stories[a]?)
    SourceFile := c.SourceFile
    Status := c.Status
    DurationMs := c.DurationMs.bind (fun a => o.floats[a]?)
    Error := c.Error.bind (fun a => o.errors[a]?)
    Meta := c.Meta.bind (fun a => o.maps[a]?)
    Retry := c.Retry
    Retries := c.Retries
    Attachments := (c.Attachments.bind (fun a => o.attachments[a]?)).getD []
    StepEvents := (c.StepEvents.bind (fun a => o.events[a]?)).getD [] }

/-- A write through a field of pointer, slice or map type of a test-case struct `tc`:
`tc.Story.X = ...`, `tc.TitlePath[j] = v`, `*tc.DurationMs = v`, `tc.Error.X = ...`,
`tc.Meta[k] = v`, `tc.Attachments[j].X = ...`, `tc.StepEvents[j].X = ...`. -/
inductive RefWrite where
  | story (f : StoryMeta → StoryMeta)
  | titlePath (j : Nat) (v : String)
  | durationMs (v : Int)
  | error (f : RawError → RawError)
  | meta (k : String) (v : GoAny)
  | attachment (j : Nat) (f : RawAttachment → RawAttachment)
  | stepEvent (j : Nat) (f : RawStepEvent → RawStepEvent)

/-- The heap objects after a write through a reference of the struct `c` (through a nil
reference, or out of range, the write panics and nothing is written). -/
def writeThrough (o : Objs) (c : CaseCell) : RefWrite → Objs
  | .story f =>
    match c.Story with
    | some a => { o with stories := modifyAt f a o.stories }
    | none => o
  | .titlePath j v =>
    match c.TitlePath with
    | some a => { o with strings := modifyAt (fun xs => xs.set j v) a o.strings }
    | none => o
  | .durationMs v =>
    match c.DurationMs with
    | some a => { o with floats := modifyAt (fun _ => v) a o.floats }
    | none => o
  | .error f =>
    match c.Error with
    | some a => { o with errors := modifyAt f a o.errors }
    | none => o
  | .meta k v =>
    match c.Meta with
    | some a => { o with maps := modifyAt (fun m => mapSet m k v) a o.maps }
    | none => o
  | .attachment j f =>
    match c.Attachments with
    | some a => { o with attachments := modifyAt (fun xs => modifyAt f j xs) a o.attachments }
    | none => o
  | .stepEvent j f =>
    match c.StepEvents with
    | some a => { o with events := modifyAt (fun xs => modifyAt f j xs) a o.events }
    | none => o

/-- The backing arrays of the `[]RawTestCase` slices on the heap, by address; the length of
an array is its capacity. -/
abbrev Arrays := List (List CaseCell)

/-- A slice header: the address of the backing array and the length. -/
structure Slice where
  arr : Nat
  len : Nat
  deriving DecidableEq, Repr

/-- The array at an address. -/
def readArr (mem : Arrays) (addr : Nat) : List CaseCell := (mem[addr]?).getD []

/-- The capacity of a slice (0 for the nil slice). -/
def sliceCap (mem : Arrays) : Option Slice → Nat
  | none => 0
  | some sl => (readArr mem sl.arr).length

/-- The length of a slice (0 for the nil slice). -/
def sliceLen : Option Slice → Nat
  | none => 0
  | some sl => sl.len

/-- The elements of a slice (none for the nil slice). -/
def sliceElems (mem : Arrays) : Option Slice → List CaseCell
  | none => []
  | some sl => (readArr mem sl.arr).take sl.len

/-- Go `append(sl, tc)`: with spare capacity the element is written into the backing
array in place; without, a new array is allocated (`spare n` is the extra capacity the
runtime gives an array allocated for `n` elements) and the elements are copied. -/
def appendSlice (spare : Nat → Nat) (mem : Arrays) (sl : Option Slice) (tc : CaseCell) :
    Arrays × Slice :=
  match sl with
  | some s =>
    if s.len < sliceCap mem sl then
      (modifyAt (fun a => a.set s.len tc) s.arr mem, { arr := s.arr, len := s.len + 1 })
    else
      (mem ++ [sliceElems mem sl ++ tc :: List.replicate (spare (s.len + 1)) {}],
        { arr := mem.length, len := s.len + 1 })
  | none => (mem ++ [tc :: List.replicate (spare 1) {}], { arr := mem.length, len := 1 })

/-- Go `copy(dst, src)`: the first `min(len(dst), len(src))` elements of `dst` are
overwritten with those of `src`, struct by struct. -/
def copySlice (dst src : List CaseCell) : List CaseCell :=
  src.take dst.length ++ dst.drop src.length

/-- The package variables of `collector.go` with the slice `collected` on the heap, and
the heap: the backing arrays and the objects the test cases refer to. -/
structure HeapCollector where
  mem : Arrays := []
  objs : Objs := {}
  collected : Option Slice := none
  startTime : Int := 0
  orderSeq : Nat := 0
  deriving DecidableEq, Repr

/-- Go `record` on the heap: the struct `tc` is copied into the slice. -/
def recordH (spare : Nat → Nat) (tc : CaseCell) (h : HeapCollector) : HeapCollector :=
  { h with
    mem := (appendSlice spare h.mem h.collected tc).1
    collected := some (appendSlice spare h.mem h.collected tc).2 }

/-- Go `getAll` on the heap: the state afterwards and the slice returned. `make` allocates
a new backing array and `copy` copies the structs into it; what the structs refer to is
not copied. -/
def getAllH (h : HeapCollector) : HeapCollector × Slice :=
  let result := List.replicate (sliceLen h.collected) ({} : CaseCell)
  ({ h with mem := h.mem ++ [copySlice result (sliceElems h.mem h.collected)] },
    { arr := h.mem.length, len := sliceLen h.collected })

/-- Go `reset` on the heap. -/
def resetH (h : HeapCollector) : HeapCollector :=
  { h with collected := none, orderSeq := 0, startTime := 0 }

/-- An assignment `sl[i] = tc` by the holder of a slice (out of range it panics and
nothing is written). -/
def writeElem (mem : Arrays) (sl : Slice) (i : Nat) (tc : CaseCell) : Arrays :=
  if i < sl.len then modifyAt (fun a => a.set i tc) sl.arr mem else mem

/-- A write `sl[i].F... = v` by the holder of a slice through a reference held in the
element `sl[i]` (out of range it panics and nothing is written). -/
def writeRef (h : HeapCollector) (sl : Slice) (i : Nat) (w : RefWrite) : HeapCollector :=
  match (sliceElems h.mem (some sl))[i]? with
  | some c => { h with objs := writeThrough h.objs c w }
  | none => h

/-- The structs in the slice `collected`. -/
def HeapCollector.cells (h : HeapCollector) : List CaseCell := sliceElems h.mem h.collected

/-- The test cases a slice holds: its structs with the references followed. -/
def sliceValues (h : HeapCollector) (sl : Option Slice) : List RawTestCase :=
  (sliceElems h.mem sl).map (CaseCell.deref h.objs)

/-- The collector a heap state stands for. -/
def HeapCollector.view (h : HeapCollector) : Collector :=
  { collected := sliceValues h h.collected, startTime := h.startTime, orderSeq := h.orderSeq }

/-- The slice `collected` lies in the heap. -/
def HeapCollector.Valid (h : HeapCollector) : Prop :=
  match h.collected with
  | none => True
  | some sl => sl.arr < h.mem.length ∧ sl.len ≤ (readArr h.mem sl.arr).length

/-- The records `tcs`, in order, on the heap. -/
def recordAllH (spare : Nat → Nat) (tcs : List CaseCell) (h : HeapCollector) : HeapCollector :=
  tcs.foldl (fun acc tc => recordH spare tc acc) h

/-- The assignments `writes` to elements of the slice `sl`, in order. -/
def writeAll (h : HeapCollector) (sl : Slice) (writes : List (Nat × CaseCell)) :
    HeapCollector :=
  { h with mem := writes.foldl (fun m w => writeElem m sl w.1 w.2) h.mem }

/-- Go `nextOrder` on the heap. -/
def nextOrderH (h : HeapCollector) : Nat × HeapCollector :=
  (h.orderSeq, { h with orderSeq := h.orderSeq + 1 })

/-- Go `m[k]` on the list of bindings: the value of the first binding of `k`. -/
def mapGet : List (String × GoAny) → String → Option GoAny
  | [], _ => none
  | kv :: rest, k => if kv.1 = k then some kv.2 else mapGet rest k

/-- The map after `for k, v := range src { m[k] = v }`. -/
def mapMerge (m src : List (String × GoAny)) : List (String × GoAny) :=
  src.foldl (fun acc kv => mapSet acc kv.1 kv.2) m

/-- The maps passed to the `WithMeta` options, in option order (the nil map has no
binding). -/
def metaArgs : List Opt → List (List (String × GoAny))
  | [] => []
  | .meta m :: rest => m.getD [] :: metaArgs rest
  | _ :: rest => metaArgs rest

/-- The Go maps on the heap, by address; a map is the list of its bindings. -/
abbrev Maps := List (List (String × GoAny))

/-- The map at an address. -/
def readMap (mem : Maps) (addr : Nat) : List (String × GoAny) := (mem[addr]?).getD []

/-- The map an argument of `WithMeta` denotes: the nil map has no binding. -/
def argMap (mem : Maps) : Option Nat → List (String × GoAny)
  | none => []
  | some a => readMap mem a

/-- Go `WithMeta` on the heap.  `arg` is the address of the map passed in (`none` for the
nil map); the state is the heap and the field `s.meta` (`none` for nil). -/
def WithMetaH (arg : Option Nat) (st : Maps × Option Nat) : Maps × Option Nat :=
  let st1 : Maps × Nat :=
    match st.2 with
    | none => (st.1 ++ [[]], st.1.length)
    | some a => (st.1, a)
  let src := argMap st1.1 arg
  (src.foldl (fun mem kv => modifyAt (fun m => mapSet m kv.1 kv.2) st1.2 mem) st1.1, some st1.2)

/-- The exported options with the map of `WithMeta` given by its address. -/
inductive OptH where
  | tags (xs : List String)
  | ticket (xs : List String)
  | meta (arg : Option Nat)
  deriving DecidableEq, Repr

/-- The option with the map read from the heap. -/
def OptH.toOpt (mem : Maps) : OptH → Opt
  | .tags xs => .tags xs
  | .ticket xs => .ticket xs
  | .meta arg => .meta (arg.map (readMap mem))

/-- The heap and the field `s.meta` after the option loop of `Init`, which starts with
`s.meta` nil. -/
def metaFieldH (mem : Maps) (opts : List OptH) : Maps × Option Nat :=
  opts.foldl
    (fun st o =>
      match o with
      | .meta arg => WithMetaH arg st
      | _ => st)
    (mem, none)

/-- The addresses of the maps passed to the `WithMeta` options. -/
def metaAddrs : List OptH → List Nat
  | [] => []
  | .meta (some a) :: rest => a :: metaAddrs rest
  | _ :: rest => metaAddrs rest

/-- The link between the heap and the value of the field `meta`: the maps that were there
before `Init` are as they were, and `s.meta` is nil or a map allocated since. -/
def MetaRel (mem0 : Maps) (st : Maps × Option Nat) (m : Option (List (String × GoAny))) :
    Prop :=
  st.1.take mem0.length = mem0 ∧
  match st.2 with
  | none => m = none
  | some a => mem0.length ≤ a ∧ a < st.1.length ∧ m = some (readMap st.1 a)

/-- The Go struct `RawCIInfo`. -/
structure RawCIInfo where
  Name : String := ""
  URL : String := ""
  BuildNumber : String := ""
  deriving DecidableEq, Repr

/-- The environment as `os.Getenv` reads it: the value of a variable, `""` when it is not
set. -/
abbrev Env := String → String

/-- The environment with the listed variables set. -/
def envOf (vars : List (String × String)) : Env :=
  fun name => (vars.lookup name).getD ""

/-- Go `detectCI`. -/
def detectCI (getenv : Env) : Option RawCIInfo :=
  if getenv "GITHUB_ACTIONS" = "true" then
    let url := ""
    let server := getenv "GITHUB_SERVER_URL"
    let repo := getenv "GITHUB_REPOSITORY"
    let runID := getenv "GITHUB_RUN_ID"
    let url :=
      if server ≠ "" ∧ repo ≠ "" ∧ runID ≠ "" then server ++ "/" ++ repo ++ "/actions/runs/" ++ runID
      else url
    let ci : RawCIInfo := { Name := "github", BuildNumber := getenv "GITHUB_RUN_NUMBER" }
    let ci := if url ≠ "" then { ci with URL := url } else ci
    some ci
  else if getenv "CIRCLECI" = "true" then
    some
      { Name := "circleci"
        BuildNumber := getenv "CIRCLE_BUILD_NUM"
        URL := getenv "CIRCLE_BUILD_URL" }
  else if getenv "JENKINS_URL" ≠ "" then
    some
      { Name := "jenkins"
        BuildNumber := getenv "BUILD_NUMBER"
        URL := getenv "BUILD_URL" }
  else if getenv "TRAVIS" = "true" then
    some
      { Name := "travis"
        BuildNumber := getenv "TRAVIS_BUILD_NUMBER"
        URL := getenv "TRAVIS_BUILD_WEB_URL" }
  else if getenv "GITLAB_CI" = "true" then
    some
      { Name := "gitlab"
        BuildNumber := getenv "CI_PIPELINE_IID"
        URL := getenv "CI_PIPELINE_URL" }
  else if getenv "CI" = "true" then
    some { Name := "ci" }
  else none

/-- The descriptor of the GitHub branch as the specification describes it: the run URL is
synthesised when the server URL, the repository and the run ID are all present. -/
def githubDescriptor (getenv : Env) : RawCIInfo :=
  { Name := "github"
    URL :=
      if getenv "GITHUB_SERVER_URL" ≠ "" ∧ getenv "GITHUB_REPOSITORY" ≠ "" ∧
          getenv "GITHUB_RUN_ID" ≠ "" then
        getenv "GITHUB_SERVER_URL" ++ "/" ++ getenv "GITHUB_REPOSITORY" ++ "/actions/runs/" ++
          getenv "GITHUB_RUN_ID"
      else ""
    BuildNumber := getenv "GITHUB_RUN_NUMBER" }

/-- The six branches in the order of precedence of the specification, each with its
condition and its descriptor. -/
def ciBranches (getenv : Env) : List (Bool × RawCIInfo) :=
  [ (decide (getenv "GITHUB_ACTIONS" = "true"), githubDescriptor getenv),
    (decide (getenv "CIRCLECI" = "true"),
      { Name := "circleci", URL := getenv "CIRCLE_BUILD_URL",
        BuildNumber := getenv "CIRCLE_BUILD_NUM" }),
    (decide (getenv "JENKINS_URL" ≠ ""),
      { Name := "jenkins", URL := getenv "BUILD_URL", BuildNumber := getenv "BUILD_NUMBER" }),
    (decide (getenv "TRAVIS" = "true"),
      { Name := "travis", URL := getenv "TRAVIS_BUILD_WEB_URL",
        BuildNumber := getenv "TRAVIS_BUILD_NUMBER" }),
    (decide (getenv "GITLAB_CI" = "true"),
      { Name := "gitlab", URL := getenv "CI_PIPELINE_URL",
        BuildNumber := getenv "CI_PIPELINE_IID" }),
    (decide (getenv "CI" = "true"), { Name := "ci", URL := "", BuildNumber := "" }) ]

/-- The five keywords of the specification. -/
def fiveKeywords : List String := ["Given", "When", "Then", "And", "But"]

/-- Test code in which every keyword argument handed to `Fn` is one of the five. -/
def Script.fnKeywordsOk : Script → Bool
  | .ret => true
  | .panic _ => true
  | .effect _ rest => rest.fnKeywordsOk
  | .step _ _ rest => rest.fnKeywordsOk
  | .doc _ rest => rest.fnKeywordsOk
  | .Attach _ _ _ rest => rest.fnKeywordsOk
  | .AttachInline _ _ _ _ rest => rest.fnKeywordsOk
  | .Fn keyword _ _ _ body rest =>
    fiveKeywords.contains keyword && body.fnKeywordsOk && rest.fnKeywordsOk
  | .Expect _ _ _ body rest => body.fnKeywordsOk && rest.fnKeywordsOk

/-- The stored keywords of the steps, in step order. -/
def S.keywords (s : S) : List String := s.steps.map (fun st => st.Keyword)

/-- Every stored keyword is one of the five. -/
def AllFive (s : S) : Prop := ∀ k ∈ s.keywords, k ∈ fiveKeywords

/-- The seen-set agrees with the stored keywords: a primary keyword is marked exactly when
a step is stored with it, and it is the stored keyword of at most one step. -/
def SeenInv (s : S) : Prop :=
  ∀ p : Primary,
    (p.literal ∈ s.seenPrimary ↔ p.literal ∈ s.keywords) ∧ s.keywords.count p.literal ≤ 1

/-- An attachment refers to no step, or by index and ID to one of the first `n` steps. -/
def AttachmentOk (n : Nat) (a : RawAttachment) : Prop :=
  (a.StepIndex = none ∧ a.StepID = none) ∨
    ∃ i : Nat, i < n ∧ a.StepIndex = some (i : Int) ∧ a.StepID = some (stepID i)

/-! ## testmain.go and json_writer.go -/

/-- Go `RawRun`. The two timestamps are the `float64` conversions of integer millisecond
counts, kept here as the integers. -/
structure RawRun where
  SchemaVersion : Int := 0
  TestCases : List RawTestCase := []
  ProjectRoot : String := ""
  StartedAtMs : Option Int := none
  FinishedAtMs : Option Int := none
  PackageVersion : String := ""
  GitSha : String := ""
  CI : Option RawCIInfo := none
  Meta : Option (List (String × GoAny)) := none

/-- A call that changes the filesystem, as attempted: `os.MkdirAll(dir, perm)` or
`os.WriteFile(path, data, perm)`. -/
inductive FsOp where
  | mkdirAll (dir : String) (perm : Nat)
  | writeFile (path : String) (data : String) (perm : Nat)
  deriving DecidableEq, Repr

/-- The error `writeRawRun` returns, by the call it came from. -/
inductive WriteError where
  | mkdir (err : String)
  | marshal (err : String)
  | write (err : String)
  deriving DecidableEq, Repr

/-- How `json.MarshalIndent` ends: it returns the data, it returns an error, or it
panics. The encoder recovers only its own errors; any other panic raised while it walks
the value, such as one raised by a `MarshalJSON` method of a value held in a doc entry or
in the metadata, goes on to the caller. -/
inductive Marshalled where
  | ok (data : String)
  | error (err : String)
  | panic (v : String)
  deriving DecidableEq, Repr

/-- How `writeRawRun` ends: it returns its error (`none` for nil), or the panic of the
serialisation unwinds through it (it has no `recover`). -/
inductive WriteEnding where
  | returned (err : Option WriteError)
  | panicked (v : String)
  deriving DecidableEq, Repr

/-- How `RunAndReport` ends: with `os.Exit(code)`, or with a panic that unwinds through
it (it has no `recover`), so that `os.Exit` is not reached. -/
inductive RunEnding where
  | exit (code : Int)
  | panic (v : String)
  deriving DecidableEq, Repr

/-- The operating system and library calls of `RunAndReport` and `writeRawRun`:
`os.Getenv`, `os.Getwd` (its error is discarded), `filepath.Dir`, the error of
`os.MkdirAll` (`none` on success), `json.MarshalIndent(run, "", "  ")`, and the error of
`os.WriteFile`. -/
structure Sys where
  getenv : Env
  getwd : String
  dir : String → String
  mkdirAll : String → Nat → Option String
  marshalIndent : RawRun → Marshalled
  writeFile : String → String → Nat → Option String

/-- Go `writeRawRun`: the filesystem calls attempted, in order, and how it ends. -/
def writeRawRun (sys : Sys) (run : RawRun) (outputPath : String) :
    List FsOp × WriteEnding :=
  let dir := sys.dir outputPath
  match sys.mkdirAll dir 0o755 with
  | some err => ([.mkdirAll dir 0o755], .returned (some (.mkdir err)))
  | none =>
    match sys.marshalIndent run with
    | .panic v => ([.mkdirAll dir 0o755], .panicked v)
    | .error err => ([.mkdirAll dir 0o755], .returned (some (.marshal err)))
    | .ok data =>
      ([.mkdirAll dir 0o755, .writeFile outputPath data 0o644],
        .returned ((sys.writeFile outputPath data 0o644).map WriteError.write))

/-- Go `Time.UnixMilli` of a reading counted in nanoseconds from the zero `Time`
(January 1, year 1, 00:00:00 UTC), which lies 62135596800 seconds before the Unix
epoch. -/
def unixMilli (t : Int) : Int := (t - 62135596800 * 1000000000) / 1000000

/-- What `RunAndReport` leaves behind: the filesystem calls attempted, how the call of
`writeRawRun` ended (`none` when it was not called; a returned error is discarded), the
collector at the end, and how `RunAndReport` itself ends. -/
structure RunResult where
  ops : List FsOp
  report : Option WriteEnding
  collector : Collector
  ending : RunEnding

/-- Go `RunAndReport`. `mRun` is `m.Run()`: the exit code of the test run and the
collector it leaves; `start` and `finish` are the two readings of `time.Now()`. -/
def RunAndReport (sys : Sys) (mRun : Collector → Int × Collector) (start finish : Int)
    (c : Collector) : RunResult :=
  let c := { c with startTime := start }
  let (code, c) := mRun c
  let finishTime := finish
  let cases := getAll c
  if cases.length > 0 then
    let outputPath := sys.getenv "EXECUTABLE_STORIES_OUTPUT"
    let outputPath := if outputPath = "" then ".executable-stories/raw-run.json" else outputPath
    let startMs := unixMilli c.startTime
    let finishMs := unixMilli finishTime
    let cwd := sys.getwd
    let run : RawRun :=
      { SchemaVersion := 1, TestCases := cases, ProjectRoot := cwd,
        StartedAtMs := some startMs, FinishedAtMs := some finishMs,
        CI := detectCI sys.getenv }
    let w := writeRawRun sys run outputPath
    match w.2 with
    | .returned _ => { ops := w.1, report := some w.2, collector := c, ending := .exit code }
    | .panicked v => { ops := w.1, report := some w.2, collector := c, ending := .panic v }
  else
    { ops := [], report := none, collector := c, ending := .exit code }

/-- The path `RunAndReport` writes to. -/
def outputPathOf (getenv : Env) : String :=
  if getenv "EXECUTABLE_STORIES_OUTPUT" = "" then ".executable-stories/raw-run.json"
  else getenv "EXECUTABLE_STORIES_OUTPUT"

/-- The document `RunAndReport` builds from the collector `c` left by the test run. -/
def runDocument (sys : Sys) (finish : Int) (c : Collector) : RawRun :=
  { SchemaVersion := 1, TestCases := getAll c, ProjectRoot := sys.getwd,
    StartedAtMs := some (unixMilli c.startTime), FinishedAtMs := some (unixMilli finish),
    CI := detectCI sys.getenv }

/-- A system on which every call succeeds; the serialisation is the number of test
cases. -/
def okSys : Sys :=
  { getenv := envOf [], getwd := "/repo", dir := fun _ => ".executable-stories",
    mkdirAll := fun _ _ => none,
    marshalIndent := fun run => .ok (toString run.TestCases.length),
    writeFile := fun _ _ _ => none }

/-! ## types.go: the JSON form of a step -/

/-- A JSON value of a member of a step object. -/
inductive StepValue where
  | str (s : String)
  | bool (b : Bool)
  | num (n : Int)
  | docs (entries : List DocEntry)

/-- The members `encoding/json` writes for a `StoryStep`, in field order, following the
struct tags: `keyword` and `text` always; `id`, `mode`, `wrapped`, `docs` and `durationMs`
are tagged `omitempty` and left out when the field is the empty value (`""`, `false`, a
slice of length 0, a nil pointer). -/
def StoryStep.jsonMembers (st : StoryStep) : List (String × StepValue) :=
  (if st.ID = "" then [] else [("id", .str st.ID)]) ++
  [("keyword", .str st.Keyword), ("text", .str st.Text)] ++
  (if st.Mode = "" then [] else [("mode", .str st.Mode)]) ++
  (if st.Wrapped = false then [] else [("wrapped", .bool st.Wrapped)]) ++
  (if st.Docs.length = 0 then [] else [("docs", .docs st.Docs)]) ++
  (match st.DurationMs with
   | none => []
   | some d => [("durationMs", .num d)])

/-- The member names of the JSON object of a step. -/
def StoryStep.jsonKeys (st : StoryStep) : List String :=
  st.jsonMembers.map (fun m => m.1)

/-! ## collector.go under concurrent flows

All accesses to `collected` and `orderSeq` happen between `mu.Lock()` and the deferred
`mu.Unlock()`, so the program is free of data races and its executions are the
interleavings of the statements of the flows. The model runs a set of flows under an
arbitrary schedule, one statement at a time. -/

/-- A call a flow makes on the collector: `nextOrder()` (from `Init`) or `record(tc)`
(from the finalizer that `Init` registers). -/
inductive CollectorCall where
  | nextOrder
  | record (tc : RawTestCase)
  deriving DecidableEq, Repr

/-- Where a flow stands inside its current call: outside any call; after `mu.Lock()`;
in `nextOrder` after `n := orderSeq`, after the read of `orderSeq++`, after its write;
in `record` after the read of `collected` by `append`, after the assignment. The local
variables are kept with the position. -/
inductive Pc where
  | idle
  | locked
  | readSeq (n : Nat)
  | loadedSeq (n tmp : Nat)
  | storedSeq (n : Nat)
  | loadedCol (old : List RawTestCase)
  | storedCol
  deriving DecidableEq, Repr

/-- A flow: the calls it still has to make (the first one may be under way), its position,
and the values `nextOrder` has returned to it. -/
structure Flow where
  calls : List CollectorCall
  pc : Pc := .idle
  got : List Nat := []
  deriving DecidableEq, Repr

/-- One statement of a flow, given the holder of the mutex and the collector: the holder
and the collector afterwards and the flow afterwards. `mu.Lock()` waits while the mutex
is held; the deferred `mu.Unlock()` runs when the call returns. -/
def Flow.step (tid : Nat) (mu : Option Nat) (c : Collector) (f : Flow) :
    Option Nat × Collector × Flow :=
  match f.pc, f.calls with
  | .idle, _ :: _ =>
    if mu = none then (some tid, c, { f with pc := .locked }) else (mu, c, f)
  | .locked, .nextOrder :: _ => (mu, c, { f with pc := .readSeq c.orderSeq })
  | .readSeq n, .nextOrder :: _ => (mu, c, { f with pc := .loadedSeq n c.orderSeq })
  | .loadedSeq n tmp, .nextOrder :: _ =>
    (mu, { c with orderSeq := tmp + 1 }, { f with pc := .storedSeq n })
  | .storedSeq n, .nextOrder :: rest =>
    (none, c, { calls := rest, pc := .idle, got := f.got ++ [n] })
  | .locked, .record _ :: _ => (mu, c, { f with pc := .loadedCol c.collected })
  | .loadedCol old, .record tc :: _ =>
    (mu, { c with collected := old ++ [tc] }, { f with pc := .storedCol })
  | .storedCol, .record _ :: rest => (none, c, { f with calls := rest, pc := .idle })
  | _, _ => (mu, c, f)

/-- The process: the holder of `mu`, the package variables, and the flows. -/
structure Conc where
  mu : Option Nat := none
  c : Collector := {}
  flows : List Flow := []
  deriving DecidableEq, Repr

/-- The scheduler lets flow `tid` execute one statement. -/
def Conc.step (st : Conc) (tid : Nat) : Conc :=
  match st.flows[tid]? with
  | none => st
  | some f =>
    { mu := (f.step tid st.mu st.c).1
      c := (f.step tid st.mu st.c).2.1
      flows := st.flows.set tid (f.step tid st.mu st.c).2.2 }

/-- Run a schedule: the flow named by each entry executes one statement. -/
def Conc.run (st : Conc) (sched : List Nat) : Conc := sched.foldl Conc.step st

/-- The flows with the given calls, started after `reset()`. -/
def Conc.start (progs : List (List CollectorCall)) (c : Collector) : Conc :=
  { mu := none, c := reset c, flows := progs.map (fun p => { calls := p }) }

/-- Every flow has returned from all its calls. -/
def Conc.finished (st : Conc) : Bool := st.flows.all (fun f => f.calls.isEmpty)

/-- All values `nextOrder` has returned, flow by flow. -/
def Conc.orders (st : Conc) : List Nat := (st.flows.map (fun f => f.got)).flatten

/-- The test cases a list of calls records. -/
def recordsOf : List CollectorCall → List RawTestCase
  | [] => []
  | .nextOrder :: rest => recordsOf rest
  | .record tc :: rest => tc :: recordsOf rest

/-- The number of `nextOrder` calls in a list of calls. -/
def ordersOf : List CollectorCall → Nat
  | [] => 0
  | .nextOrder :: rest => ordersOf rest + 1
  | .record _ :: rest => ordersOf rest

/-- The values a flow has taken from the sequence: those returned to it and the one it
is about to return. -/
def Flow.taken (f : Flow) : List Nat :=
  f.got ++ (match f.pc with
    | .storedSeq n => [n]
    | _ => [])

/-- The test cases a flow has still to store. -/
def Flow.pending (f : Flow) : List RawTestCase :=
  match f.pc, f.calls with
  | .storedCol, _ :: rest => recordsOf rest
  | _, calls => recordsOf calls

/-- The number of values a flow has still to take from the sequence. -/
def Flow.todo (f : Flow) : Nat :=
  match f.pc, f.calls with
  | .storedSeq _, _ :: rest => ordersOf rest
  | _, calls => ordersOf calls

/-- The local variables of a flow agree with the collector and its position fits the
call under way. -/
def Flow.pcOk (c : Collector) (f : Flow) : Prop :=
  match f.pc with
  | .idle => True
  | .locked => f.calls ≠ []
  | .readSeq n => (∃ rest, f.calls = .nextOrder :: rest) ∧ n = c.orderSeq
  | .loadedSeq n tmp => (∃ rest, f.calls = .nextOrder :: rest) ∧ n = c.orderSeq ∧ tmp = c.orderSeq
  | .storedSeq n => (∃ rest, f.calls = .nextOrder :: rest) ∧ c.orderSeq = n + 1
  | .loadedCol old => (∃ tc rest, f.calls = .record tc :: rest) ∧ old = c.collected
  | .storedCol => ∃ tc rest, f.calls = .record tc :: rest

/-- The statements a flow has still to execute (an upper bound used for progress). -/
def Flow.fuel (f : Flow) : Nat :=
  5 * f.calls.tail.length +
    (match f.pc with
     | .idle => if f.calls = [] then 0 else 5
     | .locked => 4
     | .readSeq _ => 3
     | .loadedSeq _ _ => 2
     | .storedSeq _ => 1
     | .loadedCol _ => 2
     | .storedCol => 1)

/-- The statements the process has still to execute. -/
def Conc.fuel (st : Conc) : Nat := (st.flows.map Flow.fuel).sum

/-- The invariant of the process started with the calls `progs`: only the holder of the
mutex is inside a call, the holder is one of the flows, the values taken are the numbers
below `orderSeq`, nothing recorded is lost, and the calls still to come add up. -/
structure Conc.Inv (progs : List (List CollectorCall)) (st : Conc) : Prop where
  holder : ∀ (tid : Nat) (f : Flow), st.flows[tid]? = some f → (f.pc ≠ .idle ↔ st.mu = some tid)
  held : ∀ tid : Nat, st.mu = some tid → ∃ f, st.flows[tid]? = some f
  pcs : ∀ (tid : Nat) (f : Flow), st.flows[tid]? = some f → f.pcOk st.c
  taken : List.Perm (st.flows.map Flow.taken).flatten (List.range st.c.orderSeq)
  records : List.Perm (st.c.collected ++ (st.flows.map Flow.pending).flatten)
    (progs.map recordsOf).flatten
  todo : st.c.orderSeq + (st.flows.map Flow.todo).sum = (progs.map ordersOf).sum

/-- The round-robin schedule of `n` flows for `k` rounds. -/
def roundRobin (n : Nat) : Nat → List Nat
  | 0 => []
  | k + 1 => List.range n ++ roundRobin n k

/-- The calls of a flow that creates and finalizes `m` stories one after the other. -/
def storiesInTurn (tc : Nat → RawTestCase) : Nat → List CollectorCall
  | 0 => []
  | m + 1 => storiesInTurn tc m ++ [.nextOrder, .record (tc m)]

/-! ## Sequences of builder calls -/

/-- A builder call on a story: a text step, a doc method, `Attach` or `AttachInline`. -/
inductive BuilderCall where
  | step (k : Keyword) (txt : String)
  | doc (call : DocCall)
  | Attach (name mediaType path : String)
  | AttachInline (name mediaType body encoding : String)
  deriving DecidableEq, Repr

/-- One builder call. -/
def S.builderCall (lib : Lib) (s : S) : BuilderCall → S
  | .step k txt => s.textCall k txt
  | .doc call => s.docCall lib call
  | .Attach name mediaType path => s.Attach name mediaType path
  | .AttachInline name mediaType body encoding => s.AttachInline name mediaType body encoding

/-- A sequence of builder calls, in call order. -/
def runCalls (lib : Lib) (s : S) (calls : List BuilderCall) : S :=
  calls.foldl (fun acc call => acc.builderCall lib call) s

/-- Whether the call is a text step. -/
def BuilderCall.isStep : BuilderCall → Bool
  | .step _ _ => true
  | _ => false

/-- The sequence with all doc and attachment calls removed. -/
def stepCallsOnly (calls : List BuilderCall) : List BuilderCall :=
  calls.filter BuilderCall.isStep

/-- The id, keyword, text and wrapped flag of a step. -/
def stepShape (st : StoryStep) : String × String × String × Bool :=
  (st.ID, st.Keyword, st.Text, st.Wrapped)

/-- A step with its doc entries left out. -/
def StoryStep.withoutDocs (st : StoryStep) : StoryStep := { st with Docs := [] }

/-- Two stories that create steps alike: the same steps up to their doc entries, and the
same state of `addStep` (seen-set, counter, current step). -/
structure SameSteps (s s1 : S) : Prop where
  steps : s.steps.map StoryStep.withoutDocs = s1.steps.map StoryStep.withoutDocs
  seen : s.seenPrimary = s1.seenPrimary
  counter : s.stepCounter = s1.stepCounter
  current : s.currentStep = s1.currentStep

/-! ## `JSON` with every ending of the library calls

`Lib` gives `json.MarshalIndent` and `fmt.Sprintf` where both return. Neither `jsonEntry`
nor `JSON` has a `recover`, so a call of the library that does not return ends them too. -/

/-- How `fmt.Sprintf("%v", value)` ends: it returns the text (a panic of a `String` or
`Error` method is caught by `fmt` and printed into the text), or the process dies:
formatting a value that contains itself, such as a map stored under one of its own keys,
recurses until the stack overflows, a fatal error that no `recover` stops. -/
inductive Printed where
  | text (s : String)
  | fatal
  deriving DecidableEq, Repr

/-- A call that does not return: a panic unwinds through it, or the process dies. -/
inductive NoReturn where
  | panic (v : String)
  | fatal
  deriving DecidableEq, Repr

/-- The library calls of `jsonEntry` with every way they end:
`json.MarshalIndent(value, prefix, indent)` and `fmt.Sprintf("%v", value)`. -/
structure GoLib where
  marshalIndent : GoAny → String → String → Marshalled
  sprintV : GoAny → Printed

/-- Go `jsonEntry`, with the endings of the library calls. -/
def jsonEntryGo (lib : GoLib) (label : String) (value : GoAny) : Except NoReturn DocEntry :=
  match lib.marshalIndent value "" "  " with
  | .panic v => .error (.panic v)
  | .ok b => .ok (codeEntry label b "json")
  | .error _ =>
    match lib.sprintV value with
    | .fatal => .error .fatal
    | .text b => .ok (codeEntry label b "json")

/-- Go `(*S).JSON`, with the endings of the library calls: the story afterwards and how
the call ended (`none`: it returned). -/
def S.JSONGo (lib : GoLib) (s : S) (label : String) (value : GoAny) : S × Option NoReturn :=
  match jsonEntryGo lib label value with
  | .ok entry => (s.addDoc entry, none)
  | .error e => (s, some e)

/-- The library on the values for which it returns. -/
def GoLib.toLib (lib : GoLib) : Lib :=
  { marshalIndent := fun v =>
      match lib.marshalIndent v "" "  " with
      | .ok b => some b
      | _ => none
    sprintV := fun v =>
      match lib.sprintV v with
      | .text b => b
      | .fatal => "" }

/-- The hexadecimal digit of a number below 16, in lower case. -/
def hexDigit (n : Nat) : Char := Char.ofNat (if n < 10 then 48 + n else 87 + n)

/-- The characters `encoding/json` writes for one character of a string: the quote and the
backslash are escaped with a backslash, backspace, form feed, newline, carriage return and
tab as `\b`, `\f`, `\n`, `\r`, `\t`, the other control characters, `<`, `>`, `&`, U+2028
and U+2029 as `\u` with four hexadecimal digits, every other character as itself. -/
def jsonEscape (c : Char) : List Char :=
  if c.toNat = 34 then [Char.ofNat 92, Char.ofNat 34]
  else if c.toNat = 92 then [Char.ofNat 92, Char.ofNat 92]
  else if c.toNat = 8 then [Char.ofNat 92, Char.ofNat 98]
  else if c.toNat = 12 then [Char.ofNat 92, Char.ofNat 102]
  else if c.toNat = 10 then [Char.ofNat 92, Char.ofNat 110]
  else if c.toNat = 13 then [Char.ofNat 92, Char.ofNat 114]
  else if c.toNat = 9 then [Char.ofNat 92, Char.ofNat 116]
  else if c.toNat < 32 ∨ c.toNat = 60 ∨ c.toNat = 62 ∨ c.toNat = 38 ∨ c.toNat = 8232 ∨
      c.toNat = 8233 then
    [Char.ofNat 92, Char.ofNat 117, hexDigit (c.toNat / 4096 % 16),
      hexDigit (c.toNat / 256 % 16), hexDigit (c.toNat / 16 % 16), hexDigit (c.toNat % 16)]
  else [c]

/-- The JSON text of a Go string. -/
def jsonQuote (s : String) : String :=
  String.mk (Char.ofNat 34 :: (s.data.map jsonEscape).flatten ++ [Char.ofNat 34])

/-- A library for concrete evaluations. The scalar values are serialised and printed as
Go does. The references stand for: 0, a value whose `MarshalJSON` method panics with
`boom`; 1, a channel (no JSON form, printed as its address); 2, a map stored under its own
key `self` (the encoder reports the cycle, the printer never ends); 3, the map
`map[string]int{"a": 1}`; any other, a nil pointer. -/
def sampleLib : GoLib :=
  { marshalIndent := fun v pre indent =>
      match v with
      | .null => .ok "null"
      | .bool b => .ok (if b then "true" else "false")
      | .int n => .ok (toString n)
      | .str s => .ok (jsonQuote s)
      | .ref 0 => .panic "boom"
      | .ref 1 => .error "json: unsupported type: chan int"
      | .ref 2 =>
        .error "json: unsupported value: encountered a cycle via map[string]interface \x7b\x7d"
      | .ref 3 => .ok ("\x7b\n" ++ pre ++ indent ++ "\"a\": 1\n" ++ pre ++ "\x7d")
      | .ref _ => .ok "null"
    sprintV := fun v =>
      match v with
      | .null => .text "<nil>"
      | .bool b => .text (if b then "true" else "false")
      | .int n => .text (toString n)
      | .str s => .text s
      | .ref 0 => .text "\x7b\x7d"
      | .ref 1 => .text "0xc000020060"
      | .ref 2 => .fatal
      | .ref 3 => .text "map[a:1]"
      | .ref _ => .text "<nil>" }

/-! ## Theorems -/

theorem Opt.fn_fresh (o : Opt) (s : S) (h : s.Fresh) : (o.fn s).Fresh := by
  cases o <;> exact ⟨h.steps, h.seen, h.counter, h.current, h.docs, h.attachments⟩

theorem foldl_opts_fresh (opts : List Opt) (s : S) (h : s.Fresh) :
    ((opts.map Opt.fn).foldl (fun acc opt => opt acc) s).Fresh := by
  induction opts generalizing s with
  | nil => exact h
  | cons o os ih => exact ih _ (Opt.fn_fresh o s h)

theorem Init_fresh (t : TestingT) (scenario : String) (opts : List Opt) (now : Int)
    (c : Collector) : (Init t scenario (opts.map Opt.fn) now c).story.Fresh :=
  foldl_opts_fresh opts _ ⟨rfl, rfl, rfl, rfl, rfl, rfl⟩

theorem runPrimary_snoc (s : S) (calls : List (Primary × String)) (c : Primary × String) :
    runPrimary s (calls ++ [c]) = (runPrimary s calls).primaryCall c.1 c.2 := by
  simp [runPrimary, List.foldl_append]

theorem Primary.isPrimary_literal (k : Primary) : isPrimary k.literal = true := by
  cases k <;> rfl

theorem Primary.literal_injective : Function.Injective Primary.literal := by
  intro a b h
  cases a <;> cases b <;> first | rfl | exact absurd h (by decide)

theorem S.primaryCall_eq (s : S) (k : Primary) (text : String) :
    s.primaryCall k text = s.addStep k.literal text := by
  cases k <;> rfl

theorem contains_eq_decide_mem (l : List String) (k : String) :
    l.contains k = decide (k ∈ l) := by
  simp [List.contains]

theorem S.addStep_steps (s : S) (keyword text : String) :
    (s.addStep keyword text).steps = s.steps ++
      [{ ID := stepID s.stepCounter
         Keyword := if isPrimary keyword = true ∧ keyword ∈ s.seenPrimary then "And" else keyword
         Text := text }] := by
  simp [S.addStep, contains_eq_decide_mem]

theorem S.addStep_seenPrimary (s : S) (keyword text : String) :
    (s.addStep keyword text).seenPrimary =
      if isPrimary keyword = true ∧ keyword ∉ s.seenPrimary then s.seenPrimary ++ [keyword]
      else s.seenPrimary := by
  simp [S.addStep, contains_eq_decide_mem]

theorem S.addStep_stepCounter (s : S) (keyword text : String) :
    (s.addStep keyword text).stepCounter = s.stepCounter + 1 := rfl

theorem S.addStep_currentStep (s : S) (keyword text : String) :
    (s.addStep keyword text).currentStep = some s.steps.length := by
  simp [S.addStep]

/-- The state after a sequence of primary calls on a fresh story. -/
theorem runPrimary_state (s : S) (hs : s.Fresh) (calls : List (Primary × String)) :
    (runPrimary s calls).stepCounter = calls.length ∧
    (runPrimary s calls).steps.length = calls.length ∧
    (∀ k : Primary, k.literal ∈ (runPrimary s calls).seenPrimary ↔ k ∈ calls.map Prod.fst) ∧
    ∀ i, (runPrimary s calls).steps[i]? = (calls[i]?).map (primaryStepAt calls i) := by
  induction calls using List.reverseRecOn with
  | nil =>
    refine ⟨hs.counter, by simp [runPrimary, hs.steps], ?_, ?_⟩
    · intro k; simp [runPrimary, hs.seen]
    · intro i; simp [runPrimary, hs.steps]
  | append_singleton calls c ih =>
    obtain ⟨hc, hl, hseen, hsteps⟩ := ih
    rw [runPrimary_snoc, S.primaryCall_eq]
    refine ⟨?_, ?_, ?_, ?_⟩
    · simp [S.addStep_stepCounter, hc]
    · simp [S.addStep_steps, hl]
    · intro k
      rw [S.addStep_seenPrimary]
      simp only [Primary.isPrimary_literal, true_and, List.map_append, List.map_cons,
        List.map_nil, List.mem_append, List.mem_singleton]
      by_cases hin : c.1.literal ∈ (runPrimary s calls).seenPrimary
      · have hmem : c.1 ∈ calls.map Prod.fst := (hseen c.1).1 hin
        rw [if_neg (by simpa using hin), hseen k]
        constructor
        · exact Or.inl
        · rintro (h | h)
          · exact h
          · exact h ▸ hmem
      · rw [if_pos hin, List.mem_append, List.mem_singleton, hseen k]
        constructor
        · rintro (h | h)
          · exact Or.inl h
          · exact Or.inr (Primary.literal_injective h)
        · rintro (h | h)
          · exact Or.inl h
          · exact Or.inr (congrArg _ h)
    · intro i
      have hsteps' : ((runPrimary s calls).addStep c.1.literal c.2).steps =
          (runPrimary s calls).steps ++ [primaryStepAt (calls ++ [c]) calls.length c] := by
        rw [S.addStep_steps]
        simp only [primaryStepAt, Primary.isPrimary_literal, hc, List.take_left, true_and,
          hseen c.1]
      rw [hsteps']
      rcases Nat.lt_trichotomy i calls.length with h | h | h
      · rw [List.getElem?_append_left (by omega), List.getElem?_append_left h, hsteps i]
        simp only [List.getElem?_eq_getElem h, Option.map_some', primaryStepAt]
        rw [List.take_append_of_le_length (by omega)]
      · subst h
        rw [List.getElem?_append_right (by omega), List.getElem?_append_right (by omega)]
        simp [hl]
      · rw [List.getElem?_eq_none (by simp; omega), List.getElem?_eq_none (by simp; omega)]
        rfl

/-- C1: after any finite sequence of Given/When/Then calls on a freshly created story
there is one step per call, in call order; the step at position `i` carries the text of
the `i`-th call, and its keyword is `And` when the same primary keyword was used by an
earlier call of the sequence (adjacent or not) and the literal keyword otherwise. -/
theorem auto_and_for_repeated_primary (t : TestingT) (scenario : String) (opts : List Opt)
    (now : Int) (c : Collector) (calls : List (Primary × String)) :
    (runPrimary (Init t scenario (opts.map Opt.fn) now c).story calls).steps.length
        = calls.length ∧
    ∀ i : Nat, (runPrimary (Init t scenario (opts.map Opt.fn) now c).story calls).steps[i]? =
      (calls[i]?).map (fun call : Primary × String =>
        ({ ID := stepID i
           Keyword :=
             if call.1 ∈ (calls.take i).map Prod.fst then "And" else call.1.literal
           Text := call.2 } : StoryStep)) := by
  have h := runPrimary_state _ (Init_fresh t scenario opts now c) calls
  exact ⟨h.2.1, h.2.2.2⟩

/-- The two sequences of the tests `TestAutoAndForRepeatedKeywords` and
`TestAutoAndForNonConsecutiveKeywords`. -/
theorem auto_and_examples :
    ((runPrimary (Init {} "auto and" [] 0 {}).story
      [(.Given, "g1"), (.Given, "g2"), (.When, "w1"), (.When, "w2"), (.Then, "t1"),
        (.Then, "t2")]).steps.map (fun st => st.Keyword))
      = ["Given", "And", "When", "And", "Then", "And"] ∧
    ((runPrimary (Init {} "auto and" [] 0 {}).story
      [(.Given, "g1"), (.When, "w1"), (.Given, "g2")]).steps.map (fun st => st.Keyword))
      = ["Given", "When", "And"] := by
  decide

theorem runText_snoc (s : S) (calls : List (Keyword × String)) (c : Keyword × String) :
    runText s (calls ++ [c]) = (runText s calls).textCall c.1 c.2 := by
  simp [runText, List.foldl_append]

theorem S.textCall_eq (s : S) (k : Keyword) (text : String) :
    s.textCall k text = s.addStep k.literal text := by
  cases k <;> rfl

theorem primaryOnly_append (xs ys : List (Keyword × String)) :
    primaryOnly (xs ++ ys) = primaryOnly xs ++ primaryOnly ys := by
  simp [primaryOnly, List.filterMap_append]

theorem Keyword.literal_of_primary (k : Keyword) (p : Primary) (h : k.primary? = some p) :
    k.literal = p.literal := by
  cases k <;> cases p <;> simp_all [Keyword.primary?, Keyword.literal, Primary.literal]

theorem Keyword.isPrimary_of_none (k : Keyword) (h : k.primary? = none) :
    isPrimary k.literal = false := by
  cases k <;> first | rfl | simp [Keyword.primary?] at h

/-- The state after a sequence of text-step calls on a fresh story. -/
theorem runText_state (s : S) (hs : s.Fresh) (calls : List (Keyword × String)) :
    (runText s calls).stepCounter = calls.length ∧
    (runText s calls).steps.length = calls.length ∧
    (∀ k : Primary, k.literal ∈ (runText s calls).seenPrimary ↔
      k ∈ (primaryOnly calls).map Prod.fst) ∧
    ∀ i, (runText s calls).steps[i]? = (calls[i]?).map (textStepAt calls i) := by
  induction calls using List.reverseRecOn with
  | nil =>
    refine ⟨hs.counter, by simp [runText, hs.steps], ?_, ?_⟩
    · intro k; simp [runText, hs.seen, primaryOnly]
    · intro i; simp [runText, hs.steps]
  | append_singleton calls c ih =>
    obtain ⟨hc, hl, hseen, hsteps⟩ := ih
    rw [runText_snoc, S.textCall_eq]
    have hkw : (if isPrimary c.1.literal = true ∧ c.1.literal ∈ (runText s calls).seenPrimary
          then "And" else c.1.literal) = (textStepAt (calls ++ [c]) calls.length c).Keyword := by
      simp only [textStepAt, List.take_left]
      cases hp : c.1.primary? with
      | none => simp [Keyword.isPrimary_of_none _ hp]
      | some p =>
        simp only [Keyword.literal_of_primary _ _ hp, Primary.isPrimary_literal, true_and,
          hseen p]
    refine ⟨?_, ?_, ?_, ?_⟩
    · simp [S.addStep_stepCounter, hc]
    · simp [S.addStep_steps, hl]
    · intro k
      rw [S.addStep_seenPrimary, primaryOnly_append]
      cases hp : c.1.primary? with
      | none =>
        have hnil : primaryOnly [c] = [] := by simp [primaryOnly, hp]
        simp [Keyword.isPrimary_of_none _ hp, hseen k, hnil]
      | some p =>
        have hone : primaryOnly [c] = [(p, c.2)] := by simp [primaryOnly, hp]
        rw [Keyword.literal_of_primary _ _ hp, hone]
        simp only [Primary.isPrimary_literal, true_and, List.map_append, List.map_cons,
          List.map_nil, List.mem_append, List.mem_singleton]
        by_cases hin : p.literal ∈ (runText s calls).seenPrimary
        · have hmem := (hseen p).1 hin
          rw [if_neg (by simpa using hin), hseen k]
          constructor
          · exact Or.inl
          · rintro (h | h)
            · exact h
            · exact h ▸ hmem
        · rw [if_pos hin, List.mem_append, List.mem_singleton, hseen k]
          constructor
          · rintro (h | h)
            · exact Or.inl h
            · exact Or.inr (Primary.literal_injective h)
          · rintro (h | h)
            · exact Or.inl h
            · exact Or.inr (congrArg _ h)
    · intro i
      have hsteps' : ((runText s calls).addStep c.1.literal c.2).steps =
          (runText s calls).steps ++ [textStepAt (calls ++ [c]) calls.length c] := by
        rw [S.addStep_steps, hkw, hc]
        rfl
      rw [hsteps']
      rcases Nat.lt_trichotomy i calls.length with h | h | h
      · rw [List.getElem?_append_left (by omega), List.getElem?_append_left h, hsteps i]
        simp only [List.getElem?_eq_getElem h, Option.map_some', textStepAt]
        rw [List.take_append_of_le_length (by omega)]
      · subst h
        rw [List.getElem?_append_right (by omega), List.getElem?_append_right (by omega)]
        simp [hl]
      · rw [List.getElem?_eq_none (by simp; omega), List.getElem?_eq_none (by simp; omega)]
        rfl

theorem primaryOnly_cons_some (c : Keyword × String) (cs : List (Keyword × String))
    (p : Primary) (h : c.1.primary? = some p) :
    primaryOnly (c :: cs) = (p, c.2) :: primaryOnly cs := by
  simp [primaryOnly, List.filterMap_cons, h]

theorem primaryOnly_take_drop (calls : List (Keyword × String)) (i : Nat) :
    primaryOnly calls = primaryOnly (calls.take i) ++ primaryOnly (calls.drop i) := by
  rw [← primaryOnly_append, List.take_append_drop]

/-- C2: in any finite sequence of Given/When/Then/And/But calls on a fresh story, an
`And` call is stored with keyword `And`, a `But` call with keyword `But`, and a
Given/When/Then call is stored with the keyword that the same call gets in the sequence
obtained by deleting all `And`/`But` calls (where it sits at the position counting the
primary calls before it). -/
theorem and_but_verbatim_and_never_seen (t : TestingT) (scenario : String)
    (opts : List Opt) (now : Int) (c : Collector) (calls : List (Keyword × String)) :
    ∀ i : Nat, ((runText (Init t scenario (opts.map Opt.fn) now c).story calls).steps[i]?).map
        (fun st : StoryStep => st.Keyword) =
      (calls[i]?).bind (fun call : Keyword × String =>
        match call.1 with
        | .And => some "And"
        | .But => some "But"
        | _ =>
          ((runPrimary (Init t scenario (opts.map Opt.fn) now c).story
              (primaryOnly calls)).steps[(primaryOnly (calls.take i)).length]?).map
            (fun st => st.Keyword)) := by
  intro i
  have hfresh := Init_fresh t scenario opts now c
  rw [(runText_state _ hfresh calls).2.2.2 i]
  by_cases hi : i < calls.length
  · rw [List.getElem?_eq_getElem hi]
    simp only [Option.map_some', Option.some_bind]
    have hdrop : calls.drop i = calls[i] :: calls.drop (i + 1) := List.drop_eq_getElem_cons hi
    cases hp : calls[i].1.primary? with
    | none =>
      have : calls[i].1 = .And ∨ calls[i].1 = .But := by
        cases hk : calls[i].1 <;> simp_all [Keyword.primary?]
      rcases this with h | h <;> simp [textStepAt, h, Keyword.primary?, Keyword.literal]
    | some p =>
      have hsplit := primaryOnly_take_drop calls i
      have hhead : primaryOnly (calls.drop i) =
          (p, calls[i].2) :: primaryOnly (calls.drop (i + 1)) := by
        rw [hdrop, primaryOnly_cons_some _ _ _ hp]
      have hget : (primaryOnly calls)[(primaryOnly (calls.take i)).length]? =
          some (p, calls[i].2) := by
        rw [hsplit, hhead, List.getElem?_append_right (Nat.le_refl _)]
        simp
      have htake : (primaryOnly calls).take (primaryOnly (calls.take i)).length =
          primaryOnly (calls.take i) := by
        rw [hsplit, List.take_left]
      rw [(runPrimary_state _ hfresh (primaryOnly calls)).2.2.2, hget]
      have hk : (match calls[i].1 with
          | .And => some "And"
          | .But => some "But"
          | _ => some (primaryStepAt (primaryOnly calls)
              (primaryOnly (calls.take i)).length (p, calls[i].2)).Keyword) =
          some (primaryStepAt (primaryOnly calls)
              (primaryOnly (calls.take i)).length (p, calls[i].2)).Keyword := by
        cases hk : calls[i].1 <;> simp_all [Keyword.primary?]
      simp only [Option.map_some']
      rw [hk]
      simp only [textStepAt, hp, primaryStepAt, htake]
  · rw [List.getElem?_eq_none (by omega)]
    rfl

/-- The sequence of `TestExplicitAndAndButSteps` is stored verbatim. -/
theorem and_but_example :
    ((runText (Init {} "order" [] 0 {}).story
      [(.Given, "a"), (.And, "b"), (.And, "c"), (.When, "d"), (.And, "e"), (.Then, "f"),
        (.And, "g"), (.But, "h")]).steps.map (fun st => st.Keyword))
      = ["Given", "And", "And", "When", "And", "Then", "And", "But"] := by
  decide

/-! ### The representation invariant -/

theorem modifyAt_length {α : Type} (f : α → α) (i : Nat) (l : List α) :
    (modifyAt f i l).length = l.length := by
  induction l generalizing i with
  | nil => simp [modifyAt]
  | cons x xs ih => cases i <;> simp [modifyAt, ih]

theorem modifyAt_map {α β : Type} (f : α → α) (g : α → β) (hg : ∀ x, g (f x) = g x) (i : Nat)
    (l : List α) : (modifyAt f i l).map g = l.map g := by
  induction l generalizing i with
  | nil => simp [modifyAt]
  | cons x xs ih => cases i <;> simp [modifyAt, ih, hg]

theorem modifyAt_eq_nil {α : Type} (f : α → α) (i : Nat) (l : List α) :
    modifyAt f i l = [] ↔ l = [] := by
  cases l <;> cases i <;> simp [modifyAt]

theorem modifyAt_snoc {α : Type} (f : α → α) (l : List α) (x : α) :
    modifyAt f l.length (l ++ [x]) = l ++ [f x] := by
  induction l with
  | nil => rfl
  | cons y ys ih => simp [modifyAt, ih]

theorem modifyAt_getElem? {α : Type} (f : α → α) (i j : Nat) (l : List α) :
    (modifyAt f i l)[j]? = if j = i then (l[j]?).map f else l[j]? := by
  induction l generalizing i j with
  | nil => simp [modifyAt]
  | cons x xs ih =>
    cases i with
    | zero => cases j <;> simp [modifyAt]
    | succ i => cases j <;> simp [modifyAt, ih]

theorem S.Fresh.inv_of_fresh {s : S} (h : s.Fresh) : s.Inv :=
  ⟨by simp [h.steps, h.current], by simp [h.steps, h.counter], by simp [h.steps]⟩

theorem S.Inv.inv_addStep {s : S} (h : s.Inv) (keyword txt : String) :
    (s.addStep keyword txt).Inv := by
  refine ⟨?_, ?_, ?_⟩
  · rw [S.addStep_currentStep, S.addStep_steps]; simp
  · rw [S.addStep_stepCounter, S.addStep_steps, h.counter]; simp
  · rw [S.addStep_steps]
    simp [List.range_succ, h.ids, h.counter]

theorem S.Inv.inv_modify {s s1 : S} (h : s.Inv) (f : StoryStep → StoryStep) (i : Nat)
    (hsteps : s1.steps = modifyAt f i s.steps) (hcur : s1.currentStep = s.currentStep)
    (hcnt : s1.stepCounter = s.stepCounter) (hf : ∀ st, (f st).ID = st.ID) : s1.Inv := by
  refine ⟨?_, ?_, ?_⟩
  · rw [hcur, hsteps]; simp only [modifyAt_length, modifyAt_eq_nil]; exact h.current
  · rw [hcnt, hsteps]; simp only [modifyAt_length]; exact h.counter
  · rw [hsteps]; simp only [modifyAt_length]
    rw [modifyAt_map f _ hf]; exact h.ids

theorem S.writeCurrent_eq_some {s s1 : S} {f : StoryStep → StoryStep}
    (hw : s.writeCurrent f = some s1) :
    ∃ i, s.currentStep = some i ∧ s1 = { s with steps := modifyAt f i s.steps } := by
  unfold S.writeCurrent at hw
  split at hw
  · exact absurd hw (by simp)
  · next i hi => exact ⟨i, hi, (Option.some.inj hw).symm⟩

theorem S.Inv.inv_writeCurrent {s s1 : S} (h : s.Inv) {f : StoryStep → StoryStep}
    (hw : s.writeCurrent f = some s1) (hf : ∀ st, (f st).ID = st.ID) : s1.Inv := by
  obtain ⟨i, _, rfl⟩ := S.writeCurrent_eq_some hw
  exact h.inv_modify f i rfl rfl rfl hf

theorem S.addDoc_of_some {s : S} {i : Nat} (hc : s.currentStep = some i) (entry : DocEntry) :
    s.addDoc entry =
      { s with steps := modifyAt (fun st => { st with Docs := st.Docs ++ [entry] }) i s.steps } := by
  simp [S.addDoc, hc]

theorem S.addDoc_of_none {s : S} (hc : s.currentStep = none) (entry : DocEntry) :
    s.addDoc entry = { s with docs := s.docs ++ [entry] } := by
  simp [S.addDoc, hc]

theorem S.Inv.inv_addDoc {s : S} (h : s.Inv) (entry : DocEntry) : (s.addDoc entry).Inv := by
  cases hc : s.currentStep with
  | none => rw [S.addDoc_of_none hc]; exact ⟨h.current, h.counter, h.ids⟩
  | some i => rw [S.addDoc_of_some hc]; exact h.inv_modify _ i rfl rfl rfl (fun _ => rfl)

theorem S.Inv.inv_Attach {s : S} (h : s.Inv) (name mediaType path : String) :
    (s.Attach name mediaType path).Inv :=
  ⟨h.current, h.counter, h.ids⟩

theorem S.Inv.inv_AttachInline {s : S} (h : s.Inv) (name mediaType body encoding : String) :
    (s.AttachInline name mediaType body encoding).Inv :=
  ⟨h.current, h.counter, h.ids⟩

/-- Every reachable story satisfies the representation invariant. -/
theorem Reachable.inv {s : S} (h : Reachable s) : s.Inv := by
  induction h with
  | init t scenario opts now c => exact (Init_fresh t scenario opts now c).inv_of_fresh
  | addStep keyword txt _ ih => exact ih.inv_addStep keyword txt
  | addDoc entry _ ih => exact ih.inv_addDoc entry
  | Attach name mediaType path _ ih => exact ih.inv_Attach name mediaType path
  | AttachInline name mediaType body encoding _ ih =>
    exact ih.inv_AttachInline name mediaType body encoding
  | wrapped _ hw ih => exact ih.inv_writeCurrent hw (fun _ => rfl)
  | duration d _ hw ih => exact ih.inv_writeCurrent hw (fun _ => rfl)

theorem Fn_reachable (keyword txt : String) (body : Body) (start finish : Int) (w : World)
    (hbody : ∀ w1 : World, Reachable w1.story → Reachable (body w1).1.story)
    (hw : Reachable w.story) : Reachable (Fn keyword txt body start finish w).1.story := by
  have h1 : Reachable (w.story.addStep keyword txt) := hw.addStep keyword txt
  simp only [Fn]
  split
  · exact h1
  · next s2 hwr =>
    have h3 := hbody { w with story := s2 } (h1.wrapped hwr)
    split
    · exact h3
    · next s3 hd => exact h3.duration _ hd

/-- Test code takes reachable stories to reachable stories. -/
theorem Script.run_reachable (script : Script) :
    ∀ w : World, Reachable w.story → Reachable (script.run w).1.story := by
  induction script with
  | ret => intro w hw; exact hw
  | panic v => intro w hw; exact hw
  | effect msg rest ih => intro w hw; exact ih _ hw
  | step k txt rest ih =>
    intro w hw
    exact ih _ (by rw [S.textCall_eq]; exact hw.addStep _ _)
  | doc entry rest ih => intro w hw; exact ih _ (hw.addDoc entry)
  | Attach name mediaType path rest ih => intro w hw; exact ih _ (hw.Attach name mediaType path)
  | AttachInline name mediaType body encoding rest ih =>
    intro w hw; exact ih _ (hw.AttachInline name mediaType body encoding)
  | Fn keyword txt start finish body rest ihb ihr =>
    intro w hw
    have h := Fn_reachable keyword txt body.run start finish w ihb hw
    simp only [Script.run]
    cases hr : ES.Fn keyword txt body.run start finish w with
    | mk w1 o =>
      rw [hr] at h
      cases o with
      | none => exact ihr w1 h
      | some v => exact h
  | Expect txt start finish body rest ihb ihr =>
    intro w hw
    have h := Fn_reachable "Then" txt body.run start finish w ihb hw
    simp only [Script.run, ES.Expect]
    cases hr : ES.Fn "Then" txt body.run start finish w with
    | mk w1 o =>
      rw [hr] at h
      cases o with
      | none => exact ihr w1 h
      | some v => exact h

/-! ### Doc targeting -/

theorem S.docCall_eq (lib : Lib) (s : S) (call : DocCall) :
    s.docCall lib call = s.addDoc (call.entry lib) := by
  cases call with
  | Code label content lang => cases lang <;> rfl
  | Mermaid code title => cases title <;> rfl
  | Screenshot path alt => cases alt <;> rfl
  | _ => rfl

theorem S.Inv.addDoc_nil {s : S} (h : s.Inv) (hs : s.steps = []) (entry : DocEntry) :
    s.addDoc entry = { s with docs := s.docs ++ [entry] } :=
  S.addDoc_of_none (by rw [h.current, if_pos hs]) entry

theorem S.Inv.addDoc_snoc {s : S} (h : s.Inv) (init : List StoryStep) (last : StoryStep)
    (hs : s.steps = init ++ [last]) (entry : DocEntry) :
    s.addDoc entry =
      { s with steps := init ++ [{ last with Docs := last.Docs ++ [entry] }] } := by
  have hc : s.currentStep = some init.length := by
    rw [h.current, hs]; simp
  rw [S.addDoc_of_some hc, hs, modifyAt_snoc]

theorem snoc_cases {α : Type} (l : List α) : l = [] ∨ ∃ init last, l = init ++ [last] := by
  induction l using List.reverseRecOn with
  | nil => exact Or.inl rfl
  | append_singleton init last _ => exact Or.inr ⟨init, last, rfl⟩

/-- C4: for every reachable story and every doc call, if the story has no step the entry
is appended at the end of the story-level doc list and the step list stays empty; if it
has a step, the entry is appended at the end of the doc list of the last (most recently
created) step and the story-level doc list is unchanged. -/
theorem doc_call_targets_latest_step (lib : Lib) (s : S) (h : Reachable s) (call : DocCall) :
    (s.docCall lib call).docs = (if s.steps = [] then s.docs ++ [call.entry lib] else s.docs) ∧
    (s.docCall lib call).steps =
      (match s.steps.getLast? with
       | none => []
       | some last => s.steps.dropLast ++ [{ last with Docs := last.Docs ++ [call.entry lib] }]) := by
  rw [S.docCall_eq]
  rcases snoc_cases s.steps with hs | ⟨init, last, hs⟩
  · rw [h.inv.addDoc_nil hs, hs]; simp
  · rw [h.inv.addDoc_snoc init last hs, hs]; simp

/-- A story with two steps, reached by two text-step calls. -/
theorem doc_call_targets_latest_step_witness :
    Reachable ((story0.addStep "Given" "a").addStep "When" "b") ∧
    (((story0.addStep "Given" "a").addStep "When" "b").docCall plainLib (.Note "n")).docs =
      (if ((story0.addStep "Given" "a").addStep "When" "b").steps = []
        then ((story0.addStep "Given" "a").addStep "When" "b").docs
          ++ [(DocCall.Note "n").entry plainLib]
        else ((story0.addStep "Given" "a").addStep "When" "b").docs) ∧
    (((story0.addStep "Given" "a").addStep "When" "b").docCall plainLib (.Note "n")).steps =
      (match ((story0.addStep "Given" "a").addStep "When" "b").steps.getLast? with
       | none => []
       | some last => ((story0.addStep "Given" "a").addStep "When" "b").steps.dropLast ++
          [{ last with Docs := last.Docs ++ [(DocCall.Note "n").entry plainLib] }]) :=
  ⟨((Reachable.init _ _ [] _ _).addStep _ _).addStep _ _,
    doc_call_targets_latest_step plainLib _
      (((Reachable.init _ _ [] _ _).addStep _ _).addStep _ _) (.Note "n")⟩

/-- The calls of `TestDocMethods`: a note before any step goes to the story, a note after
`Given` to step 0, a note after `When` to step 1, and step 0 keeps its single doc. -/
theorem doc_methods_example :
    ((((((story0.docCall plainLib (.Note "story")).textCall .Given "g").docCall plainLib
        (.Note "on g")).textCall .When "w").docCall plainLib (.Note "on w")).docs.length = 1) ∧
    ((((((story0.docCall plainLib (.Note "story")).textCall .Given "g").docCall plainLib
        (.Note "on g")).textCall .When "w").docCall plainLib (.Note "on w")).steps.map
        (fun st => st.Docs)) = [[noteEntry "on g"], [noteEntry "on w"]] := by
  decide

/-! ### Step IDs -/

theorem digitChar_value (k : Nat) (h : k < 10) : (Nat.digitChar k).toNat - 48 = k := by
  interval_cases k <;> rfl

theorem foldl_toDigitsCore (fuel : Nat) : ∀ (n : Nat) (ds : List Char), n < fuel →
    (Nat.toDigitsCore 10 fuel n ds).foldl (fun acc c => 10 * acc + (c.toNat - 48)) 0 =
      ds.foldl (fun acc c => 10 * acc + (c.toNat - 48)) n := by
  induction fuel with
  | zero => intro n ds h; omega
  | succ fuel ih =>
    intro n ds h
    simp only [Nat.toDigitsCore]
    split
    · next h0 =>
      simp only [List.foldl_cons, digitChar_value _ (Nat.mod_lt n (by decide))]
      congr 1
      omega
    · next h0 =>
      rw [ih (n / 10) _ (by omega)]
      simp only [List.foldl_cons, digitChar_value _ (Nat.mod_lt n (by decide))]
      congr 1
      omega

theorem readDigits_repr (n : Nat) : readDigits (Nat.repr n).data = n := by
  simp only [Nat.repr, Nat.toDigits, List.asString, readDigits]
  rw [foldl_toDigitsCore (n + 1) n [] (by omega)]
  rfl

/-- Different counters give different step IDs. -/
theorem stepID_injective : Function.Injective stepID := by
  intro a b h
  have h1 : ("step-" ++ Nat.repr a).data = ("step-" ++ Nat.repr b).data := congrArg String.data h
  rw [String.data_append, String.data_append] at h1
  have h2 := List.append_cancel_left h1
  rw [← readDigits_repr a, ← readDigits_repr b, h2]

/-- C6: in every reachable story the step at position `i` has ID `step-i`; so the IDs are
pairwise distinct, the number in the ID grows strictly with the position (an earlier step
has ID `step-i`, a later one `step-j`, with `i < j`), and the step counter equals the
number of steps. -/
theorem step_ids_follow_position (s : S) (h : Reachable s) :
    s.steps.map (fun st => st.ID) = (List.range s.steps.length).map stepID ∧
    (s.steps.map (fun st => st.ID)).Nodup ∧
    (s.steps.map (fun st => st.ID)).Pairwise
      (fun a b => ∃ i j, a = stepID i ∧ b = stepID j ∧ i < j) ∧
    s.stepCounter = s.steps.length := by
  have hinv := h.inv
  refine ⟨hinv.ids, ?_, ?_, hinv.counter⟩
  · rw [hinv.ids]
    exact (List.nodup_range _).map stepID_injective
  · rw [hinv.ids, List.pairwise_map]
    exact (List.pairwise_lt_range _).imp (fun {i j} hij => ⟨i, j, rfl, rfl, hij⟩)

/-- Three steps, the middle one created by `Fn`. -/
theorem step_ids_follow_position_witness :
    Reachable ((Script.step .Given "a" (.Fn "When" "b" 0 0 .ret (.step .Then "c" .ret))).run
      { story := story0 }).1.story ∧
    ((Script.step .Given "a" (.Fn "When" "b" 0 0 .ret (.step .Then "c" .ret))).run
      { story := story0 }).1.story.steps.map (fun st => st.ID) = ["step-0", "step-1", "step-2"] :=
  ⟨Script.run_reachable _ _ (Reachable.init _ _ [] _ _),
    (step_ids_follow_position _
      (Script.run_reachable (Script.step .Given "a" (.Fn "When" "b" 0 0 .ret (.step .Then "c" .ret)))
        { story := story0 } (Reachable.init _ _ [] _ _))).1.trans (by decide)⟩

/-! ### The frame of the step list -/

theorem Frame.frame_refl (a : S) : Frame a a :=
  ⟨Nat.le_refl _, List.dropLast_prefix _⟩

theorem Frame.frame_trans {a b c : S} (hab : Frame a b) (hbc : Frame b c) : Frame a c := by
  refine ⟨Nat.le_trans hab.1 hbc.1, ?_⟩
  have hlen : a.steps.dropLast.length ≤ b.steps.length - 1 := by
    rw [List.length_dropLast]; have := hab.1; omega
  have h1 : a.steps.dropLast <+: b.steps.dropLast := by
    rw [List.prefix_iff_eq_take.1 hab.2, List.dropLast_eq_take b.steps]
    exact List.take_prefix_take_left _ hlen
  exact h1.trans hbc.2

theorem Frame.frame_of_steps_eq {a b : S} (h : b.steps = a.steps) : Frame a b := by
  unfold Frame; rw [h]; exact ⟨Nat.le_refl _, List.dropLast_prefix _⟩

theorem Frame.frame_addStep (s : S) (keyword txt : String) : Frame s (s.addStep keyword txt) := by
  unfold Frame
  rw [S.addStep_steps]
  exact ⟨by simp, (List.dropLast_prefix _).trans (List.prefix_append _ _)⟩

theorem S.Inv.frame_modify {s s1 : S} (h : s.Inv) (f : StoryStep → StoryStep) (i : Nat)
    (hc : s.currentStep = some i) (hsteps : s1.steps = modifyAt f i s.steps) : Frame s s1 := by
  unfold Frame
  rcases snoc_cases s.steps with hs | ⟨init, last, hs⟩
  · have := h.current
    rw [if_pos hs, hc] at this
    exact absurd this (by simp)
  · have hi : i = init.length := by
      have := h.current
      rw [hc, hs] at this
      simpa using this
    rw [hsteps, hs, hi, modifyAt_snoc]
    simp

theorem S.Inv.frame_writeCurrent {s s1 : S} (h : s.Inv) {f : StoryStep → StoryStep}
    (hw : s.writeCurrent f = some s1) : Frame s s1 := by
  obtain ⟨i, hc, rfl⟩ := S.writeCurrent_eq_some hw
  exact h.frame_modify f i hc rfl

theorem S.Inv.frame_addDoc {s : S} (h : s.Inv) (entry : DocEntry) :
    Frame s (s.addDoc entry) := by
  cases hc : s.currentStep with
  | none => rw [S.addDoc_of_none hc]; exact Frame.frame_of_steps_eq rfl
  | some i => rw [S.addDoc_of_some hc]; exact h.frame_modify _ i hc rfl

theorem Fn_frame (keyword txt : String) (body : Body) (start finish : Int) (w : World)
    (hbody : ∀ w1 : World, Reachable w1.story →
      Reachable (body w1).1.story ∧ Frame w1.story (body w1).1.story)
    (hw : Reachable w.story) : Frame w.story (Fn keyword txt body start finish w).1.story := by
  have h1 : Reachable (w.story.addStep keyword txt) := hw.addStep keyword txt
  have f1 : Frame w.story (w.story.addStep keyword txt) := Frame.frame_addStep _ _ _
  simp only [Fn]
  split
  · exact f1
  · next s2 hwr =>
    have f2 : Frame w.story s2 := f1.frame_trans (h1.inv.frame_writeCurrent hwr)
    have h3 := hbody { w with story := s2 } (h1.wrapped hwr)
    have f3 := f2.frame_trans h3.2
    split
    · exact f3
    · next s3 hd => exact f3.frame_trans (h3.1.inv.frame_writeCurrent hd)

/-- Test code never removes a step and never changes a step that is not the last one. -/
theorem Script.run_frame (script : Script) :
    ∀ w : World, Reachable w.story → Frame w.story (script.run w).1.story := by
  induction script with
  | ret => intro w _; exact Frame.frame_refl _
  | panic v => intro w _; exact Frame.frame_refl _
  | effect msg rest ih => intro w hw; exact ih { w with log := w.log ++ [msg] } hw
  | step k txt rest ih =>
    intro w hw
    have hr : Reachable (w.story.textCall k txt) := by
      rw [S.textCall_eq]; exact hw.addStep _ _
    have hf : Frame w.story (w.story.textCall k txt) := by
      rw [S.textCall_eq]; exact Frame.frame_addStep _ _ _
    exact hf.frame_trans (ih { w with story := w.story.textCall k txt } hr)
  | doc entry rest ih =>
    intro w hw
    exact (hw.inv.frame_addDoc entry).frame_trans
      (ih { w with story := w.story.addDoc entry } (hw.addDoc entry))
  | Attach name mediaType path rest ih =>
    intro w hw
    exact (Frame.frame_of_steps_eq rfl).frame_trans
      (ih { w with story := w.story.Attach name mediaType path } (hw.Attach name mediaType path))
  | AttachInline name mediaType body encoding rest ih =>
    intro w hw
    exact (Frame.frame_of_steps_eq rfl).frame_trans
      (ih { w with story := w.story.AttachInline name mediaType body encoding }
        (hw.AttachInline name mediaType body encoding))
  | Fn keyword txt start finish body rest ihb ihr =>
    intro w hw
    have hb : ∀ w1 : World, Reachable w1.story →
        Reachable (body.run w1).1.story ∧ Frame w1.story (body.run w1).1.story :=
      fun w1 h1 => ⟨Script.run_reachable body w1 h1, ihb w1 h1⟩
    have hre := Fn_reachable keyword txt body.run start finish w (fun w1 h1 => (hb w1 h1).1) hw
    have hfr := Fn_frame keyword txt body.run start finish w hb hw
    simp only [Script.run]
    cases hr : ES.Fn keyword txt body.run start finish w with
    | mk w1 o =>
      rw [hr] at hre hfr
      cases o with
      | none => exact hfr.frame_trans (ihr w1 hre)
      | some v => exact hfr
  | Expect txt start finish body rest ihb ihr =>
    intro w hw
    have hb : ∀ w1 : World, Reachable w1.story →
        Reachable (body.run w1).1.story ∧ Frame w1.story (body.run w1).1.story :=
      fun w1 h1 => ⟨Script.run_reachable body w1 h1, ihb w1 h1⟩
    have hre := Fn_reachable "Then" txt body.run start finish w (fun w1 h1 => (hb w1 h1).1) hw
    have hfr := Fn_frame "Then" txt body.run start finish w hb hw
    simp only [Script.run, ES.Expect]
    cases hr : ES.Fn "Then" txt body.run start finish w with
    | mk w1 o =>
      rw [hr] at hre hfr
      cases o with
      | none => exact hfr.frame_trans (ihr w1 hre)
      | some v => exact hfr

/-- C5: on a reachable story, a text-step call only appends one step and leaves the
existing steps as they are; a doc call leaves the steps before the last one as they are
and changes nothing but the doc list of the last one; and whatever test code runs
afterwards, the steps that already have a newer step after them stay as they are, at the
same positions. -/
theorem earlier_steps_never_change (lib : Lib) (s : S) (h : Reachable s) :
    (∀ (k : Keyword) (txt : String), ∃ st, (s.textCall k txt).steps = s.steps ++ [st]) ∧
    (∀ call : DocCall,
      (s.docCall lib call).steps.dropLast = s.steps.dropLast ∧
      (s.docCall lib call).steps.map (fun st => { st with Docs := [] }) =
        s.steps.map (fun st => { st with Docs := [] })) ∧
    (∀ (script : Script) (log : List String),
      s.steps.dropLast <+: (script.run { story := s, log := log }).1.story.steps) := by
  refine ⟨?_, ?_, ?_⟩
  · intro k txt
    rw [S.textCall_eq, S.addStep_steps]
    exact ⟨_, rfl⟩
  · intro call
    rw [S.docCall_eq]
    rcases snoc_cases s.steps with hs | ⟨init, last, hs⟩
    · rw [h.inv.addDoc_nil hs]; exact ⟨rfl, rfl⟩
    · rw [h.inv.addDoc_snoc init last hs, hs]; simp
  · intro script log
    exact (Script.run_frame script { story := s, log := log } h).2

/-- Two steps with a note on the first; a later note and a third step leave it alone. -/
theorem earlier_steps_never_change_witness :
    Reachable (((story0.addStep "Given" "g").addDoc (noteEntry "n")).addStep "When" "w") ∧
    (((story0.addStep "Given" "g").addDoc (noteEntry "n")).addStep "When" "w").steps.dropLast <+:
      ((Script.doc (noteEntry "later") (.step .Then "t" .ret)).run
        { story := ((story0.addStep "Given" "g").addDoc (noteEntry "n")).addStep "When" "w",
          log := [] }).1.story.steps :=
  ⟨(((Reachable.init _ _ [] _ _).addStep _ _).addDoc _).addStep _ _,
    (earlier_steps_never_change plainLib _
      ((((Reachable.init _ _ [] _ _).addStep _ _).addDoc _).addStep _ _)).2.2 _ _⟩

/-! ### Timed steps -/

theorem S.addStep_steps_newStep (s : S) (keyword txt : String) :
    (s.addStep keyword txt).steps = s.steps ++ [s.newStep keyword txt] := rfl

theorem S.writeCurrent_addStep (s : S) (keyword txt : String) (f : StoryStep → StoryStep) :
    (s.addStep keyword txt).writeCurrent f =
      some { s.addStep keyword txt with steps := s.steps ++ [f (s.newStep keyword txt)] } := by
  simp only [S.writeCurrent, S.addStep_currentStep, S.addStep_steps_newStep, modifyAt_snoc]

theorem S.writeCurrent_snoc (s : S) (init : List StoryStep) (last : StoryStep)
    (f : StoryStep → StoryStep) (hs : s.steps = init ++ [last])
    (hc : s.currentStep = some init.length) :
    s.writeCurrent f = some { s with steps := init ++ [f last] } := by
  simp only [S.writeCurrent, hc, hs, modifyAt_snoc]

theorem since_nonneg (start now : Int) (h : start ≤ now) : 0 ≤ since start now := by
  unfold since maxDuration minDuration
  split
  · norm_num
  · split <;> omega

theorem elapsedMs_nonneg (start now : Int) (h : start ≤ now) : 0 ≤ elapsedMs start now :=
  Int.tdiv_nonneg (since_nonneg start now h) (by decide)

theorem S.atBodyStart_steps (s : S) (keyword txt : String) :
    (s.atBodyStart keyword txt).steps =
      s.steps ++ [{ s.newStep keyword txt with Wrapped := true }] := rfl

theorem S.atBodyStart_currentStep (s : S) (keyword txt : String) :
    (s.atBodyStart keyword txt).currentStep = some s.steps.length :=
  S.addStep_currentStep s keyword txt

/-- The statements of `Fn` after the step is created and marked: run the body, then the
deferred function. -/
theorem Fn_eq (keyword txt : String) (body : Body) (start finish : Int) (w : World) :
    Fn keyword txt body start finish w =
      match (body { story := w.story.atBodyStart keyword txt, log := w.log }).1.story.writeCurrent
          (fun st => { st with DurationMs := some (elapsedMs start finish) }) with
      | none => ((body { story := w.story.atBodyStart keyword txt, log := w.log }).1, some nilDeref)
      | some s3 =>
        ({ (body { story := w.story.atBodyStart keyword txt, log := w.log }).1 with story := s3 },
          (body { story := w.story.atBodyStart keyword txt, log := w.log }).2) := by
  simp only [Fn, S.writeCurrent_addStep]
  rfl

/-- What `Fn` does when the body leaves the story alone: the outcome is the body's, the
world outside the story is what one run of the body makes of it, and the story is the one
`addStep` gives with the new step marked wrapped and timed. -/
theorem Fn_of_story_untouched (keyword txt : String) (body : Body) (start finish : Int)
    (w : World)
    (hbody : ∀ s1 : S, (body { story := s1, log := w.log }).1.story = s1) :
    (Fn keyword txt body start finish w).2 =
      (body { story := w.story.atBodyStart keyword txt, log := w.log }).2 ∧
    (Fn keyword txt body start finish w).1.log =
      (body { story := w.story.atBodyStart keyword txt, log := w.log }).1.log ∧
    (Fn keyword txt body start finish w).1.story =
      { w.story.addStep keyword txt with steps := w.story.steps ++
          [{ w.story.newStep keyword txt with
             Wrapped := true, DurationMs := some (elapsedMs start finish) }] } := by
  rw [Fn_eq]
  have hs := hbody (w.story.atBodyStart keyword txt)
  have hw := S.writeCurrent_snoc _ w.story.steps
    { w.story.newStep keyword txt with Wrapped := true }
    (fun st => { st with DurationMs := some (elapsedMs start finish) })
    ((congrArg S.steps hs).trans (S.atBodyStart_steps _ _ _))
    ((congrArg S.currentStep hs).trans (S.atBodyStart_currentStep _ _ _))
  rw [hw]
  refine ⟨rfl, rfl, ?_⟩
  simp only [hs]
  rfl

theorem modifyAt_timing (f : StoryStep → StoryStep) (hf : ∀ st, timing (f st) = timing st)
    (i : Nat) (l : List StoryStep) : (modifyAt f i l).map timing = l.map timing :=
  modifyAt_map f timing hf i l

theorem S.addDoc_timing (s : S) (entry : DocEntry) :
    (s.addDoc entry).steps.map timing = s.steps.map timing ∧
    (s.addDoc entry).currentStep = s.currentStep := by
  cases hc : s.currentStep with
  | none => rw [S.addDoc_of_none hc]; exact ⟨rfl, hc⟩
  | some i =>
    rw [S.addDoc_of_some hc]
    exact ⟨modifyAt_timing (fun st => { st with Docs := st.Docs ++ [entry] }) (fun _ => rfl) i
      s.steps, hc⟩

/-- Test code that creates no step leaves the wrapped flags, the durations and
`currentStep` as they are. -/
theorem Script.run_noStep (script : Script) (hn : script.noStep = true) :
    ∀ w : World, (script.run w).1.story.steps.map timing = w.story.steps.map timing ∧
      (script.run w).1.story.currentStep = w.story.currentStep := by
  induction script with
  | ret => intro w; exact ⟨rfl, rfl⟩
  | panic v => intro w; exact ⟨rfl, rfl⟩
  | effect msg rest ih => intro w; exact ih hn _
  | step k txt rest _ => simp [Script.noStep] at hn
  | doc entry rest ih =>
    intro w
    have h1 := ih hn { w with story := w.story.addDoc entry }
    have h2 := S.addDoc_timing w.story entry
    exact ⟨h1.1.trans h2.1, h1.2.trans h2.2⟩
  | Attach name mediaType path rest ih => intro w; exact ih hn _
  | AttachInline name mediaType body encoding rest ih => intro w; exact ih hn _
  | Fn keyword txt start finish body rest _ _ => simp [Script.noStep] at hn
  | Expect txt start finish body rest _ _ => simp [Script.noStep] at hn

theorem Timed_snoc (init : List StoryStep) (last : StoryStep) (s s1 : S)
    (hs : Timed s) (hinit : init.map timing = s.steps.map timing)
    (hlast : last.DurationMs.isSome = last.Wrapped) (h1 : s1.steps = init ++ [last]) :
    Timed s1 := by
  intro p hp
  rw [h1, List.map_append, List.mem_append, hinit] at hp
  rcases hp with hp | hp
  · exact hs p hp
  · simp only [List.map_cons, List.map_nil, List.mem_singleton] at hp
    rw [hp]; exact hlast

theorem Fn_timed (keyword txt : String) (body : Body) (start finish : Int) (w : World)
    (hbody : ∀ w1 : World, (body w1).1.story.steps.map timing = w1.story.steps.map timing ∧
      (body w1).1.story.currentStep = w1.story.currentStep)
    (hw : Timed w.story) : Timed (Fn keyword txt body start finish w).1.story := by
  rw [Fn_eq]
  have hb := hbody { story := w.story.atBodyStart keyword txt, log := w.log }
  generalize body { story := w.story.atBodyStart keyword txt, log := w.log } = r at hb ⊢
  obtain ⟨hmap, hcur⟩ := hb
  simp only [S.atBodyStart_steps, S.atBodyStart_currentStep] at hmap hcur
  rcases snoc_cases r.1.story.steps with hnil | ⟨init, last, hsnoc⟩
  · rw [hnil] at hmap; simp at hmap
  · rw [hsnoc, List.map_append, List.map_append] at hmap
    have hlen : init.length = w.story.steps.length := by
      have := congrArg List.length hmap
      simpa using this
    have hparts := List.append_inj hmap (by simpa using hlen)
    rw [S.writeCurrent_snoc _ init last _ hsnoc (by rw [hcur, hlen])]
    have hlast : last.Wrapped = true := by
      have h2 := hparts.2
      simp only [List.map_cons, List.map_nil, List.cons.injEq, and_true, timing,
        Prod.mk.injEq] at h2
      exact h2.1
    exact Timed_snoc init { last with DurationMs := some (elapsedMs start finish) } w.story _ hw
      hparts.1 (by simp [hlast]) rfl

theorem S.addStep_timed (s : S) (keyword txt : String) (hs : Timed s) :
    Timed (s.addStep keyword txt) :=
  Timed_snoc s.steps _ s _ hs rfl rfl (S.addStep_steps_newStep s keyword txt)

/-- Where the bodies handed to `Fn` and `Expect` create no step, every step has a duration
exactly when it is wrapped. -/
theorem Script.run_flat_timed (script : Script) (hf : script.flat = true) :
    ∀ w : World, Timed w.story → Timed (script.run w).1.story := by
  induction script with
  | ret => intro w hw; exact hw
  | panic v => intro w hw; exact hw
  | effect msg rest ih => intro w hw; exact ih hf _ hw
  | step k txt rest ih =>
    intro w hw
    exact ih hf _ (by rw [S.textCall_eq]; exact S.addStep_timed _ _ _ hw)
  | doc entry rest ih =>
    intro w hw
    refine ih hf { w with story := w.story.addDoc entry } ?_
    intro p hp
    rw [(S.addDoc_timing w.story entry).1] at hp
    exact hw p hp
  | Attach name mediaType path rest ih => intro w hw; exact ih hf _ hw
  | AttachInline name mediaType body encoding rest ih => intro w hw; exact ih hf _ hw
  | Fn keyword txt start finish body rest _ ihr =>
    intro w hw
    simp only [Script.flat, Bool.and_eq_true] at hf
    have h := Fn_timed keyword txt body.run start finish w (Script.run_noStep body hf.1) hw
    simp only [Script.run]
    cases hr : ES.Fn keyword txt body.run start finish w with
    | mk w1 o =>
      rw [hr] at h
      cases o with
      | none => exact ihr hf.2 w1 h
      | some v => exact h
  | Expect txt start finish body rest _ ihr =>
    intro w hw
    simp only [Script.flat, Bool.and_eq_true] at hf
    have h := Fn_timed "Then" txt body.run start finish w (Script.run_noStep body hf.1) hw
    simp only [Script.run, ES.Expect]
    cases hr : ES.Fn "Then" txt body.run start finish w with
    | mk w1 o =>
      rw [hr] at h
      cases o with
      | none => exact ihr hf.2 w1 h
      | some v => exact h

/-- C3 (evaluation at the failing input): `s.Fn("When", "outer", func() { s.Given("inner") })`
on a fresh story, with 3 ms between the two clock readings.  The deferred function of `Fn`
writes the duration through `currentStep`, which the body has moved to the step it
created: the wrapped step `step-0` has no duration and the unwrapped step `step-1` has
one. -/
theorem Fn_nested_step_takes_the_duration :
    ((Script.Fn "When" "outer" 0 3000000 (.step .Given "inner" .ret) .ret).run
      { story := story0 }).1.story.steps.map (fun st => (st.ID, st.Wrapped, st.DurationMs)) =
      [("step-0", true, none), ("step-1", false, some 3)] := by
  decide

/-- C7: when the body panics with value `v` and leaves the story alone, `Fn` has still
appended the step, marked wrapped, its duration is set to the elapsed milliseconds (not
negative, the second clock reading not being before the first), and the outcome of `Fn`
is the panic with the same value `v`. -/
theorem Fn_records_duration_then_panics (keyword txt : String) (body : Body)
    (start finish : Int) (w : World) (v : String)
    (hstory : ∀ s1 : S, (body { story := s1, log := w.log }).1.story = s1)
    (hpanic : ∀ s1 : S, (body { story := s1, log := w.log }).2 = some v)
    (hclock : start ≤ finish) :
    (Fn keyword txt body start finish w).2 = some v ∧
    (Fn keyword txt body start finish w).1.story.steps =
      w.story.steps ++
        [{ w.story.newStep keyword txt with
           Wrapped := true, DurationMs := some (elapsedMs start finish) }] ∧
    0 ≤ elapsedMs start finish := by
  obtain ⟨h1, _, h3⟩ := Fn_of_story_untouched keyword txt body start finish w hstory
  exact ⟨h1.trans (hpanic _), by rw [h3], elapsedMs_nonneg start finish hclock⟩

/-- The body of `TestFnPropagatesPanics`: it panics with "boom". -/
theorem Fn_records_duration_then_panics_witness :
    (Fn "Then" "it should panic" (fun w1 => (w1, some "boom")) 1000000 3500000
      { story := story0 }).2 = some "boom" ∧
    (Fn "Then" "it should panic" (fun w1 => (w1, some "boom")) 1000000 3500000
      { story := story0 }).1.story.steps =
      [{ ID := "step-0", Keyword := "Then", Text := "it should panic", Wrapped := true,
         DurationMs := some 2 }] :=
  ⟨(Fn_records_duration_then_panics "Then" "it should panic" (fun w1 => (w1, some "boom"))
      1000000 3500000 { story := story0 } "boom" (fun _ => rfl) (fun _ => rfl) (by decide)).1,
    by decide⟩

/-- C8: when the body returns normally and leaves the story alone, `Fn` returns normally,
the world outside the story is what exactly one run of the body makes of it, and the story
is the one `addStep(keyword, text)` produces (same ID, same keyword normalisation, same
text, same seen-set and counter) except that the new step is wrapped and carries the
elapsed whole milliseconds, which are not negative when the clock did not go backwards. -/
theorem Fn_is_addStep_wrapped_and_timed (keyword txt : String) (body : Body)
    (start finish : Int) (w : World)
    (hstory : ∀ s1 : S, (body { story := s1, log := w.log }).1.story = s1)
    (hret : ∀ s1 : S, (body { story := s1, log := w.log }).2 = none) :
    (Fn keyword txt body start finish w).2 = none ∧
    (Fn keyword txt body start finish w).1.log =
      (body { story := w.story.atBodyStart keyword txt, log := w.log }).1.log ∧
    (w.story.addStep keyword txt).steps = w.story.steps ++ [w.story.newStep keyword txt] ∧
    (Fn keyword txt body start finish w).1.story =
      { w.story.addStep keyword txt with steps := w.story.steps ++
          [{ w.story.newStep keyword txt with
             Wrapped := true, DurationMs := some (elapsedMs start finish) }] } ∧
    (start ≤ finish → 0 ≤ elapsedMs start finish) := by
  obtain ⟨h1, h2, h3⟩ := Fn_of_story_untouched keyword txt body start finish w hstory
  exact ⟨h1.trans (hret _), h2, rfl, h3, elapsedMs_nonneg start finish⟩

/-- The calls of `TestFnAutoAndConversion`, with a body that logs its run. -/
theorem Fn_is_addStep_wrapped_and_timed_witness :
    (Fn "Given" "b" (fun w1 => ({ w1 with log := w1.log ++ ["ran"] }, none)) 0 1000000
      { story := story0.Given "a" }).1.log = ["ran"] ∧
    (Fn "Given" "b" (fun w1 => ({ w1 with log := w1.log ++ ["ran"] }, none)) 0 1000000
      { story := story0.Given "a" }).1.story.steps =
      [{ ID := "step-0", Keyword := "Given", Text := "a" },
       { ID := "step-1", Keyword := "And", Text := "b", Wrapped := true,
         DurationMs := some 1 }] ∧
    0 ≤ elapsedMs 0 1000000 :=
  ⟨by decide, by decide,
    (Fn_is_addStep_wrapped_and_timed "Given" "b"
      (fun w1 => ({ w1 with log := w1.log ++ ["ran"] }, none)) 0 1000000
      { story := story0.Given "a" } (fun _ => rfl) (fun _ => rfl)).2.2.2.2 (by decide)⟩

/-- C9: `Expect(text, body)` has the effect and the outcome of `Fn("Then", text, body)`:
with the same clock readings, the same world (story included) and the same return or
panic. -/
theorem Expect_is_Fn_Then (txt : String) (body : Body) (start finish : Int) (w : World) :
    Expect txt body start finish w = Fn "Then" txt body start finish w := by
  unfold Expect
  rfl

/-! ### The finalizer -/

/-- C10: the one closure `Init` registers records, when it runs, one test case whose status
is `fail` if the handle then reports failure (skipped or not), else `skip` if it reports
itself skipped, else `pass`; the status is always one of these three. -/
theorem finalizer_status_precedence (t : TestingT) (scenario : String)
    (opts : List StoryOption) (now : Int) (c : Collector)
    (s1 : S) (t1 : TestingT) (now1 : Int) (c1 : Collector) :
    (Init t scenario opts now c).cleanups.map
        (fun f => ((f s1 t1 now1 c1).collected.drop c1.collected.length).map
          (fun tc => tc.Status)) =
      [[if t1.Failed = true then "fail" else if t1.Skipped = true then "skip" else "pass"]] ∧
    (testCaseOf s1 t1 now1).Status ∈ ["pass", "fail", "skip"] := by
  constructor
  · simp only [Init, finalizer, record, List.map_cons, List.map_nil, List.drop_left, testCaseOf,
      statusOf]
  · simp only [testCaseOf, statusOf]
    cases t1.Failed <;> cases t1.Skipped <;> simp

/-- The three tests `TestCleanupPassedStatus`, `TestCleanupFailedStatus`,
`TestCleanupSkippedStatus`, and a handle that is both failed and skipped. -/
theorem finalizer_status_examples :
    (testCaseOf story0 { Name := "TestPassing" } 0).Status = "pass" ∧
    (testCaseOf story0 { Name := "TestFailing", Failed := true } 0).Status = "fail" ∧
    (testCaseOf story0 { Name := "TestSkipping", Skipped := true } 0).Status = "skip" ∧
    (testCaseOf story0 { Name := "TestBoth", Failed := true, Skipped := true } 0).Status
      = "fail" := by
  decide

/-! ### The title path -/

theorem splitChars_ne_nil (sep : Char) (cs : List Char) : splitChars sep cs ≠ [] := by
  cases cs with
  | nil => simp [splitChars]
  | cons c cs =>
    simp only [splitChars]
    split
    · simp
    · split <;> simp

theorem splitChars_cons_ne (sep c : Char) (cs : List Char) (h : c ≠ sep) :
    ∃ p ps, splitChars sep cs = p :: ps ∧ splitChars sep (c :: cs) = (c :: p) :: ps := by
  cases hs : splitChars sep cs with
  | nil => exact absurd hs (splitChars_ne_nil sep cs)
  | cons p ps => exact ⟨p, ps, rfl, by simp [splitChars, h, hs]⟩

theorem joinChars_cons_of_ne_nil (sep : Char) (p : List Char) (rest : List (List Char))
    (h : rest ≠ []) : joinChars sep (p :: rest) = p ++ sep :: joinChars sep rest := by
  cases rest with
  | nil => exact absurd rfl h
  | cons q r => rfl

theorem joinChars_cons_head (sep c : Char) (p : List Char) (ps : List (List Char)) :
    joinChars sep ((c :: p) :: ps) = c :: joinChars sep (p :: ps) := by
  cases ps <;> rfl

/-- Joining what `splitChars` returns gives the input back. -/
theorem joinChars_splitChars (sep : Char) (cs : List Char) :
    joinChars sep (splitChars sep cs) = cs := by
  induction cs with
  | nil => rfl
  | cons c cs ih =>
    by_cases h : c = sep
    · simp only [splitChars, h, if_true]
      rw [joinChars_cons_of_ne_nil _ _ _ (splitChars_ne_nil sep cs), ih]
      rfl
    · obtain ⟨p, ps, h1, h2⟩ := splitChars_cons_ne sep c cs h
      rw [h2, joinChars_cons_head, ← h1, ih]

theorem splitChars_length (sep : Char) (cs : List Char) :
    (splitChars sep cs).length = cs.count sep + 1 := by
  induction cs with
  | nil => rfl
  | cons c cs ih =>
    by_cases h : c = sep
    · simp [splitChars, h, ih]
    · obtain ⟨p, ps, h1, h2⟩ := splitChars_cons_ne sep c cs h
      rw [h2, List.count_cons_of_ne (Ne.symm h), ← ih, h1]
      rfl

theorem splitChars_no_sep (sep : Char) (cs : List Char) :
    ∀ p ∈ splitChars sep cs, sep ∉ p := by
  induction cs with
  | nil => simp [splitChars]
  | cons c cs ih =>
    by_cases h : c = sep
    · simp only [splitChars, h, if_true, List.mem_cons]
      rintro p (rfl | hp)
      · simp
      · exact ih p hp
    · obtain ⟨p, ps, h1, h2⟩ := splitChars_cons_ne sep c cs h
      rw [h2]
      rw [h1] at ih
      intro q hq
      rcases List.mem_cons.1 hq with rfl | hq
      · intro hmem
        rcases List.mem_cons.1 hmem with h3 | h3
        · exact h h3.symm
        · exact ih p (List.mem_cons_self _ _) h3
      · exact ih q (List.mem_cons_of_mem _ hq)

theorem intercalate_go_data (acc s : String) (l : List String) :
    (String.intercalate.go acc s l).data =
      acc.data ++ (l.map (fun a => s.data ++ a.data)).flatten := by
  induction l generalizing acc with
  | nil => simp [String.intercalate.go]
  | cons a as ih => simp [String.intercalate.go, ih, String.data_append]

theorem intercalate_slash_data (l : List (List Char)) :
    (String.intercalate "/" (l.map String.mk)).data = joinChars '/' l := by
  cases l with
  | nil => rfl
  | cons p rest =>
    simp only [List.map_cons, String.intercalate, intercalate_go_data]
    induction rest generalizing p with
    | nil => simp [joinChars]
    | cons q r ih =>
      have := ih q
      simp only [List.map_cons, List.flatten_cons, joinChars] at this ⊢
      rw [← this]
      simp

theorem join_splitSlash (name : String) : String.intercalate "/" (splitSlash name) = name := by
  apply String.ext
  rw [splitSlash, intercalate_slash_data, joinChars_splitChars]
  rfl

/-- C11: for every host test name, the test case the finalizer records has the name as
title and the name split at every `/` as title path: joining the components with `/`
gives the name back, no component contains `/`, and there is one component more than
there are `/` characters in the name. -/
theorem title_path_is_name_split_at_slashes (s : S) (t : TestingT) (now : Int)
    (c : Collector) :
    ((finalizer s t now c).collected.drop c.collected.length).map
        (fun tc => (tc.Title, tc.TitlePath)) = [(t.Name, splitSlash t.Name)] ∧
    String.intercalate "/" (splitSlash t.Name) = t.Name ∧
    (splitSlash t.Name).all (fun p => !p.toList.contains '/') = true ∧
    (splitSlash t.Name).length = t.Name.toList.count '/' + 1 := by
  refine ⟨?_, join_splitSlash t.Name, ?_, ?_⟩
  · simp [finalizer, record, testCaseOf]
  · rw [List.all_eq_true]
    intro p hp
    obtain ⟨q, hq, rfl⟩ := List.mem_map.1 hp
    simpa using splitChars_no_sep '/' _ q hq
  · simp [splitSlash, splitChars_length]

/-- The names of `TestTitlePathSplitsSubtests` and of a test that is no subtest, and two
edge cases. -/
theorem title_path_examples :
    splitSlash "TestParent/SubTest" = ["TestParent", "SubTest"] ∧
    splitSlash "Solo" = ["Solo"] ∧
    splitSlash "" = [""] ∧
    splitSlash "a//b/" = ["a", "", "b", ""] := by
  decide

/-! ### Source order -/

theorem Opt.fn_sourceOrder (o : Opt) (s : S) : (o.fn s).sourceOrder = s.sourceOrder := by
  cases o <;> rfl

theorem foldl_opts_sourceOrder (opts : List Opt) (s : S) :
    ((opts.map Opt.fn).foldl (fun acc opt => opt acc) s).sourceOrder = s.sourceOrder := by
  induction opts generalizing s with
  | nil => rfl
  | cons o os ih => exact (ih _).trans (Opt.fn_sourceOrder o s)

theorem Init_sourceOrder (t : TestingT) (scenario : String) (opts : List Opt) (now : Int)
    (c : Collector) :
    (Init t scenario (opts.map Opt.fn) now c).story.sourceOrder = c.orderSeq :=
  foldl_opts_sourceOrder opts _

theorem Init_collector (t : TestingT) (scenario : String) (opts : List StoryOption)
    (now : Int) (c : Collector) :
    (Init t scenario opts now c).collector = { c with orderSeq := c.orderSeq + 1 } := rfl

/-- From any collector, the stories created get the consecutive numbers starting at the
collector's counter. -/
theorem runEvents_sourceOrder (events : List Event) : ∀ c : Collector,
    (runEvents c events).1.map (fun s => s.sourceOrder) =
      List.range' c.orderSeq (countInit events) := by
  induction events with
  | nil => intro c; rfl
  | cons e rest ih =>
    intro c
    cases e with
    | Init t scenario opts now =>
      simp only [runEvents, countInit, List.map_cons, Init_sourceOrder, Init_collector, ih]
      rfl
    | record tc => simpa [runEvents, countInit, record] using ih (record tc c)
    | finalize s t now =>
      simpa [runEvents, countInit, finalizer, record] using ih (finalizer s t now c)
    | getAll => simpa [runEvents, countInit] using ih c

/-! ### What the builder calls leave alone -/

theorem S.addStep_header (s : S) (keyword txt : String) :
    (s.addStep keyword txt).header = s.header := rfl

theorem S.writeCurrent_header {s s1 : S} {f : StoryStep → StoryStep}
    (hw : s.writeCurrent f = some s1) : s1.header = s.header := by
  obtain ⟨i, _, rfl⟩ := S.writeCurrent_eq_some hw
  rfl

theorem S.addDoc_header (s : S) (entry : DocEntry) : (s.addDoc entry).header = s.header := by
  cases hc : s.currentStep with
  | none => rw [S.addDoc_of_none hc]; rfl
  | some i => rw [S.addDoc_of_some hc]; rfl

theorem Fn_header (keyword txt : String) (body : Body) (start finish : Int) (w : World)
    (hbody : ∀ w1 : World, (body w1).1.story.header = w1.story.header) :
    (Fn keyword txt body start finish w).1.story.header = w.story.header := by
  simp only [Fn]
  split
  · rfl
  · next s2 hwr =>
    have h2 : s2.header = w.story.header :=
      (S.writeCurrent_header hwr).trans (S.addStep_header _ _ _)
    have h3 := (hbody { w with story := s2 }).trans h2
    split
    · exact h3
    · next s3 hd => exact (S.writeCurrent_header hd).trans h3

/-- Test code leaves the scenario, tags, tickets, metadata, handle, start time and source
order of the story as `Init` set them. -/
theorem Script.run_header (script : Script) :
    ∀ w : World, (script.run w).1.story.header = w.story.header := by
  induction script with
  | ret => intro w; rfl
  | panic v => intro w; rfl
  | effect msg rest ih => intro w; exact ih _
  | step k txt rest ih =>
    intro w
    exact (ih { w with story := w.story.textCall k txt }).trans
      (by rw [S.textCall_eq]; rfl)
  | doc entry rest ih =>
    intro w
    exact (ih { w with story := w.story.addDoc entry }).trans (S.addDoc_header _ _)
  | Attach name mediaType path rest ih => intro w; exact ih _
  | AttachInline name mediaType body encoding rest ih => intro w; exact ih _
  | Fn keyword txt start finish body rest ihb ihr =>
    intro w
    have h := Fn_header keyword txt body.run start finish w ihb
    simp only [Script.run]
    cases hr : ES.Fn keyword txt body.run start finish w with
    | mk w1 o =>
      rw [hr] at h
      cases o with
      | none => exact (ihr w1).trans h
      | some v => exact h
  | Expect txt start finish body rest ihb ihr =>
    intro w
    have h := Fn_header "Then" txt body.run start finish w ihb
    simp only [Script.run, ES.Expect]
    cases hr : ES.Fn "Then" txt body.run start finish w with
    | mk w1 o =>
      rw [hr] at h
      cases o with
      | none => exact (ihr w1).trans h
      | some v => exact h

theorem Script.run_sourceOrder (script : Script) (w : World) :
    (script.run w).1.story.sourceOrder = w.story.sourceOrder :=
  congrArg (fun h => h.2.2.2.2.2.2) (Script.run_header script w)

theorem Script.run_startTime (script : Script) (w : World) :
    (script.run w).1.story.startTime = w.story.startTime :=
  congrArg (fun h => h.2.2.2.2.2.1) (Script.run_header script w)

/-- C12: starting from a reset collector, the `k`-th story created by `Init` gets
sourceOrder `k - 1`, whatever (exported) options are passed, whatever records, finalizers
and reads happen in between, and whatever builder calls are made on the stories: the
values of the stories created are `0, 1, ..., N-1` in creation order, hence strictly
increasing and pairwise distinct. -/
theorem source_order_counts_creations (c0 : Collector) (events : List Event)
    (script : Script) (log : List String) :
    (runEvents (reset c0) events).1.map (fun s => s.sourceOrder) =
      List.range (countInit events) ∧
    (runEvents (reset c0) events).1.map
        (fun s => (script.run { story := s, log := log }).1.story.sourceOrder) =
      List.range (countInit events) ∧
    (runEvents (reset c0) events).1.length = countInit events ∧
    ((runEvents (reset c0) events).1.map (fun s => s.sourceOrder)).Pairwise (fun a b => a < b) ∧
    ((runEvents (reset c0) events).1.map (fun s => s.sourceOrder)).Nodup := by
  have h : (runEvents (reset c0) events).1.map (fun s => s.sourceOrder) =
      List.range (countInit events) := by
    rw [runEvents_sourceOrder, List.range_eq_range']
    rfl
  refine ⟨h, ?_, ?_, ?_, ?_⟩
  · simp only [Script.run_sourceOrder]; exact h
  · have := congrArg List.length h
    simpa using this
  · rw [h]; exact List.pairwise_lt_range _
  · rw [h]; exact List.nodup_range _

/-- The two `Init` calls of `TestSourceOrder`, with a finalizer and a read in between. -/
theorem source_order_example :
    (runEvents (reset {})
      [.Init { Name := "Test1" } "first" [] 0, .finalize story0 { Name := "Test1" } 5,
        .getAll, .Init { Name := "Test2" } "second" [.tags ["x"]] 7]).1.map
      (fun s => s.sourceOrder) = [0, 1] := by
  decide

/-! ### The recorded test case -/

theorem Opt.fn_fixed (o : Opt) (s : S) :
    ((o.fn s).scenario, (o.fn s).t, (o.fn s).startTime, (o.fn s).sourceOrder) =
      (s.scenario, s.t, s.startTime, s.sourceOrder) := by
  cases o <;> rfl

theorem foldl_opts_fixed (opts : List Opt) (s : S) :
    (((opts.map Opt.fn).foldl (fun acc opt => opt acc) s).scenario,
      ((opts.map Opt.fn).foldl (fun acc opt => opt acc) s).t,
      ((opts.map Opt.fn).foldl (fun acc opt => opt acc) s).startTime,
      ((opts.map Opt.fn).foldl (fun acc opt => opt acc) s).sourceOrder) =
      (s.scenario, s.t, s.startTime, s.sourceOrder) := by
  induction opts generalizing s with
  | nil => rfl
  | cons o os ih => exact (ih _).trans (Opt.fn_fixed o s)

/-- The exported options leave the scenario, the handle, the start time and the source
order as `Init` set them. -/
theorem Init_fixed (t : TestingT) (scenario : String) (opts : List Opt) (now : Int)
    (c : Collector) :
    ((Init t scenario (opts.map Opt.fn) now c).story.scenario,
      (Init t scenario (opts.map Opt.fn) now c).story.t,
      (Init t scenario (opts.map Opt.fn) now c).story.startTime,
      (Init t scenario (opts.map Opt.fn) now c).story.sourceOrder) =
      (scenario, t, now, c.orderSeq) :=
  foldl_opts_fixed opts _

/-- C13: `Init` registers exactly one finalizer; run when the story has gone through any
test code, it appends exactly one test case to the collector and leaves the earlier
records (and the counter) as they are.  The case has the handle's name as title, a story
with the builder's scenario, steps, tags, tickets, metadata and story-level docs of that
moment and the sourceOrder assigned at `Init`, a duration that is set, retry = 0,
retries = 0, and the builder's attachment list as attachments. -/
theorem finalizer_records_one_test_case (t : TestingT) (scenario : String) (opts : List Opt)
    (now : Int) (c : Collector) (script : Script) (log : List String)
    (t1 : TestingT) (now1 : Int) (c1 : Collector) :
    (Init t scenario (opts.map Opt.fn) now c).cleanups.map
        (fun f => f (storyAfter script (Init t scenario (opts.map Opt.fn) now c).story log)
          t1 now1 c1) =
      [{ c1 with collected := c1.collected ++
          [{ Title := t1.Name
             TitlePath := splitSlash t1.Name
             Story := some
               { Scenario := scenario
                 Steps := (storyAfter script (Init t scenario (opts.map Opt.fn) now c).story
                   log).steps
                 Tags := (Init t scenario (opts.map Opt.fn) now c).story.tags
                 Tickets := (Init t scenario (opts.map Opt.fn) now c).story.tickets
                 Meta := (Init t scenario (opts.map Opt.fn) now c).story.meta
                 Docs := (storyAfter script (Init t scenario (opts.map Opt.fn) now c).story
                   log).docs
                 SourceOrder := some c.orderSeq }
             Status := statusOf t1
             DurationMs := some (elapsedMs now now1)
             Retry := 0
             Retries := 0
             Attachments := (storyAfter script (Init t scenario (opts.map Opt.fn) now c).story
               log).attachments }] }] := by
  have hh := Script.run_header script
    { story := (Init t scenario (opts.map Opt.fn) now c).story, log := log }
  have h0 : (Init t scenario (opts.map Opt.fn) now c).story.header =
      (scenario, (Init t scenario (opts.map Opt.fn) now c).story.tags,
        (Init t scenario (opts.map Opt.fn) now c).story.tickets,
        (Init t scenario (opts.map Opt.fn) now c).story.meta, t, now, c.orderSeq) := by
    have := Init_fixed t scenario opts now c
    simp only [Prod.mk.injEq] at this
    simp only [S.header, Prod.mk.injEq, true_and]
    exact this
  rw [h0] at hh
  simp only [S.header, Prod.mk.injEq] at hh
  obtain ⟨h1, h2, h3, h4, _, h6, h7⟩ := hh
  have hc : (Init t scenario (opts.map Opt.fn) now c).cleanups = [finalizer] := rfl
  rw [hc]
  simp only [List.map_cons, List.map_nil, finalizer, record, testCaseOf, storyAfter, h1, h2, h3,
    h4, h6, h7]

/-- The finalizer of `TestCleanupPassedStatus`, after a step and an attachment. -/
theorem finalizer_example :
    (getAll (finalizer ((story0.Given "g").Attach "log" "text/plain" "out.log")
      { Name := "TestPassing" } 4000000 {})).map
      (fun tc => (tc.Title, tc.Status, tc.DurationMs, tc.Attachments.length)) =
      [("TestPassing", "pass", some 4, 1)] := by
  decide

/-! ### Attachments -/

theorem S.Inv.stepRef_nil {s : S} (h : s.Inv) (hs : s.steps = []) : s.currentStep = none := by
  rw [h.current, if_pos hs]

theorem S.Inv.stepRef_snoc {s : S} (h : s.Inv) (init : List StoryStep) (last : StoryStep)
    (hs : s.steps = init ++ [last]) :
    s.currentStep = some init.length ∧ s.steps[init.length]? = some last := by
  refine ⟨?_, ?_⟩
  · rw [h.current, hs]; simp
  · rw [hs]; simp

/-- C15: on every reachable story, `Attach` and `AttachInline` append exactly one
attachment with the given name and media type; it records stepIndex = number of steps - 1
and stepId = the ID of the last step if there is a step, and neither of the two if there
is none.  The steps and the story-level docs are left as they are. -/
theorem attach_records_current_step (s : S) (h : Reachable s)
    (name mediaType path body encoding : String) :
    (s.Attach name mediaType path).attachments =
      s.attachments ++
        [{ Name := name
           MediaType := mediaType
           Path := if path = "" then none else some path
           StepIndex := if s.steps = [] then none else some ((s.steps.length : Int) - 1)
           StepID := (s.steps.getLast?).map (fun st => st.ID) }] ∧
    (s.Attach name mediaType path).steps = s.steps ∧
    (s.Attach name mediaType path).docs = s.docs ∧
    (s.AttachInline name mediaType body encoding).attachments =
      s.attachments ++
        [{ Name := name
           MediaType := mediaType
           Body := some body
           Encoding := some encoding
           StepIndex := if s.steps = [] then none else some ((s.steps.length : Int) - 1)
           StepID := (s.steps.getLast?).map (fun st => st.ID) }] ∧
    (s.AttachInline name mediaType body encoding).steps = s.steps ∧
    (s.AttachInline name mediaType body encoding).docs = s.docs := by
  refine ⟨?_, rfl, rfl, ?_, rfl, rfl⟩
  · rcases snoc_cases s.steps with hs | ⟨init, last, hs⟩
    · have hc := h.inv.stepRef_nil hs
      by_cases hp : path = "" <;> simp [S.Attach, hc, hs, hp]
    · obtain ⟨hc, hget⟩ := h.inv.stepRef_snoc init last hs
      have hlast : s.steps.getLast? = some last := by rw [hs]; simp
      have hne : s.steps ≠ [] := by rw [hs]; simp
      by_cases hp : path = "" <;> simp [S.Attach, hc, hget, hlast, hne, hp]
  · rcases snoc_cases s.steps with hs | ⟨init, last, hs⟩
    · have hc := h.inv.stepRef_nil hs
      simp [S.AttachInline, hc, hs]
    · obtain ⟨hc, hget⟩ := h.inv.stepRef_snoc init last hs
      have hlast : s.steps.getLast? = some last := by rw [hs]; simp
      have hne : s.steps ≠ [] := by rw [hs]; simp
      simp [S.AttachInline, hc, hget, hlast, hne]

/-- An attachment on the second of two steps. -/
theorem attach_records_current_step_witness :
    Reachable ((story0.addStep "Given" "a").addStep "When" "b") ∧
    (((story0.addStep "Given" "a").addStep "When" "b").Attach "shot" "image/png"
        "shot.png").attachments =
      [{ Name := "shot", MediaType := "image/png", Path := some "shot.png",
         StepIndex := some 1, StepID := some "step-1" }] :=
  ⟨((Reachable.init _ _ [] _ _).addStep _ _).addStep _ _,
    (attach_records_current_step _ (((Reachable.init _ _ [] _ _).addStep _ _).addStep _ _)
      "shot" "image/png" "shot.png" "" "").1.trans (by decide)⟩

/-- C16 (counterexample): `Attach` with the empty path creates an attachment that carries
neither a file path nor an inline body with an encoding. -/
theorem attach_empty_path_carries_neither_form :
    ((story0.Attach "report" "text/plain" "").attachments.map
      (fun a => (a.Path, a.Body, a.Encoding))) = [(none, none, none)] := by
  decide

/-- C16 (amended): an attachment created through `AttachInline` carries an inline body
together with an encoding and no file path; an attachment created through `Attach` carries
no body and no encoding, and it carries the file path exactly when the path argument is
not empty. -/
theorem attachment_forms (s : S) (name mediaType path body encoding : String) :
    ((s.AttachInline name mediaType body encoding).attachments.drop s.attachments.length).map
        (fun a => (a.Path, a.Body, a.Encoding)) = [(none, some body, some encoding)] ∧
    ((s.Attach name mediaType path).attachments.drop s.attachments.length).map
        (fun a => (a.Path, a.Body, a.Encoding)) =
      [(if path = "" then none else some path, none, none)] := by
  constructor
  · cases hc : s.currentStep <;> simp [S.AttachInline, hc]
  · cases hc : s.currentStep <;> by_cases hp : path = "" <;> simp [S.Attach, hc, hp]

/-! ### Options -/

theorem foldl_opts_tags (opts : List Opt) (s : S) :
    ((opts.map Opt.fn).foldl (fun acc opt => opt acc) s).tags =
      s.tags ++ (opts.map Opt.tagsArg).flatten := by
  induction opts generalizing s with
  | nil => simp
  | cons o os ih =>
    rw [List.map_cons, List.foldl_cons, ih]
    cases o <;> simp [Opt.fn, WithTags, WithTicket, WithMeta, Opt.tagsArg]

theorem foldl_opts_tickets (opts : List Opt) (s : S) :
    ((opts.map Opt.fn).foldl (fun acc opt => opt acc) s).tickets =
      s.tickets ++ (opts.map Opt.ticketArg).flatten := by
  induction opts generalizing s with
  | nil => simp
  | cons o os ih =>
    rw [List.map_cons, List.foldl_cons, ih]
    cases o <;> simp [Opt.fn, WithTags, WithTicket, WithMeta, Opt.ticketArg]

theorem foldl_opts_meta (opts : List Opt) (s s1 : S) (h : s.meta = s1.meta) :
    ((opts.map Opt.fn).foldl (fun acc opt => opt acc) s).meta =
      (((opts.filter Opt.isMeta).map Opt.fn).foldl (fun acc opt => opt acc) s1).meta := by
  induction opts generalizing s s1 with
  | nil => exact h
  | cons o os ih =>
    cases o with
    | tags xs => exact ih _ _ h
    | ticket xs => exact ih _ _ h
    | meta m =>
      simp only [List.filter_cons, Opt.isMeta, if_true, List.map_cons, List.foldl_cons]
      exact ih _ _ (by simp [Opt.fn, WithMeta, h])

theorem Init_tags (t : TestingT) (scenario : String) (opts : List Opt) (now : Int)
    (c : Collector) :
    (Init t scenario (opts.map Opt.fn) now c).story.tags = (opts.map Opt.tagsArg).flatten :=
  (foldl_opts_tags opts _).trans (List.nil_append _)

/-- C17: for every list of options, the story's tags are the concatenation, in option
order, of the arguments of the `WithTags` options, its tickets the concatenation of the
arguments of the `WithTicket` options, and its metadata is what the `WithMeta` options
alone give: options of one kind do not affect the fields of the other kinds. -/
theorem options_concatenate_tags_and_tickets (t : TestingT) (scenario : String)
    (opts : List Opt) (now : Int) (c : Collector) :
    (Init t scenario (opts.map Opt.fn) now c).story.tags = (opts.map Opt.tagsArg).flatten ∧
    (Init t scenario (opts.map Opt.fn) now c).story.tickets =
      (opts.map Opt.ticketArg).flatten ∧
    (Init t scenario (opts.map Opt.fn) now c).story.meta =
      (Init t scenario ((opts.filter Opt.isMeta).map Opt.fn) now c).story.meta := by
  refine ⟨Init_tags t scenario opts now c, ?_, ?_⟩
  · exact (foldl_opts_tickets opts _).trans (List.nil_append _)
  · exact foldl_opts_meta opts _ _ rfl

/-- The options of `TestOptions`. -/
theorem options_example :
    (Init { Name := "TestOptions" } "option test"
      [WithTags ["smoke", "auth"], WithTicket ["JIRA-123", "JIRA-456"],
        WithMeta (some [("priority", .str "high")])] 0 {}).story.tags = ["smoke", "auth"] ∧
    (Init { Name := "TestOptions" } "option test"
      [WithTags ["smoke", "auth"], WithTicket ["JIRA-123", "JIRA-456"],
        WithMeta (some [("priority", .str "high")])] 0 {}).story.tickets
      = ["JIRA-123", "JIRA-456"] ∧
    (Init { Name := "TestOptions" } "option test"
      [WithTags ["smoke", "auth"], WithTicket ["JIRA-123", "JIRA-456"],
        WithMeta (some [("priority", .str "high")])] 0 {}).story.meta
      = some [("priority", .str "high")] := by
  decide

/-- C18 (counterexample): `Init(t, "x", WithTags("smoke", "smoke"))` has the tag `smoke`
twice, and so has `Init(t, "x", WithTags("smoke"), WithTags("smoke"))`. -/
theorem tags_keep_duplicates :
    (Init {} "x" [WithTags ["smoke", "smoke"]] 0 {}).story.tags = ["smoke", "smoke"] ∧
    (Init {} "x" [WithTags ["smoke"], WithTags ["smoke"]] 0 {}).story.tags
      = ["smoke", "smoke"] ∧
    ¬ (Init {} "x" [WithTags ["smoke", "smoke"]] 0 {}).story.tags.Nodup := by
  decide

/-- C18 (amended): for every list of options, the tags appear in the order of insertion
and every tag occurs as often as it was passed (tags are appended, a tag passed twice is
kept twice); so the list has no tag twice exactly when no tag was passed twice. -/
theorem tags_in_insertion_order_with_multiplicity (t : TestingT) (scenario : String)
    (opts : List Opt) (now : Int) (c : Collector) (tag : String) :
    (Init t scenario (opts.map Opt.fn) now c).story.tags.count tag =
      ((opts.map Opt.tagsArg).map (fun xs => xs.count tag)).sum ∧
    (Init t scenario (opts.map Opt.fn) now c).story.tags = (opts.map Opt.tagsArg).flatten ∧
    ((Init t scenario (opts.map Opt.fn) now c).story.tags.Nodup ↔
      (opts.map Opt.tagsArg).flatten.Nodup) := by
  rw [Init_tags]
  refine ⟨?_, rfl, Iff.rfl⟩
  induction opts with
  | nil => rfl
  | cons o os ih => simp [List.count_append, ih]

/-! ### Doc entries -/

theorem runDocs_reachable (lib : Lib) (calls : List DocCall) :
    ∀ s : S, Reachable s → Reachable (runDocs lib s calls) := by
  induction calls with
  | nil => intro s h; exact h
  | cons call rest ih =>
    intro s h
    exact ih (s.docCall lib call) (by rw [S.docCall_eq]; exact h.addDoc _)

theorem runDocs_nil_steps (lib : Lib) (calls : List DocCall) :
    ∀ s : S, Reachable s → s.steps = [] →
      runDocs lib s calls = { s with docs := s.docs ++ calls.map (DocCall.entry lib) } := by
  induction calls with
  | nil => intro s _ _; simp [runDocs]
  | cons call rest ih =>
    intro s h hs
    have h1 : s.docCall lib call = { s with docs := s.docs ++ [call.entry lib] } := by
      rw [S.docCall_eq, h.inv.addDoc_nil hs]
    have hr : Reachable (s.docCall lib call) := by rw [S.docCall_eq]; exact h.addDoc _
    have := ih (s.docCall lib call) hr (by rw [h1]; exact hs)
    simp only [runDocs, List.foldl_cons] at this ⊢
    rw [this, h1]
    simp

theorem runDocs_snoc_steps (lib : Lib) (calls : List DocCall) :
    ∀ (s : S) (init : List StoryStep) (last : StoryStep), Reachable s →
      s.steps = init ++ [last] →
      runDocs lib s calls =
        { s with steps := init ++
            [{ last with Docs := last.Docs ++ calls.map (DocCall.entry lib) }] } := by
  induction calls with
  | nil => intro s init last _ hs; simp [runDocs, ← hs]
  | cons call rest ih =>
    intro s init last h hs
    have h1 : s.docCall lib call =
        { s with steps := init ++ [{ last with Docs := last.Docs ++ [call.entry lib] }] } := by
      rw [S.docCall_eq, h.inv.addDoc_snoc init last hs]
    have hr : Reachable (s.docCall lib call) := by rw [S.docCall_eq]; exact h.addDoc _
    have := ih (s.docCall lib call) init
      { last with Docs := last.Docs ++ [call.entry lib] } hr (by rw [h1])
    simp only [runDocs, List.foldl_cons] at this ⊢
    rw [this, h1]
    simp

theorem mermaidEntry_of_empty (code : String) :
    mermaidEntry code "" =
      [("kind", .str "mermaid"), ("code", .str code), ("phase", .str "runtime")] := by
  simp [mermaidEntry]

theorem mermaidEntry_of_ne (code title : String) (h : title ≠ "") :
    mermaidEntry code title =
      [("kind", .str "mermaid"), ("code", .str code), ("phase", .str "runtime"),
        ("title", .str title)] := by
  simp [mermaidEntry, h]

theorem screenshotEntry_of_empty (path : String) :
    screenshotEntry path "" =
      [("kind", .str "screenshot"), ("path", .str path), ("phase", .str "runtime")] := by
  simp [screenshotEntry]

theorem screenshotEntry_of_ne (path alt : String) (h : alt ≠ "") :
    screenshotEntry path alt =
      [("kind", .str "screenshot"), ("path", .str path), ("phase", .str "runtime"),
        ("alt", .str alt)] := by
  simp [screenshotEntry, h]

/-- The entry of a doc call is `kind`, the argument fields and `phase`, as a map. -/
theorem DocCall.entry_perm (lib : Lib) (call : DocCall) :
    (call.entry lib).Perm
      (("kind", .str call.kindConstant) :: call.argFields lib ++
        [("phase", .str "runtime")]) := by
  cases call with
  | JSON label value =>
    cases hm : lib.marshalIndent value <;>
      simp [DocCall.entry, DocCall.argFields, DocCall.kindConstant, jsonEntry, codeEntry, hm]
  | Mermaid code title =>
    simp only [DocCall.entry, DocCall.argFields, DocCall.kindConstant]
    generalize title.headD "" = ttl
    by_cases ht : ttl = ""
    · subst ht; rw [mermaidEntry_of_empty]; simp
    · rw [mermaidEntry_of_ne _ _ ht, if_neg ht]
      exact ((List.Perm.swap _ _ _).cons _).cons _
  | Screenshot path alt =>
    simp only [DocCall.entry, DocCall.argFields, DocCall.kindConstant]
    generalize alt.headD "" = ttl
    by_cases ht : ttl = ""
    · subst ht; rw [screenshotEntry_of_empty]; simp
    · rw [screenshotEntry_of_ne _ _ ht, if_neg ht]
      exact ((List.Perm.swap _ _ _).cons _).cons _
  | _ => exact List.Perm.refl _

theorem DocCall.entry_keys_nodup (lib : Lib) (call : DocCall) :
    ((call.entry lib).map Prod.fst).Nodup := by
  cases call with
  | JSON label value => simp [DocCall.entry, jsonEntry, codeEntry]
  | Mermaid code title =>
    simp only [DocCall.entry]
    generalize title.headD "" = ttl
    by_cases ht : ttl = ""
    · subst ht; rw [mermaidEntry_of_empty]; simp
    · rw [mermaidEntry_of_ne _ _ ht]; simp
  | Screenshot path alt =>
    simp only [DocCall.entry]
    generalize alt.headD "" = ttl
    by_cases ht : ttl = ""
    · subst ht; rw [screenshotEntry_of_empty]; simp
    · rw [screenshotEntry_of_ne _ _ ht]; simp
  | _ =>
    simp [DocCall.entry, noteEntry, tagEntry, kvEntry, codeEntry, tableEntry, linkEntry,
      sectionEntry, customEntry]

theorem DocCall.entry_kind_phase (lib : Lib) (call : DocCall) :
    (call.entry lib).lookup "kind" = some (.str call.kindConstant) ∧
    (call.entry lib).lookup "phase" = some (.str "runtime") := by
  cases call with
  | Mermaid code title =>
    simp only [DocCall.entry, DocCall.kindConstant]
    generalize title.headD "" = ttl
    by_cases ht : ttl = ""
    · subst ht; rw [mermaidEntry_of_empty]; exact ⟨rfl, rfl⟩
    · rw [mermaidEntry_of_ne _ _ ht]; exact ⟨rfl, rfl⟩
  | Screenshot path alt =>
    simp only [DocCall.entry, DocCall.kindConstant]
    generalize alt.headD "" = ttl
    by_cases ht : ttl = ""
    · subst ht; rw [screenshotEntry_of_empty]; exact ⟨rfl, rfl⟩
    · rw [screenshotEntry_of_ne _ _ ht]; exact ⟨rfl, rfl⟩
  | _ => exact ⟨rfl, rfl⟩

/-- C20: for all arguments, the entry of each doc call is a map with distinct keys made of
`kind` = the constant of the call, the kind-specific fields holding the arguments, and
`phase` = "runtime"; and on a reachable story a sequence of doc calls appends exactly one
entry per call, in call order, to the story-level docs (no step yet) or to the docs of
the last step. -/
theorem doc_entries_carry_kind_fields_phase (lib : Lib) (s : S) (h : Reachable s)
    (call : DocCall) (calls : List DocCall) :
    (call.entry lib).Perm
      (("kind", .str call.kindConstant) :: call.argFields lib ++ [("phase", .str "runtime")]) ∧
    ((call.entry lib).map Prod.fst).Nodup ∧
    (call.entry lib).lookup "kind" = some (.str call.kindConstant) ∧
    (call.entry lib).lookup "phase" = some (.str "runtime") ∧
    (runDocs lib s calls).docs =
      (if s.steps = [] then s.docs ++ calls.map (DocCall.entry lib) else s.docs) ∧
    (runDocs lib s calls).steps =
      (match s.steps.getLast? with
       | none => []
       | some last =>
         s.steps.dropLast ++ [{ last with Docs := last.Docs ++ calls.map (DocCall.entry lib) }]) := by
  refine ⟨DocCall.entry_perm lib call, DocCall.entry_keys_nodup lib call,
    (DocCall.entry_kind_phase lib call).1, (DocCall.entry_kind_phase lib call).2, ?_, ?_⟩
  · rcases snoc_cases s.steps with hs | ⟨init, last, hs⟩
    · rw [runDocs_nil_steps lib calls s h hs, hs]; simp
    · rw [runDocs_snoc_steps lib calls s init last h hs, hs]; simp
  · rcases snoc_cases s.steps with hs | ⟨init, last, hs⟩
    · rw [runDocs_nil_steps lib calls s h hs, hs]; simp
    · rw [runDocs_snoc_steps lib calls s init last h hs, hs]; simp

/-- The ten calls of `TestAllDocKinds` after one step: ten entries on the step, with the
kinds in call order and phase "runtime". -/
theorem doc_entries_carry_kind_fields_phase_witness :
    Reachable (story0.addStep "Given" "a step") ∧
    ((runDocs plainLib (story0.addStep "Given" "a step")
      [.Note "a note", .Tag ["tag1", "tag2"], .Kv "key" (.str "val"),
        .Code "snippet" "x := 1" ["go"], .Table "t" ["a"] [["1"]],
        .Link "link" "https://example.com", .Section "sec" "# Hello",
        .Mermaid "graph TD; A-->B" ["diagram"], .Screenshot "/path/to/img.png" ["alt text"],
        .Custom "myType" (.ref 0)]).steps.map
      (fun st => st.Docs.map (fun e => (e.lookup "kind", e.lookup "phase")))) =
      [[(some (.str "note"), some (.str "runtime")), (some (.str "tag"), some (.str "runtime")),
        (some (.str "kv"), some (.str "runtime")), (some (.str "code"), some (.str "runtime")),
        (some (.str "table"), some (.str "runtime")), (some (.str "link"), some (.str "runtime")),
        (some (.str "section"), some (.str "runtime")),
        (some (.str "mermaid"), some (.str "runtime")),
        (some (.str "screenshot"), some (.str "runtime")),
        (some (.str "custom"), some (.str "runtime"))]] :=
  ⟨(Reachable.init _ _ [] _ _).addStep _ _,
    (congrArg (fun l => l.map (fun st : StoryStep =>
        st.Docs.map (fun e => (e.lookup "kind", e.lookup "phase"))))
      (doc_entries_carry_kind_fields_phase plainLib _ ((Reachable.init _ _ [] _ _).addStep _ _)
        (.Note "x") [.Note "a note", .Tag ["tag1", "tag2"], .Kv "key" (.str "val"),
        .Code "snippet" "x := 1" ["go"], .Table "t" ["a"] [["1"]],
        .Link "link" "https://example.com", .Section "sec" "# Hello",
        .Mermaid "graph TD; A-->B" ["diagram"], .Screenshot "/path/to/img.png" ["alt text"],
        .Custom "myType" (.ref 0)]).2.2.2.2.2).trans (by decide)⟩

/-! ### The collector on the heap -/

theorem readArr_append_left (mem : Arrays) (a : List CaseCell) (j : Nat)
    (h : j < mem.length) : readArr (mem ++ [a]) j = readArr mem j := by
  simp [readArr, List.getElem?_append_left h]

theorem readArr_append_self (mem : Arrays) (a : List CaseCell) :
    readArr (mem ++ [a]) mem.length = a := by
  simp [readArr]

theorem readArr_modifyAt_ne (f : List CaseCell → List CaseCell) (mem : Arrays)
    (i j : Nat) (h : j ≠ i) : readArr (modifyAt f i mem) j = readArr mem j := by
  simp [readArr, modifyAt_getElem?, h]

theorem readArr_modifyAt_self (f : List CaseCell → List CaseCell) (mem : Arrays)
    (i : Nat) (h : i < mem.length) : readArr (modifyAt f i mem) i = f (readArr mem i) := by
  simp [readArr, modifyAt_getElem?, List.getElem?_eq_getElem h]

theorem take_set_succ (a : List CaseCell) (n : Nat) (x : CaseCell) (h : n < a.length) :
    (a.set n x).take (n + 1) = a.take n ++ [x] := by
  induction a generalizing n with
  | nil => simp at h
  | cons y ys ih =>
    cases n with
    | zero => simp
    | succ n => simp at h; simp [ih n h]

theorem HeapCollector.view_eq (h : HeapCollector) :
    h.view = { collected := h.cells.map (CaseCell.deref h.objs), startTime := h.startTime,
               orderSeq := h.orderSeq } := rfl

theorem recordH_valid_cells (spare : Nat → Nat) (tc : CaseCell) (h : HeapCollector)
    (hv : h.Valid) :
    (recordH spare tc h).Valid ∧ (recordH spare tc h).cells = h.cells ++ [tc] := by
  unfold HeapCollector.Valid at hv
  cases hc : h.collected with
  | none =>
    constructor
    · simp [HeapCollector.Valid, recordH, appendSlice, hc, readArr_append_self]
    · simp [HeapCollector.cells, recordH, appendSlice, hc, sliceElems, readArr_append_self]
  | some sl =>
    rw [hc] at hv
    obtain ⟨harr, hlen⟩ := hv
    by_cases hcap : sl.len < (readArr h.mem sl.arr).length
    · constructor
      · simp only [HeapCollector.Valid, recordH, appendSlice, hc, sliceCap, hcap, if_true,
          modifyAt_length, readArr_modifyAt_self _ _ _ harr, List.length_set]
        exact ⟨harr, hcap⟩
      · simp only [HeapCollector.cells, recordH, appendSlice, hc, sliceCap, hcap, if_true,
          sliceElems, readArr_modifyAt_self _ _ _ harr, take_set_succ _ _ _ hcap]
    · have hlen1 : sl.len = (readArr h.mem sl.arr).length := by omega
      constructor
      · simp only [HeapCollector.Valid, recordH, appendSlice, hc, sliceCap, hcap, if_false,
          readArr_append_self, List.length_append, List.length_singleton]
        simp [sliceElems, hlen1]
      · simp only [HeapCollector.cells, recordH, appendSlice, hc, sliceCap, hcap, if_false,
          sliceElems, readArr_append_self]
        rw [hlen1, List.take_length]
        have : (readArr h.mem sl.arr).length + 1 = (readArr h.mem sl.arr ++ [tc]).length := by
          simp
        rw [show readArr h.mem sl.arr ++ tc :: List.replicate
            (spare ((readArr h.mem sl.arr).length + 1)) {} =
          (readArr h.mem sl.arr ++ [tc]) ++ List.replicate
            (spare ((readArr h.mem sl.arr).length + 1)) {} by simp, this, List.take_left]

theorem recordH_valid_view (spare : Nat → Nat) (tc : CaseCell) (h : HeapCollector)
    (hv : h.Valid) :
    (recordH spare tc h).Valid ∧
    (recordH spare tc h).view = record (tc.deref h.objs) h.view := by
  obtain ⟨h1, h2⟩ := recordH_valid_cells spare tc h hv
  refine ⟨h1, ?_⟩
  rw [HeapCollector.view_eq, h2]
  simp [HeapCollector.view_eq, record, recordH]

theorem recordAllH_valid_cells (spare : Nat → Nat) (tcs : List CaseCell) :
    ∀ h : HeapCollector, h.Valid →
      (recordAllH spare tcs h).Valid ∧
      (recordAllH spare tcs h).cells = h.cells ++ tcs ∧
      (recordAllH spare tcs h).objs = h.objs ∧
      (recordAllH spare tcs h).orderSeq = h.orderSeq ∧
      (recordAllH spare tcs h).startTime = h.startTime := by
  induction tcs with
  | nil => intro h hv; exact ⟨hv, by simp [recordAllH], rfl, rfl, rfl⟩
  | cons tc rest ih =>
    intro h hv
    obtain ⟨hv1, hc1⟩ := recordH_valid_cells spare tc h hv
    obtain ⟨hv2, hc2, ho2, hs2, ht2⟩ := ih (recordH spare tc h) hv1
    exact ⟨hv2, by rw [recordAllH, List.foldl_cons]; rw [recordAllH] at hc2; rw [hc2, hc1]; simp,
      ho2, hs2, ht2⟩

theorem foldl_record_collected (tcs : List RawTestCase) (c : Collector) :
    (tcs.foldl (fun c tc => record tc c) c).collected = c.collected ++ tcs ∧
    (tcs.foldl (fun c tc => record tc c) c).orderSeq = c.orderSeq ∧
    (tcs.foldl (fun c tc => record tc c) c).startTime = c.startTime := by
  induction tcs generalizing c with
  | nil => simp
  | cons tc rest ih =>
    rw [List.foldl_cons]
    obtain ⟨h1, h2, h3⟩ := ih (record tc c)
    exact ⟨by rw [h1]; simp [record], by rw [h2]; rfl, by rw [h3]; rfl⟩

theorem copySlice_fresh (e : List CaseCell) (n : Nat) (h : e.length = n) :
    (copySlice (List.replicate n {}) e).take n = e := by
  subst h
  simp [copySlice]

theorem sliceElems_length (h : HeapCollector) (hv : h.Valid) :
    (sliceElems h.mem h.collected).length = sliceLen h.collected := by
  unfold HeapCollector.Valid at hv
  cases hc : h.collected with
  | none => simp [sliceElems, sliceLen]
  | some sl =>
    rw [hc] at hv
    simp [sliceElems, sliceLen, hv.2]

theorem getAllH_result (h : HeapCollector) (hv : h.Valid) :
    sliceElems (getAllH h).1.mem (some (getAllH h).2) = h.cells := by
  show (readArr (h.mem ++ [_]) h.mem.length).take _ = _
  rw [readArr_append_self]
  exact copySlice_fresh _ _ (sliceElems_length h hv)

theorem getAllH_valid_cells (h : HeapCollector) (hv : h.Valid) :
    (getAllH h).1.Valid ∧ (getAllH h).1.cells = h.cells ∧
    (getAllH h).1.collected = h.collected ∧ (getAllH h).1.orderSeq = h.orderSeq ∧
    (getAllH h).1.objs = h.objs ∧ (getAllH h).1.startTime = h.startTime := by
  refine ⟨?_, ?_, rfl, rfl, rfl, rfl⟩
  · unfold HeapCollector.Valid at hv ⊢
    cases hc : h.collected with
    | none => simp [getAllH, hc]
    | some sl =>
      rw [hc] at hv
      simp only [getAllH, hc, List.length_append, List.length_singleton,
        readArr_append_left _ _ _ hv.1]
      exact ⟨by omega, hv.2⟩
  · unfold HeapCollector.Valid at hv
    cases hc : h.collected with
    | none => simp [HeapCollector.cells, getAllH, hc, sliceElems]
    | some sl =>
      rw [hc] at hv
      simp only [HeapCollector.cells, getAllH, hc, sliceElems, readArr_append_left _ _ _ hv.1]

theorem writeElem_length (mem : Arrays) (sl : Slice) (i : Nat) (tc : CaseCell) :
    (writeElem mem sl i tc).length = mem.length := by
  unfold writeElem; split <;> simp [modifyAt_length]

theorem writeElem_readArr_ne (mem : Arrays) (sl : Slice) (i : Nat) (tc : CaseCell)
    (j : Nat) (h : j ≠ sl.arr) : readArr (writeElem mem sl i tc) j = readArr mem j := by
  unfold writeElem; split
  · exact readArr_modifyAt_ne _ _ _ _ h
  · rfl

/-- Assignments to elements of a slice with another backing array leave the collector
alone. -/
theorem writeAll_valid_cells (sl : Slice) (writes : List (Nat × CaseCell)) :
    ∀ h : HeapCollector, h.Valid → (∀ c, h.collected = some c → c.arr ≠ sl.arr) →
      (writeAll h sl writes).Valid ∧ (writeAll h sl writes).cells = h.cells ∧
      (writeAll h sl writes).mem.length = h.mem.length := by
  induction writes with
  | nil => intro h hv _; exact ⟨hv, rfl, rfl⟩
  | cons w rest ih =>
    intro h hv hne
    have hv1 : HeapCollector.Valid { h with mem := writeElem h.mem sl w.1 w.2 } := by
      unfold HeapCollector.Valid at hv ⊢
      cases hc : h.collected with
      | none => simp
      | some c =>
        rw [hc] at hv
        simp only [writeElem_length, writeElem_readArr_ne _ _ _ _ _ (hne c hc)]
        exact hv
    have hcells1 : HeapCollector.cells { h with mem := writeElem h.mem sl w.1 w.2 } = h.cells := by
      cases hc : h.collected with
      | none => simp [HeapCollector.cells, hc, sliceElems]
      | some c =>
        simp only [HeapCollector.cells, hc, sliceElems,
          writeElem_readArr_ne _ _ _ _ _ (hne c hc)]
    obtain ⟨h1, h2, h3⟩ := ih { h with mem := writeElem h.mem sl w.1 w.2 } hv1 hne
    exact ⟨h1, h2.trans hcells1, h3.trans (writeElem_length _ _ _ _)⟩

theorem resetH_valid_view (h0 : HeapCollector) :
    (resetH h0).Valid ∧ (resetH h0).view = reset h0.view ∧ (resetH h0).cells = [] ∧
    (resetH h0).objs = h0.objs :=
  ⟨trivial, rfl, rfl, rfl⟩

/-- The heap state after a reset and the records `tcs`: it lies in the heap, holds exactly
these structs, stands for the collector with exactly these cases, and the objects are
untouched. -/
theorem recordAllH_after_reset (spare : Nat → Nat) (h0 : HeapCollector)
    (tcs : List CaseCell) :
    (recordAllH spare tcs (resetH h0)).Valid ∧
    (recordAllH spare tcs (resetH h0)).cells = tcs ∧
    (recordAllH spare tcs (resetH h0)).objs = h0.objs ∧
    (recordAllH spare tcs (resetH h0)).view =
      (tcs.map (CaseCell.deref h0.objs)).foldl (fun c tc => record tc c) (reset h0.view) := by
  obtain ⟨hv, hc, ho, hs, ht⟩ :=
    recordAllH_valid_cells spare tcs (resetH h0) (resetH_valid_view h0).1
  have hc1 : (recordAllH spare tcs (resetH h0)).cells = tcs := by
    rw [hc]; simp [HeapCollector.cells, resetH, sliceElems]
  refine ⟨hv, hc1, ho, ?_⟩
  obtain ⟨f1, f2, f3⟩ := foldl_record_collected (tcs.map (CaseCell.deref h0.objs)) (reset h0.view)
  rw [HeapCollector.view_eq, hc1, ho, hs, ht]
  generalize (tcs.map (CaseCell.deref h0.objs)).foldl (fun c tc => record tc c) (reset h0.view)
    = C at f1 f2 f3
  cases C
  simp only at f1 f2 f3
  subst f1; subst f2; subst f3
  simp [reset, resetH]

/-- C14, counterexample: one test case is recorded after a reset; the holder of the slice
`getAll` returned writes `g[0].Story.Scenario = "changed"` and `g[0].TitlePath[0] = "x"`.
The copy made by `getAll` is a copy of the structs, which share the `StoryMeta` and the
backing array of `TitlePath` with the structs of the collector, so a later `getAll`
returns a test case with the changed scenario and title path. -/
theorem getAll_copy_is_shallow :
    (sliceValues
      (getAllH (recordAllH (fun n => n) [{ Title := "a", Story := some 0, TitlePath := some 0 }]
        (resetH { objs := { stories := [{ Scenario := "s" }], strings := [["a"]] } }))).1
      (some (getAllH (recordAllH (fun n => n)
        [{ Title := "a", Story := some 0, TitlePath := some 0 }]
        (resetH { objs := { stories := [{ Scenario := "s" }], strings := [["a"]] } }))).2)).map
      (fun tc => (tc.Story.map (fun m => m.Scenario), tc.TitlePath)) = [(some "s", ["a"])] ∧
    (sliceValues
      (getAllH (writeRef (writeRef
        (getAllH (recordAllH (fun n => n)
          [{ Title := "a", Story := some 0, TitlePath := some 0 }]
          (resetH { objs := { stories := [{ Scenario := "s" }], strings := [["a"]] } }))).1
        (getAllH (recordAllH (fun n => n)
          [{ Title := "a", Story := some 0, TitlePath := some 0 }]
          (resetH { objs := { stories := [{ Scenario := "s" }], strings := [["a"]] } }))).2 0
        (.story (fun m => { m with Scenario := "changed" })))
        (getAllH (recordAllH (fun n => n)
          [{ Title := "a", Story := some 0, TitlePath := some 0 }]
          (resetH { objs := { stories := [{ Scenario := "s" }], strings := [["a"]] } }))).2 0
        (.titlePath 0 "x"))).1
      (some (getAllH (writeRef (writeRef
        (getAllH (recordAllH (fun n => n)
          [{ Title := "a", Story := some 0, TitlePath := some 0 }]
          (resetH { objs := { stories := [{ Scenario := "s" }], strings := [["a"]] } }))).1
        (getAllH (recordAllH (fun n => n)
          [{ Title := "a", Story := some 0, TitlePath := some 0 }]
          (resetH { objs := { stories := [{ Scenario := "s" }], strings := [["a"]] } }))).2 0
        (.story (fun m => { m with Scenario := "changed" })))
        (getAllH (recordAllH (fun n => n)
          [{ Title := "a", Story := some 0, TitlePath := some 0 }]
          (resetH { objs := { stories := [{ Scenario := "s" }], strings := [["a"]] } }))).2 0
        (.titlePath 0 "x"))).2)).map
      (fun tc => (tc.Story.map (fun m => m.Scenario), tc.TitlePath)) =
        [(some "changed", ["x"])] := by
  decide

/-- C14, amended: starting from a reset collector, after `record(c1), ..., record(cn)` a
`getAll` returns exactly `[c1, ..., cn]`, struct by struct and hence value by value;
`getAll` leaves the collector as it is (the slice `collected`, its elements, the objects
they refer to and the counter read by `nextOrder`), so a second `getAll` returns the same
list; and assignments to the elements of the returned slice do not change what a later
`getAll` returns, the returned slice having a backing array of its own. -/
theorem getAll_returns_records_in_order (spare : Nat → Nat) (h0 : HeapCollector)
    (tcs : List CaseCell) (writes : List (Nat × CaseCell)) :
    getAll ((tcs.map (CaseCell.deref h0.objs)).foldl (fun c tc => record tc c) (reset h0.view)) =
      tcs.map (CaseCell.deref h0.objs) ∧
    (recordAllH spare tcs (resetH h0)).view =
      (tcs.map (CaseCell.deref h0.objs)).foldl (fun c tc => record tc c) (reset h0.view) ∧
    sliceElems (getAllH (recordAllH spare tcs (resetH h0))).1.mem
      (some (getAllH (recordAllH spare tcs (resetH h0))).2) = tcs ∧
    sliceValues (getAllH (recordAllH spare tcs (resetH h0))).1
      (some (getAllH (recordAllH spare tcs (resetH h0))).2) =
        tcs.map (CaseCell.deref h0.objs) ∧
    (getAllH (recordAllH spare tcs (resetH h0))).1.view =
      (recordAllH spare tcs (resetH h0)).view ∧
    (getAllH (recordAllH spare tcs (resetH h0))).1.collected =
      (recordAllH spare tcs (resetH h0)).collected ∧
    (getAllH (recordAllH spare tcs (resetH h0))).1.objs = h0.objs ∧
    (nextOrderH (getAllH (recordAllH spare tcs (resetH h0))).1).1 =
      (nextOrderH (recordAllH spare tcs (resetH h0))).1 ∧
    sliceValues (getAllH (getAllH (recordAllH spare tcs (resetH h0))).1).1
      (some (getAllH (getAllH (recordAllH spare tcs (resetH h0))).1).2) =
        tcs.map (CaseCell.deref h0.objs) ∧
    sliceValues
      (getAllH (writeAll (getAllH (recordAllH spare tcs (resetH h0))).1
        (getAllH (recordAllH spare tcs (resetH h0))).2 writes)).1
      (some (getAllH (writeAll (getAllH (recordAllH spare tcs (resetH h0))).1
        (getAllH (recordAllH spare tcs (resetH h0))).2 writes)).2) =
        tcs.map (CaseCell.deref h0.objs) := by
  obtain ⟨hv, hcells, hobjs, hview⟩ := recordAllH_after_reset spare h0 tcs
  generalize recordAllH spare tcs (resetH h0) = H at hv hcells hobjs hview ⊢
  obtain ⟨gv, gcells, gcol, gseq, gobjs, gtime⟩ := getAllH_valid_cells H hv
  have hforeign : ∀ c, (getAllH H).1.collected = some c → c.arr ≠ (getAllH H).2.arr := by
    intro c hc
    rw [gcol] at hc
    have hlt : c.arr < H.mem.length := by
      unfold HeapCollector.Valid at hv
      rw [hc] at hv
      exact hv.1
    exact Nat.ne_of_lt hlt
  obtain ⟨wv, wcells, _⟩ := writeAll_valid_cells (getAllH H).2 writes (getAllH H).1 gv hforeign
  refine ⟨?_, hview, ?_, ?_, ?_, gcol, ?_, ?_, ?_, ?_⟩
  · rw [getAll, (foldl_record_collected _ _).1]; simp [reset]
  · rw [getAllH_result H hv]; exact hcells
  · simp only [sliceValues]
    rw [getAllH_result H hv, hcells, gobjs, hobjs]
  · rw [HeapCollector.view_eq, HeapCollector.view_eq, gcells, gobjs, gseq, gtime]
  · rw [gobjs, hobjs]
  · simp only [nextOrderH, gseq]
  · simp only [sliceValues]
    rw [getAllH_result _ gv, gcells, hcells]
    show tcs.map (CaseCell.deref (getAllH H).1.objs) = _
    rw [gobjs, hobjs]
  · simp only [sliceValues]
    rw [getAllH_result _ wv, wcells, gcells, hcells]
    show tcs.map (CaseCell.deref (getAllH H).1.objs) = _
    rw [gobjs, hobjs]

/-- Two records after a reset; the first element of the slice `getAll` returned is
overwritten; a later `getAll` still returns the two records. -/
theorem getAll_example :
    sliceElems
      (getAllH (writeAll (getAllH (recordAllH (fun n => n) [{ Title := "a" }, { Title := "b" }]
          (resetH {}))).1
        (getAllH (recordAllH (fun n => n) [{ Title := "a" }, { Title := "b" }] (resetH {}))).2
        [(0, { Title := "changed" })])).1.mem
      (some (getAllH (writeAll (getAllH (recordAllH (fun n => n)
          [{ Title := "a" }, { Title := "b" }] (resetH {}))).1
        (getAllH (recordAllH (fun n => n) [{ Title := "a" }, { Title := "b" }] (resetH {}))).2
        [(0, { Title := "changed" })])).2) =
      [{ Title := "a" }, { Title := "b" }] ∧
    sliceElems
      (writeAll (getAllH (recordAllH (fun n => n) [{ Title := "a" }, { Title := "b" }]
          (resetH {}))).1
        (getAllH (recordAllH (fun n => n) [{ Title := "a" }, { Title := "b" }] (resetH {}))).2
        [(0, { Title := "changed" })]).mem
      (some (getAllH (recordAllH (fun n => n) [{ Title := "a" }, { Title := "b" }]
        (resetH {}))).2) =
      [{ Title := "changed" }, { Title := "b" }] := by
  decide

/-! ### Metadata -/

theorem mapGet_append (a b : List (String × GoAny)) (k : String) :
    mapGet (a ++ b) k = (mapGet a k).or (mapGet b k) := by
  induction a with
  | nil => simp [mapGet]
  | cons kv rest ih =>
    simp only [List.cons_append, mapGet]
    split
    · simp
    · exact ih

theorem mapGet_isSome_iff (m : List (String × GoAny)) (k : String) :
    (mapGet m k).isSome = true ↔ k ∈ m.map Prod.fst := by
  induction m with
  | nil => simp [mapGet]
  | cons kv rest ih =>
    simp only [mapGet, List.map_cons, List.mem_cons]
    split
    · next h => simp [h]
    · next h =>
      rw [ih]
      constructor
      · exact Or.inr
      · rintro (h1 | h1)
        · exact absurd h1.symm h
        · exact h1

theorem mapGet_eq_none_of_not_any (m : List (String × GoAny)) (k : String)
    (h : m.any (fun kv => kv.1 == k) = false) : mapGet m k = none := by
  induction m with
  | nil => rfl
  | cons kv rest ih =>
    simp only [List.any_cons, Bool.or_eq_false_iff, beq_eq_false_iff_ne, ne_eq] at h
    simp only [mapGet, h.1, if_false]
    exact ih h.2

theorem mapGet_map_replace (m : List (String × GoAny)) (k k1 : String) (v : GoAny) :
    mapGet (m.map (fun kv => if kv.1 == k then (k, v) else kv)) k1 =
      if k = k1 then (if m.any (fun kv => kv.1 == k) then some v else none)
      else mapGet m k1 := by
  induction m with
  | nil => simp [mapGet]
  | cons kv rest ih =>
    simp only [List.map_cons, List.any_cons]
    by_cases hk : kv.1 = k
    · simp only [hk, beq_self_eq_true, if_true, mapGet, Bool.true_or]
      by_cases h1 : k = k1
      · simp [h1]
      · simp only [h1, if_false]
        rw [ih]; simp [h1]
    · have hb : (kv.1 == k) = false := by simpa using hk
      simp only [hb, Bool.false_eq_true, if_false, mapGet, Bool.false_or]
      by_cases h1 : k = k1
      · subst h1
        simp only [hk, if_false]
        rw [ih]; simp
      · simp only [h1, if_false]
        rw [ih]; simp [h1]

/-- Reading a map after the assignment `m[k] = v`. -/
theorem mapGet_mapSet (m : List (String × GoAny)) (k k1 : String) (v : GoAny) :
    mapGet (mapSet m k v) k1 = if k = k1 then some v else mapGet m k1 := by
  unfold mapSet
  by_cases h : m.any (fun kv => kv.1 == k) = true
  · rw [if_pos h, mapGet_map_replace, h]; simp
  · have h0 : m.any (fun kv => kv.1 == k) = false := Bool.eq_false_iff.2 h
    rw [if_neg h, mapGet_append]
    by_cases h1 : k = k1
    · subst h1
      simp [mapGet_eq_none_of_not_any m k h0, mapGet]
    · simp only [mapGet, h1, if_false]
      simp

theorem mapSet_keys (m : List (String × GoAny)) (k : String) (v : GoAny) :
    (mapSet m k v).map Prod.fst =
      if m.any (fun kv => kv.1 == k) then m.map Prod.fst else m.map Prod.fst ++ [k] := by
  unfold mapSet
  split
  · rw [List.map_map]
    apply List.map_congr_left
    intro kv _
    by_cases hk : kv.1 = k <;> simp [hk]
  · simp

theorem mapSet_nodup (m : List (String × GoAny)) (k : String) (v : GoAny)
    (h : (m.map Prod.fst).Nodup) : ((mapSet m k v).map Prod.fst).Nodup := by
  rw [mapSet_keys]
  split
  · exact h
  · next hany =>
    rw [List.nodup_append]
    refine ⟨h, List.nodup_singleton _, ?_⟩
    intro a ha hb
    simp only [List.mem_singleton] at hb
    subst hb
    apply hany
    obtain ⟨kv, hkv, rfl⟩ := List.mem_map.1 ha
    exact List.any_eq_true.2 ⟨kv, hkv, by simp⟩

theorem mapGet_mapMerge (src : List (String × GoAny)) : ∀ (m : List (String × GoAny)) (k : String),
    mapGet (mapMerge m src) k = (mapGet src.reverse k).or (mapGet m k) := by
  induction src with
  | nil => intro m k; simp [mapMerge, mapGet]
  | cons kv rest ih =>
    intro m k
    have := ih (mapSet m kv.1 kv.2) k
    simp only [mapMerge, List.foldl_cons] at this ⊢
    rw [this, mapGet_mapSet, List.reverse_cons, mapGet_append]
    simp only [mapGet]
    by_cases hk : kv.1 = k
    · simp [hk]
      cases mapGet rest.reverse k <;> simp
    · simp [hk]

theorem mapGet_eq_some_iff (m : List (String × GoAny)) (hn : (m.map Prod.fst).Nodup)
    (k : String) (v : GoAny) : mapGet m k = some v ↔ (k, v) ∈ m := by
  induction m with
  | nil => simp [mapGet]
  | cons kv rest ih =>
    simp only [List.map_cons, List.nodup_cons] at hn
    simp only [mapGet, List.mem_cons]
    split
    · next h =>
      subst h
      constructor
      · intro hv; left; cases kv; simp at hv; simp [hv]
      · rintro (h1 | h1)
        · rw [← h1]
        · exact absurd (List.mem_map.2 ⟨_, h1, rfl⟩) hn.1
    · next h =>
      rw [ih hn.2]
      constructor
      · exact Or.inr
      · rintro (h1 | h1)
        · exact absurd (by rw [← h1]) h
        · exact h1

theorem mapGet_reverse (m : List (String × GoAny)) (hn : (m.map Prod.fst).Nodup) (k : String) :
    mapGet m.reverse k = mapGet m k := by
  have hr : (m.reverse.map Prod.fst).Nodup := by
    rw [List.map_reverse]; exact List.nodup_reverse.2 hn
  apply Option.ext
  intro v
  show mapGet m.reverse k = some v ↔ mapGet m k = some v
  rw [mapGet_eq_some_iff _ hr, mapGet_eq_some_iff _ hn, List.mem_reverse]

theorem mapMerge_nodup (src : List (String × GoAny)) : ∀ m : List (String × GoAny),
    (m.map Prod.fst).Nodup → ((mapMerge m src).map Prod.fst).Nodup := by
  induction src with
  | nil => intro m h; exact h
  | cons kv rest ih => intro m h; exact ih _ (mapSet_nodup m kv.1 kv.2 h)

theorem WithMeta_meta (m : Option (List (String × GoAny))) (s : S) :
    (WithMeta m s).meta = some (mapMerge (s.meta.getD []) (m.getD [])) := by
  cases hm : s.meta <;> simp [WithMeta, mapMerge, hm]

/-- The metadata after the option loop of `Init`, read at a key: the value of the last
`WithMeta` map that has the key, else what was there before. -/
theorem foldl_opts_mapGet (opts : List Opt) (hn : ∀ m ∈ metaArgs opts, (m.map Prod.fst).Nodup) :
    ∀ (s : S) (k : String),
      mapGet (((opts.map Opt.fn).foldl (fun acc opt => opt acc) s).meta.getD []) k =
        ((metaArgs opts).reverse.findSome? (fun m => mapGet m k)).or
          (mapGet (s.meta.getD []) k) := by
  induction opts with
  | nil => intro s k; simp [metaArgs]
  | cons o rest ih =>
    intro s k
    cases o with
    | tags xs => exact ih (fun m hm => hn m hm) _ k
    | ticket xs => exact ih (fun m hm => hn m hm) _ k
    | meta m =>
      have hrest : ∀ m1 ∈ metaArgs rest, (m1.map Prod.fst).Nodup :=
        fun m1 hm1 => hn m1 (List.mem_cons_of_mem _ hm1)
      have hm : ((m.getD []).map Prod.fst).Nodup := hn _ (List.mem_cons_self _ _)
      rw [List.map_cons, List.foldl_cons, ih hrest]
      simp only [Opt.fn, WithMeta_meta, Option.getD_some, mapGet_mapMerge, metaArgs,
        List.reverse_cons, List.findSome?_append, List.findSome?_cons, List.findSome?_nil,
        mapGet_reverse _ hm]
      cases (metaArgs rest).reverse.findSome? (fun m => mapGet m k) <;>
        cases mapGet (m.getD []) k <;> simp

theorem foldl_opts_meta_nodup (opts : List Opt) : ∀ s : S,
    ((s.meta.getD []).map Prod.fst).Nodup →
      ((((opts.map Opt.fn).foldl (fun acc opt => opt acc) s).meta.getD []).map Prod.fst).Nodup := by
  induction opts with
  | nil => intro s h; exact h
  | cons o rest ih =>
    intro s h
    cases o with
    | tags xs => exact ih _ h
    | ticket xs => exact ih _ h
    | meta m =>
      rw [List.map_cons, List.foldl_cons]
      refine ih _ ?_
      simp only [Opt.fn, WithMeta_meta, Option.getD_some]
      exact mapMerge_nodup _ _ h

theorem modifyAt_modifyAt {α : Type} (f g : α → α) (i : Nat) (l : List α) :
    modifyAt g i (modifyAt f i l) = modifyAt (fun x => g (f x)) i l := by
  induction l generalizing i with
  | nil => simp [modifyAt]
  | cons x xs ih => cases i <;> simp [modifyAt, ih]

theorem modifyAt_id {α : Type} (i : Nat) (l : List α) : modifyAt (fun x => x) i l = l := by
  induction l generalizing i with
  | nil => simp [modifyAt]
  | cons x xs ih => cases i <;> simp [modifyAt, ih]

theorem modifyAt_take {α : Type} (f : α → α) (i n : Nat) (l : List α) (h : n ≤ i) :
    (modifyAt f i l).take n = l.take n := by
  induction l generalizing i n with
  | nil => simp [modifyAt]
  | cons x xs ih =>
    cases i with
    | zero => simp [Nat.le_zero.1 h]
    | succ i =>
      cases n with
      | zero => simp
      | succ n => simp [modifyAt, ih i n (Nat.le_of_succ_le_succ h)]

/-- The assignments of the loop of `WithMeta` all go to the one map `s.meta`. -/
theorem foldl_modifyAt_mapSet (src : List (String × GoAny)) (a : Nat) : ∀ mem : Maps,
    src.foldl (fun mem kv => modifyAt (fun m => mapSet m kv.1 kv.2) a mem) mem =
      modifyAt (fun m => mapMerge m src) a mem := by
  induction src with
  | nil => intro mem; simp [mapMerge, modifyAt_id]
  | cons kv rest ih =>
    intro mem
    rw [List.foldl_cons, ih, modifyAt_modifyAt]
    rfl

theorem readMap_modifyAt_self (f : List (String × GoAny) → List (String × GoAny))
    (mem : Maps) (a : Nat) (h : a < mem.length) :
    readMap (modifyAt f a mem) a = f (readMap mem a) := by
  simp [readMap, modifyAt_getElem?, List.getElem?_eq_getElem h]

theorem readMap_of_take (mem mem0 : Maps) (a : Nat) (h : mem.take mem0.length = mem0)
    (ha : a < mem0.length) : readMap mem a = readMap mem0 a := by
  unfold readMap
  rw [← h, List.getElem?_take]
  rw [← h] at ha
  simp at ha
  simp [ha.1]

theorem argMap_of_take (mem mem0 : Maps) (arg : Option Nat)
    (h : mem.take mem0.length = mem0) (harg : ∀ a, arg = some a → a < mem0.length) :
    argMap mem arg = (arg.map (readMap mem0)).getD [] := by
  cases arg with
  | none => rfl
  | some a => exact readMap_of_take _ _ a h (harg a rfl)

theorem WithMetaH_rel (mem0 : Maps) (arg : Option Nat) (st : Maps × Option Nat) (s : S)
    (harg : ∀ a, arg = some a → a < mem0.length) (hrel : MetaRel mem0 st s.meta) :
    MetaRel mem0 (WithMetaH arg st) (WithMeta (arg.map (readMap mem0)) s).meta := by
  obtain ⟨htake, hcur⟩ := hrel
  have hlen : mem0.length ≤ st.1.length := by
    have := congrArg List.length htake
    simp at this
    omega
  rw [WithMeta_meta]
  simp only [WithMetaH, foldl_modifyAt_mapSet]
  cases h2 : st.2 with
  | none =>
    rw [h2] at hcur
    have htake1 : (st.1 ++ [[]]).take mem0.length = mem0 := by
      rw [List.take_append_of_le_length hlen]; exact htake
    simp only [argMap_of_take _ _ arg htake1 harg]
    refine ⟨?_, hlen, ?_, ?_⟩
    · rw [modifyAt_take _ _ _ _ hlen]; exact htake1
    · simp [modifyAt_length]
    · rw [readMap_modifyAt_self _ _ _ (by simp), hcur]
      simp [readMap]
  | some a =>
    rw [h2] at hcur
    obtain ⟨hge, hlt, hm⟩ := hcur
    simp only [argMap_of_take _ _ arg htake harg]
    refine ⟨?_, hge, ?_, ?_⟩
    · rw [modifyAt_take _ _ _ _ hge]; exact htake
    · simpa [modifyAt_length] using hlt
    · rw [readMap_modifyAt_self _ _ _ hlt, hm]
      rfl

theorem metaFieldH_rel (mem0 : Maps) (opts : List OptH) :
    ∀ (st : Maps × Option Nat) (s : S), (∀ a ∈ metaAddrs opts, a < mem0.length) →
      MetaRel mem0 st s.meta →
      MetaRel mem0
        (opts.foldl
          (fun st o =>
            match o with
            | .meta arg => WithMetaH arg st
            | _ => st) st)
        (((opts.map (OptH.toOpt mem0)).map Opt.fn).foldl (fun acc opt => opt acc) s).meta := by
  induction opts with
  | nil => intro st s _ h; exact h
  | cons o rest ih =>
    intro st s hv h
    cases o with
    | tags xs => exact ih st _ (fun a ha => hv a ha) h
    | ticket xs => exact ih st _ (fun a ha => hv a ha) h
    | meta arg =>
      have hrest : ∀ a ∈ metaAddrs rest, a < mem0.length := by
        intro a ha
        cases arg with
        | none => exact hv a ha
        | some b => exact hv a (List.mem_cons_of_mem _ ha)
      have harg : ∀ a, arg = some a → a < mem0.length := by
        rintro a rfl
        exact hv a (List.mem_cons_self _ _)
      exact ih _ _ hrest (WithMetaH_rel mem0 arg st s harg h)

theorem metaArgs_toOpt_nodup (mem0 : Maps) (hmaps : ∀ m ∈ mem0, (m.map Prod.fst).Nodup)
    (opts : List OptH) :
    ∀ m ∈ metaArgs (opts.map (OptH.toOpt mem0)), (m.map Prod.fst).Nodup := by
  induction opts with
  | nil => intro m hm; simp [metaArgs] at hm
  | cons o rest ih =>
    cases o with
    | tags xs => exact ih
    | ticket xs => exact ih
    | meta arg =>
      intro m hm
      simp only [List.map_cons, OptH.toOpt, metaArgs, List.mem_cons] at hm
      rcases hm with rfl | hm
      · cases arg with
        | none => simp
        | some a =>
          simp only [Option.map_some', Option.getD_some, readMap]
          cases hg : mem0[a]? with
          | none => simp
          | some x => exact hmaps x (List.getElem?_mem hg)
      · exact ih m hm

theorem Init_mapGet (t : TestingT) (scenario : String) (opts : List Opt) (now : Int)
    (c : Collector) (hn : ∀ m ∈ metaArgs opts, (m.map Prod.fst).Nodup) (k : String) :
    mapGet ((Init t scenario (opts.map Opt.fn) now c).story.meta.getD []) k =
      (metaArgs opts).reverse.findSome? (fun m => mapGet m k) :=
  (foldl_opts_mapGet opts hn _ k).trans (by simp [mapGet])

/-- C19: for every sequence of options, the story's metadata has as keys the union of the
keys of the maps passed to `WithMeta`, and maps each key to its value in the last of these
maps that has it; it is a map (no key twice).  Run on the heap, the option loop computes
this map in a map of its own, and the maps that existed before `Init`, those passed in
among them, are left as they were. -/
theorem meta_merges_later_wins (t : TestingT) (scenario : String) (mem0 : Maps)
    (opts : List OptH) (now : Int) (c : Collector) (k : String)
    (hvalid : ∀ a ∈ metaAddrs opts, a < mem0.length)
    (hmaps : ∀ m ∈ mem0, (m.map Prod.fst).Nodup) :
    mapGet ((Init t scenario ((opts.map (OptH.toOpt mem0)).map Opt.fn) now c).story.meta.getD [])
        k =
      (metaArgs (opts.map (OptH.toOpt mem0))).reverse.findSome? (fun m => mapGet m k) ∧
    (k ∈ ((Init t scenario ((opts.map (OptH.toOpt mem0)).map Opt.fn) now
        c).story.meta.getD []).map Prod.fst ↔
      ∃ m ∈ metaArgs (opts.map (OptH.toOpt mem0)), k ∈ m.map Prod.fst) ∧
    (((Init t scenario ((opts.map (OptH.toOpt mem0)).map Opt.fn) now
        c).story.meta.getD []).map Prod.fst).Nodup ∧
    (metaFieldH mem0 opts).2.map (readMap (metaFieldH mem0 opts).1) =
      (Init t scenario ((opts.map (OptH.toOpt mem0)).map Opt.fn) now c).story.meta ∧
    (metaFieldH mem0 opts).1.take mem0.length = mem0 := by
  have hn := metaArgs_toOpt_nodup mem0 hmaps opts
  have hget := Init_mapGet t scenario (opts.map (OptH.toOpt mem0)) now c hn
  have hrel : MetaRel mem0 (metaFieldH mem0 opts)
      (Init t scenario ((opts.map (OptH.toOpt mem0)).map Opt.fn) now c).story.meta :=
    metaFieldH_rel mem0 opts (mem0, none) _ hvalid ⟨List.take_length _, rfl⟩
  refine ⟨hget k, ?_, ?_, ?_, hrel.1⟩
  · rw [← mapGet_isSome_iff, hget k, List.findSome?_isSome_iff]
    constructor
    · rintro ⟨m, hm, hk⟩
      exact ⟨m, List.mem_reverse.1 hm, (mapGet_isSome_iff m k).1 hk⟩
    · rintro ⟨m, hm, hk⟩
      exact ⟨m, List.mem_reverse.2 hm, (mapGet_isSome_iff m k).2 hk⟩
  · exact foldl_opts_meta_nodup (opts.map (OptH.toOpt mem0)) _ (by simp)
  · have h2 := hrel.2
    cases hs : (metaFieldH mem0 opts).2 with
    | none => rw [hs] at h2; rw [h2]; rfl
    | some a => rw [hs] at h2; rw [h2.2.2]; rfl

/-- Two maps on the heap, passed to two `WithMeta` options with a `WithTags` in between:
the later value of `priority` wins, `owner` is kept, and the two maps are as they were. -/
theorem meta_merges_later_wins_witness :
    mapGet ((Init {} "x"
        (([OptH.meta (some 0), .tags ["t"], .meta (some 1)].map
          (OptH.toOpt [[("priority", .str "high"), ("owner", .str "team")],
            [("priority", .str "low")]])).map Opt.fn) 0 {}).story.meta.getD []) "priority" =
      some (.str "low") ∧
    (metaFieldH [[("priority", .str "high"), ("owner", .str "team")], [("priority", .str "low")]]
        [.meta (some 0), .tags ["t"], .meta (some 1)]).1 =
      [[("priority", .str "high"), ("owner", .str "team")], [("priority", .str "low")],
        [("priority", .str "low"), ("owner", .str "team")]] :=
  ⟨(meta_merges_later_wins {} "x"
      [[("priority", .str "high"), ("owner", .str "team")], [("priority", .str "low")]]
      [.meta (some 0), .tags ["t"], .meta (some 1)] 0 {} "priority"
      (by decide) (by decide)).1.trans (by decide),
    by decide⟩

/-! ### JSON entries -/

theorem jsonEntry_toLib (lib : GoLib) (label : String) (value : GoAny) (entry : DocEntry)
    (h : jsonEntryGo lib label value = .ok entry) :
    jsonEntry lib.toLib label value = entry := by
  simp only [jsonEntryGo] at h
  simp only [jsonEntry, GoLib.toLib]
  cases hm : lib.marshalIndent value "" "  " with
  | panic v => rw [hm] at h; exact Except.noConfusion h
  | ok b => rw [hm] at h; exact Except.ok.inj h
  | error err =>
    rw [hm] at h
    cases hp : lib.sprintV value with
    | fatal => rw [hp] at h; exact Except.noConfusion h
    | text b => rw [hp] at h; exact Except.ok.inj h

/-- C21, counterexample: after one step, `JSON("payload", v)` for a value `v` whose
`MarshalJSON` method panics: `json.MarshalIndent` re-raises the panic, nothing recovers
it, so `JSON` panics and no entry is appended. For a map stored under one of its own keys
the serialisation returns an error and the fallback `fmt.Sprintf` overflows the stack: the
process dies. -/
theorem JSON_panics_when_serialisation_panics :
    S.JSONGo sampleLib (story0.addStep "Given" "some data") "payload" (.ref 0) =
      (story0.addStep "Given" "some data", some (.panic "boom")) ∧
    S.JSONGo sampleLib (story0.addStep "Given" "some data") "payload" (.ref 2) =
      (story0.addStep "Given" "some data", some .fatal) ∧
    (S.JSONGo sampleLib (story0.addStep "Given" "some data") "payload" (.ref 0)).1.steps.map
      (fun st => st.Docs.length) = [0] := by
  decide

/-- C21, amended: for every label and every value, `JSON(label, value)` returns exactly
when `json.MarshalIndent(value, "", "  ")` returns data, or returns an error and
`fmt.Sprintf("%v", value)` returns; it then appends one entry with kind `code`, language
`json` and the given label, whose content is that data (the serialisation with two-space
indent) in the first case and the printed text in the second, to the story-level docs or
to the docs of the last step. When the serialisation panics, `JSON` panics with the same
value and appends nothing; when the fallback does not return, neither does `JSON`. -/
theorem JSON_entry_with_fallback (lib : GoLib) (s : S) (h : Reachable s) (label : String)
    (value : GoAny) :
    (∀ b, lib.marshalIndent value "" "  " = .ok b →
      S.JSONGo lib s label value = (s.addDoc (codeEntry label b "json"), none)) ∧
    (∀ err b, lib.marshalIndent value "" "  " = .error err → lib.sprintV value = .text b →
      S.JSONGo lib s label value = (s.addDoc (codeEntry label b "json"), none)) ∧
    (∀ v, lib.marshalIndent value "" "  " = .panic v →
      S.JSONGo lib s label value = (s, some (.panic v))) ∧
    (∀ err, lib.marshalIndent value "" "  " = .error err → lib.sprintV value = .fatal →
      S.JSONGo lib s label value = (s, some .fatal)) ∧
    ((S.JSONGo lib s label value).2 = none ↔
      ((∃ b, lib.marshalIndent value "" "  " = .ok b) ∨
        (∃ err b, lib.marshalIndent value "" "  " = .error err ∧ lib.sprintV value = .text b))) ∧
    ((S.JSONGo lib s label value).2 = none →
      (S.JSONGo lib s label value).1 = s.JSON lib.toLib label value) ∧
    (∀ b, (codeEntry label b "json").Perm
        [("kind", .str "code"), ("label", .str label), ("content", .str b),
          ("lang", .str "json"), ("phase", .str "runtime")] ∧
      (s.addDoc (codeEntry label b "json")).docs =
        (if s.steps = [] then s.docs ++ [codeEntry label b "json"] else s.docs) ∧
      (s.addDoc (codeEntry label b "json")).steps =
        (match s.steps.getLast? with
         | none => []
         | some last =>
           s.steps.dropLast ++ [{ last with Docs := last.Docs ++ [codeEntry label b "json"] }])) := by
  refine ⟨?_, ?_, ?_, ?_, ?_, ?_, ?_⟩
  · intro b hb
    simp only [S.JSONGo, jsonEntryGo, hb]
  · intro err b he hb
    simp only [S.JSONGo, jsonEntryGo, he, hb]
  · intro v hv
    simp only [S.JSONGo, jsonEntryGo, hv]
  · intro err he hf
    simp only [S.JSONGo, jsonEntryGo, he, hf]
  · simp only [S.JSONGo, jsonEntryGo]
    cases hm : lib.marshalIndent value "" "  " with
    | panic v => simp
    | ok b => simp
    | error err => cases hp : lib.sprintV value <;> simp
  · intro hret
    simp only [S.JSONGo] at hret ⊢
    cases he : jsonEntryGo lib label value with
    | error e => rw [he] at hret; exact absurd hret (by simp)
    | ok entry =>
      simp only [S.JSON, jsonEntry_toLib lib label value entry he]
  · intro b
    refine ⟨List.Perm.refl _, ?_, ?_⟩
    · rcases snoc_cases s.steps with hs | ⟨init, last, hs⟩
      · rw [h.inv.addDoc_nil hs, hs]; simp
      · rw [h.inv.addDoc_snoc init last hs, hs]; simp
    · rcases snoc_cases s.steps with hs | ⟨init, last, hs⟩
      · rw [h.inv.addDoc_nil hs, hs]; simp
      · rw [h.inv.addDoc_snoc init last hs, hs]; simp

/-- After one step: a map, serialised with two-space indent; a number; a channel, which
has no JSON form, so the printed text is the content. -/
theorem JSON_entry_with_fallback_witness :
    Reachable (story0.addStep "Given" "some data") ∧
    S.JSONGo sampleLib (story0.addStep "Given" "some data") "payload" (.ref 3) =
      ((story0.addStep "Given" "some data").addDoc
        (codeEntry "payload" "\x7b\n  \"a\": 1\n\x7d" "json"), none) ∧
    ((S.JSONGo sampleLib (story0.addStep "Given" "some data") "payload" (.int 42)).1.steps.map
      (fun st => st.Docs.map (fun e => e.lookup "content"))) = [[some (.str "42")]] ∧
    ((S.JSONGo sampleLib (story0.addStep "Given" "some data") "payload" (.ref 1)).1.steps.map
      (fun st => st.Docs.map (fun e => e.lookup "content"))) =
        [[some (.str "0xc000020060")]] ∧
    jsonQuote "a<b \"c\"" = "\"a\\u003cb \\\"c\\\"\"" :=
  ⟨(Reachable.init _ _ [] _ _).addStep _ _,
    (JSON_entry_with_fallback sampleLib _ ((Reachable.init _ _ [] _ _).addStep _ _)
      "payload" (.ref 3)).1 _ (by decide),
    by decide, by decide, by decide⟩

/-! ### CI detection -/

theorem detectCI_github (getenv : Env) (h : getenv "GITHUB_ACTIONS" = "true") :
    detectCI getenv = some (githubDescriptor getenv) := by
  unfold detectCI githubDescriptor
  rw [if_pos h]
  by_cases hall : getenv "GITHUB_SERVER_URL" ≠ "" ∧ getenv "GITHUB_REPOSITORY" ≠ "" ∧
      getenv "GITHUB_RUN_ID" ≠ ""
  · simp only [if_pos hall]
    by_cases hu : getenv "GITHUB_SERVER_URL" ++ "/" ++ getenv "GITHUB_REPOSITORY" ++
        "/actions/runs/" ++ getenv "GITHUB_RUN_ID" ≠ ""
    · rw [if_pos hu]
    · rw [if_neg hu]
      rw [not_not] at hu
      rw [hu]
  · simp only [if_neg hall]
    rfl

/-- C22: for every environment, `detectCI` returns the descriptor of the first of the six
branches, in the order github, circleci, jenkins, travis, gitlab, generic ci, whose
condition holds (whatever holds for the later ones); it returns no descriptor exactly when
none of the six conditions holds; and the generic branch is last, with name `ci`, no url
and no build number. -/
theorem detectCI_first_match_wins (getenv : Env) :
    detectCI getenv = ((ciBranches getenv).find? (fun b => b.1)).map (fun b => b.2) ∧
    (detectCI getenv = none ↔
      (getenv "GITHUB_ACTIONS" ≠ "true" ∧ getenv "CIRCLECI" ≠ "true" ∧
        getenv "JENKINS_URL" = "" ∧ getenv "TRAVIS" ≠ "true" ∧ getenv "GITLAB_CI" ≠ "true" ∧
        getenv "CI" ≠ "true")) ∧
    (ciBranches getenv).map (fun b => b.2.Name) =
      ["github", "circleci", "jenkins", "travis", "gitlab", "ci"] ∧
    (ciBranches getenv).getLast? =
      some (decide (getenv "CI" = "true"), { Name := "ci", URL := "", BuildNumber := "" }) := by
  refine ⟨?_, ?_, rfl, rfl⟩
  · by_cases h1 : getenv "GITHUB_ACTIONS" = "true"
    · rw [detectCI_github getenv h1]
      simp [ciBranches, h1]
    · by_cases h2 : getenv "CIRCLECI" = "true"
      · simp [detectCI, ciBranches, h1, h2]
      · by_cases h3 : getenv "JENKINS_URL" = ""
        · by_cases h4 : getenv "TRAVIS" = "true"
          · simp [detectCI, ciBranches, h1, h2, h3, h4]
          · by_cases h5 : getenv "GITLAB_CI" = "true"
            · simp [detectCI, ciBranches, h1, h2, h3, h4, h5]
            · by_cases h6 : getenv "CI" = "true"
              · simp [detectCI, ciBranches, h1, h2, h3, h4, h5, h6]
              · simp [detectCI, ciBranches, h1, h2, h3, h4, h5, h6]
        · simp [detectCI, ciBranches, h1, h2, h3]
  · by_cases h1 : getenv "GITHUB_ACTIONS" = "true"
    · rw [detectCI_github getenv h1]; simp [h1]
    · by_cases h2 : getenv "CIRCLECI" = "true"
      · simp [detectCI, h1, h2]
      · by_cases h3 : getenv "JENKINS_URL" = ""
        · by_cases h4 : getenv "TRAVIS" = "true"
          · simp [detectCI, h1, h2, h3, h4]
          · by_cases h5 : getenv "GITLAB_CI" = "true"
            · simp [detectCI, h1, h2, h3, h4, h5]
            · by_cases h6 : getenv "CI" = "true"
              · simp [detectCI, h1, h2, h3, h4, h5, h6]
              · simp [detectCI, h1, h2, h3, h4, h5, h6]
        · simp [detectCI, h1, h2, h3]

/-- One environment per branch, each with the variables of later branches set as well,
and an environment in which no condition holds (`CI=1` is not `CI=true`). -/
theorem detectCI_examples :
    (detectCI (envOf [("GITHUB_ACTIONS", "true"), ("CIRCLECI", "true"), ("CI", "true")])).map
      (fun ci => ci.Name) = some "github" ∧
    (detectCI (envOf [("CIRCLECI", "true"), ("JENKINS_URL", "http://j"), ("CI", "true")])).map
      (fun ci => ci.Name) = some "circleci" ∧
    (detectCI (envOf [("JENKINS_URL", "http://j"), ("TRAVIS", "true"), ("CI", "true")])).map
      (fun ci => ci.Name) = some "jenkins" ∧
    (detectCI (envOf [("TRAVIS", "true"), ("GITLAB_CI", "true"), ("CI", "true")])).map
      (fun ci => ci.Name) = some "travis" ∧
    (detectCI (envOf [("GITLAB_CI", "true"), ("CI", "true")])).map
      (fun ci => ci.Name) = some "gitlab" ∧
    detectCI (envOf [("CI", "true"), ("BUILD_NUMBER", "7")]) = some { Name := "ci" } ∧
    detectCI (envOf [("CI", "1"), ("GITHUB_ACTIONS", "1")]) = none := by
  decide

theorem append_ne_empty (a b : String) (h : a ≠ "") : a ++ b ≠ "" := by
  intro hab
  apply h
  have h1 : (a ++ b).data = [] := by rw [hab]
  rw [String.data_append, List.append_eq_nil] at h1
  exact String.ext h1.1

/-- C23: in every environment with `GITHUB_ACTIONS = "true"`, the descriptor `detectCI`
returns has name `github` and build number `GITHUB_RUN_NUMBER`; its url is present (not
empty) exactly when `GITHUB_SERVER_URL`, `GITHUB_REPOSITORY` and `GITHUB_RUN_ID` are all
non-empty, and then it is server + "/" + repository + "/actions/runs/" + run ID. -/
theorem detectCI_github_run_url (getenv : Env) (h : getenv "GITHUB_ACTIONS" = "true") :
    (detectCI getenv).map (fun ci => ci.Name) = some "github" ∧
    (detectCI getenv).map (fun ci => ci.BuildNumber) = some (getenv "GITHUB_RUN_NUMBER") ∧
    ((detectCI getenv).map (fun ci => decide (ci.URL ≠ "")) =
      some (decide (getenv "GITHUB_SERVER_URL" ≠ "" ∧ getenv "GITHUB_REPOSITORY" ≠ "" ∧
        getenv "GITHUB_RUN_ID" ≠ ""))) ∧
    (detectCI getenv).map (fun ci => ci.URL) =
      some (if getenv "GITHUB_SERVER_URL" ≠ "" ∧ getenv "GITHUB_REPOSITORY" ≠ "" ∧
          getenv "GITHUB_RUN_ID" ≠ "" then
        getenv "GITHUB_SERVER_URL" ++ "/" ++ getenv "GITHUB_REPOSITORY" ++ "/actions/runs/" ++
          getenv "GITHUB_RUN_ID"
      else "") := by
  rw [detectCI_github getenv h]
  refine ⟨rfl, rfl, ?_, rfl⟩
  simp only [Option.map_some', githubDescriptor, Option.some.injEq, decide_eq_decide]
  by_cases hall : getenv "GITHUB_SERVER_URL" ≠ "" ∧ getenv "GITHUB_REPOSITORY" ≠ "" ∧
      getenv "GITHUB_RUN_ID" ≠ ""
  · rw [if_pos hall]
    exact ⟨fun _ => hall, fun _ => by
      have h1 := append_ne_empty (getenv "GITHUB_SERVER_URL")
        ("/" ++ getenv "GITHUB_REPOSITORY" ++ "/actions/runs/" ++ getenv "GITHUB_RUN_ID") hall.1
      simpa [String.append_assoc] using h1⟩
  · rw [if_neg hall]
    exact ⟨fun hne => absurd rfl hne, fun hh => absurd hh hall⟩

/-- A GitHub environment with all three variables, and one without the run ID. -/
theorem detectCI_github_run_url_witness :
    (detectCI (envOf [("GITHUB_ACTIONS", "true"), ("GITHUB_SERVER_URL", "https://github.com"),
        ("GITHUB_REPOSITORY", "o/r"), ("GITHUB_RUN_ID", "42"), ("GITHUB_RUN_NUMBER", "7")])).map
      (fun ci => ci.URL) = some "https://github.com/o/r/actions/runs/42" ∧
    detectCI (envOf [("GITHUB_ACTIONS", "true"), ("GITHUB_SERVER_URL", "https://github.com"),
        ("GITHUB_REPOSITORY", "o/r"), ("GITHUB_RUN_NUMBER", "7")]) =
      some { Name := "github", URL := "", BuildNumber := "7" } :=
  ⟨(detectCI_github_run_url
      (envOf [("GITHUB_ACTIONS", "true"), ("GITHUB_SERVER_URL", "https://github.com"),
        ("GITHUB_REPOSITORY", "o/r"), ("GITHUB_RUN_ID", "42"), ("GITHUB_RUN_NUMBER", "7")])
      (by decide)).2.2.2.trans (by decide),
    by decide⟩

/-! ### Stored keywords -/

theorem S.addStep_keywords (s : S) (keyword txt : String) :
    (s.addStep keyword txt).keywords = s.keywords ++
      [if isPrimary keyword = true ∧ keyword ∈ s.seenPrimary then "And" else keyword] := by
  simp [S.keywords, S.addStep_steps]

theorem S.writeCurrent_keywords {s s1 : S} {f : StoryStep → StoryStep}
    (hw : s.writeCurrent f = some s1) (hf : ∀ st, (f st).Keyword = st.Keyword) :
    s1.keywords = s.keywords ∧ s1.seenPrimary = s.seenPrimary := by
  obtain ⟨i, _, rfl⟩ := S.writeCurrent_eq_some hw
  exact ⟨modifyAt_map f _ hf i s.steps, rfl⟩

theorem S.addDoc_keywords (s : S) (entry : DocEntry) :
    (s.addDoc entry).keywords = s.keywords ∧ (s.addDoc entry).seenPrimary = s.seenPrimary := by
  cases hc : s.currentStep with
  | none => rw [S.addDoc_of_none hc]; exact ⟨rfl, rfl⟩
  | some i =>
    rw [S.addDoc_of_some hc]
    refine ⟨?_, rfl⟩
    simp only [S.keywords]
    apply modifyAt_map
    intro st
    rfl

theorem mem_fiveKeywords_of_contains (k : String) (h : fiveKeywords.contains k = true) :
    k ∈ fiveKeywords := by
  simpa [List.contains] using h

theorem Keyword.literal_mem_five (k : Keyword) : k.literal ∈ fiveKeywords := by
  cases k <;> decide

theorem S.addStep_allFive (s : S) (keyword txt : String) (hk : keyword ∈ fiveKeywords)
    (hs : AllFive s) : AllFive (s.addStep keyword txt) := by
  intro k hmem
  rw [S.addStep_keywords, List.mem_append, List.mem_singleton] at hmem
  rcases hmem with hmem | rfl
  · exact hs k hmem
  · split
    · decide
    · exact hk

theorem Fn_allFive (keyword txt : String) (body : Body) (start finish : Int) (w : World)
    (hk : keyword ∈ fiveKeywords)
    (hbody : ∀ w1 : World, AllFive w1.story → AllFive (body w1).1.story)
    (hw : AllFive w.story) : AllFive (Fn keyword txt body start finish w).1.story := by
  have h1 : AllFive (w.story.addStep keyword txt) := S.addStep_allFive _ _ _ hk hw
  simp only [Fn]
  split
  · exact h1
  · next s2 hwr =>
    have h2 : AllFive s2 := by
      intro k hmem
      rw [(S.writeCurrent_keywords hwr (fun _ => rfl)).1] at hmem
      exact h1 k hmem
    have h3 := hbody { w with story := s2 } h2
    split
    · exact h3
    · next s3 hd =>
      intro k hmem
      rw [(S.writeCurrent_keywords hd (fun _ => rfl)).1] at hmem
      exact h3 k hmem

/-- Test code whose `Fn` keywords are among the five stores only keywords among the
five. -/
theorem Script.run_allFive (script : Script) (hk : script.fnKeywordsOk = true) :
    ∀ w : World, AllFive w.story → AllFive (script.run w).1.story := by
  induction script with
  | ret => intro w hw; exact hw
  | panic v => intro w hw; exact hw
  | effect msg rest ih => intro w hw; exact ih hk _ hw
  | step k txt rest ih =>
    intro w hw
    exact ih hk { w with story := w.story.textCall k txt }
      (by rw [S.textCall_eq]; exact S.addStep_allFive _ _ _ (Keyword.literal_mem_five k) hw)
  | doc entry rest ih =>
    intro w hw
    refine ih hk { w with story := w.story.addDoc entry } ?_
    intro k hmem
    rw [(S.addDoc_keywords w.story entry).1] at hmem
    exact hw k hmem
  | Attach name mediaType path rest ih => intro w hw; exact ih hk _ hw
  | AttachInline name mediaType body encoding rest ih => intro w hw; exact ih hk _ hw
  | Fn keyword txt start finish body rest ihb ihr =>
    intro w hw
    simp only [Script.fnKeywordsOk, Bool.and_eq_true] at hk
    have h := Fn_allFive keyword txt body.run start finish w
      (mem_fiveKeywords_of_contains _ hk.1.1) (ihb hk.1.2) hw
    simp only [Script.run]
    cases hr : ES.Fn keyword txt body.run start finish w with
    | mk w1 o =>
      rw [hr] at h
      cases o with
      | none => exact ihr hk.2 w1 h
      | some v => exact h
  | Expect txt start finish body rest ihb ihr =>
    intro w hw
    simp only [Script.fnKeywordsOk, Bool.and_eq_true] at hk
    have h := Fn_allFive "Then" txt body.run start finish w (by decide) (ihb hk.1) hw
    simp only [Script.run, ES.Expect]
    cases hr : ES.Fn "Then" txt body.run start finish w with
    | mk w1 o =>
      rw [hr] at h
      cases o with
      | none => exact ihr hk.2 w1 h
      | some v => exact h

theorem isPrimary_mem_five (k : String) (h : isPrimary k = true) : k ∈ fiveKeywords := by
  simp only [isPrimary, Bool.or_eq_true, beq_iff_eq] at h
  rcases h with (h | h) | h <;> subst h <;> decide

/-- C24 (counterexample): `s.Fn("Background", "setup", func() {})` on a fresh story stores a
step whose keyword is `Background`, none of the five. -/
theorem Fn_stores_any_keyword :
    ((Script.Fn "Background" "setup" 0 0 .ret .ret).run
      { story := story0 }).1.story.steps.map (fun st => st.Keyword) = ["Background"] ∧
    "Background" ∉ fiveKeywords := by
  decide

/-- C24 (amended): every step of a story built from a fresh story by Given, When, Then,
And, But, Expect and by Fn with keyword arguments among the five has a keyword that is
one of Given, When, Then, And, But; a keyword argument of `Fn` that is not among the five
is stored unchanged as the keyword of the step. -/
theorem keywords_among_five_when_Fn_keywords_are (t : TestingT) (scenario : String)
    (opts : List Opt) (now : Int) (c : Collector) (log : List String) (script : Script)
    (hk : script.fnKeywordsOk = true) (s : S) (keyword txt : String)
    (hother : keyword ∉ fiveKeywords) :
    (∀ st ∈ (storyAfter script (Init t scenario (opts.map Opt.fn) now c).story log).steps,
      st.Keyword ∈ fiveKeywords) ∧
    (s.addStep keyword txt).steps =
      s.steps ++ [{ ID := stepID s.stepCounter, Keyword := keyword, Text := txt }] := by
  constructor
  · have hfresh := Init_fresh t scenario opts now c
    have h0 : AllFive (Init t scenario (opts.map Opt.fn) now c).story := by
      intro k hmem
      simp [S.keywords, hfresh.steps] at hmem
    have h := Script.run_allFive script hk
      { story := (Init t scenario (opts.map Opt.fn) now c).story, log := log } h0
    intro st hst
    exact h st.Keyword (List.mem_map.2 ⟨st, hst, rfl⟩)
  · rw [S.addStep_steps]
    have hnp : ¬ (isPrimary keyword = true ∧ keyword ∈ s.seenPrimary) :=
      fun hp => hother (isPrimary_mem_five keyword hp.1)
    rw [if_neg hnp]

/-- A script with text steps, `Expect` and `Fn` with keywords among the five; and the
keyword `Background`, which `addStep` stores as it is. -/
theorem keywords_among_five_when_Fn_keywords_are_witness :
    (∀ st ∈ (storyAfter
        (.step .Given "a" (.Fn "Given" "b" 0 0 (.step .But "c" .ret) (.Expect "d" 0 0 .ret .ret)))
        (Init {} "x" ([].map Opt.fn) 0 {}).story []).steps,
      st.Keyword ∈ fiveKeywords) ∧
    (story0.addStep "Background" "setup").steps =
      story0.steps ++
        [{ ID := stepID story0.stepCounter, Keyword := "Background", Text := "setup" }] :=
  keywords_among_five_when_Fn_keywords_are {} "x" [] 0 {} []
    (.step .Given "a" (.Fn "Given" "b" 0 0 (.step .But "c" .ret) (.Expect "d" 0 0 .ret .ret)))
    (by decide) story0 "Background" "setup" (by decide)

theorem isPrimary_eq_literal (k : String) (h : isPrimary k = true) :
    ∃ q : Primary, k = q.literal := by
  simp only [isPrimary, Bool.or_eq_true, beq_iff_eq] at h
  rcases h with (h | h) | h
  · exact ⟨.Given, h⟩
  · exact ⟨.When, h⟩
  · exact ⟨.Then, h⟩

theorem Primary.literal_ne_And (p : Primary) : p.literal ≠ "And" := by
  cases p <;> decide

theorem S.addStep_seenInv (s : S) (keyword txt : String) (hs : SeenInv s) :
    SeenInv (s.addStep keyword txt) := by
  intro p
  obtain ⟨hiff, hcount⟩ := hs p
  rw [S.addStep_keywords, S.addStep_seenPrimary]
  by_cases hprim : isPrimary keyword = true
  · obtain ⟨q, rfl⟩ := isPrimary_eq_literal keyword hprim
    by_cases hseen : q.literal ∈ s.seenPrimary
    · have h1 : (isPrimary q.literal = true ∧ q.literal ∈ s.seenPrimary) := ⟨hprim, hseen⟩
      have h2 : ¬ (isPrimary q.literal = true ∧ q.literal ∉ s.seenPrimary) :=
        fun h => h.2 hseen
      rw [if_pos h1, if_neg h2]
      constructor
      · rw [hiff, List.mem_append, List.mem_singleton]
        exact ⟨Or.inl, fun h => h.resolve_right (Primary.literal_ne_And p)⟩
      · rw [List.count_append, List.count_singleton]
        simp only [beq_iff_eq]
        rw [if_neg (fun h => Primary.literal_ne_And p h.symm)]
        exact hcount
    · have h1 : ¬ (isPrimary q.literal = true ∧ q.literal ∈ s.seenPrimary) :=
        fun h => hseen h.2
      have h2 : (isPrimary q.literal = true ∧ q.literal ∉ s.seenPrimary) := ⟨hprim, hseen⟩
      rw [if_neg h1, if_pos h2]
      constructor
      · simp only [List.mem_append, List.mem_singleton, hiff]
      · rw [List.count_append, List.count_singleton]
        simp only [beq_iff_eq]
        by_cases hpq : q.literal = p.literal
        · rw [if_pos hpq]
          have hnot : p.literal ∉ s.keywords := by
            rw [← hiff, ← hpq]; exact hseen
          rw [List.count_eq_zero_of_not_mem hnot]
        · rw [if_neg hpq]; exact hcount
  · have h1 : ¬ (isPrimary keyword = true ∧ keyword ∈ s.seenPrimary) := fun h => hprim h.1
    have h2 : ¬ (isPrimary keyword = true ∧ keyword ∉ s.seenPrimary) := fun h => hprim h.1
    have hne : p.literal ≠ keyword := by
      intro h
      apply hprim
      rw [← h]; exact Primary.isPrimary_literal p
    rw [if_neg h1, if_neg h2]
    constructor
    · rw [hiff, List.mem_append, List.mem_singleton]
      exact ⟨Or.inl, fun h => h.resolve_right hne⟩
    · rw [List.count_append, List.count_singleton]
      simp only [beq_iff_eq]
      rw [if_neg (fun h => hne h.symm)]
      exact hcount

/-- Every reachable story keeps the seen-set in step with the stored keywords. -/
theorem Reachable.seenInv {s : S} (h : Reachable s) : SeenInv s := by
  induction h with
  | init t scenario opts now c =>
    have hf := Init_fresh t scenario opts now c
    intro p
    simp [S.keywords, hf.steps, hf.seen]
  | addStep keyword txt _ ih => exact S.addStep_seenInv _ keyword txt ih
  | addDoc entry _ ih =>
    intro p
    rw [(S.addDoc_keywords _ entry).1, (S.addDoc_keywords _ entry).2]
    exact ih p
  | Attach name mediaType path _ ih => exact ih
  | AttachInline name mediaType body encoding _ ih => exact ih
  | wrapped _ hw ih =>
    intro p
    rw [(S.writeCurrent_keywords hw (fun _ => rfl)).1,
      (S.writeCurrent_keywords hw (fun _ => rfl)).2]
    exact ih p
  | duration d _ hw ih =>
    intro p
    rw [(S.writeCurrent_keywords hw (fun _ => rfl)).1,
      (S.writeCurrent_keywords hw (fun _ => rfl)).2]
    exact ih p

/-- C29: in every reachable story each of Given, When and Then is the stored keyword of at
most one step, and it is marked in the seen-set exactly when some step is stored with
it. -/
theorem primary_keyword_stored_at_most_once (s : S) (h : Reachable s) (p : Primary) :
    (s.steps.filter (fun st => st.Keyword = p.literal)).length ≤ 1 ∧
    (p.literal ∈ s.seenPrimary ↔ ∃ st ∈ s.steps, st.Keyword = p.literal) := by
  obtain ⟨hiff, hcount⟩ := h.seenInv p
  constructor
  · have : (s.steps.filter (fun st => st.Keyword = p.literal)).length =
        s.keywords.count p.literal := by
      rw [S.keywords]
      generalize s.steps = l
      induction l with
      | nil => rfl
      | cons st rest ih =>
        by_cases hk : st.Keyword = p.literal
        · simp [List.filter_cons, hk, ih]
        · simp [List.filter_cons, hk, ih, List.count_cons]
    rw [this]; exact hcount
  · rw [hiff, S.keywords, List.mem_map]

/-- The story after Given, When, Given, Fn("When"): Given and When are stored once each
and marked, Then is neither stored nor marked. -/
theorem primary_keyword_stored_at_most_once_witness :
    Reachable (storyAfter (.step .Given "a" (.step .When "b" (.step .Given "c"
      (.Fn "When" "d" 0 0 .ret .ret)))) story0 []) ∧
    (storyAfter (.step .Given "a" (.step .When "b" (.step .Given "c"
      (.Fn "When" "d" 0 0 .ret .ret)))) story0 []).keywords = ["Given", "When", "And", "And"] ∧
    ((storyAfter (.step .Given "a" (.step .When "b" (.step .Given "c"
      (.Fn "When" "d" 0 0 .ret .ret)))) story0 []).steps.filter
        (fun st => st.Keyword = Primary.literal .Given)).length ≤ 1 :=
  ⟨Script.run_reachable _ _ (Reachable.init _ _ [] _ _), by decide,
    (primary_keyword_stored_at_most_once _
      (Script.run_reachable (.step .Given "a" (.step .When "b" (.step .Given "c"
        (.Fn "When" "d" 0 0 .ret .ret)))) { story := story0, log := [] }
        (Reachable.init _ _ [] _ _)) .Given).1⟩

/-! ### Step references of attachments -/

theorem AttachmentOk.mono {n m : Nat} {a : RawAttachment} (h : AttachmentOk n a) (hnm : n ≤ m) :
    AttachmentOk m a := by
  rcases h with h | ⟨i, hi, h1, h2⟩
  · exact Or.inl h
  · exact Or.inr ⟨i, Nat.lt_of_lt_of_le hi hnm, h1, h2⟩

theorem S.Inv.last_ID {s : S} (h : s.Inv) (init : List StoryStep) (last : StoryStep)
    (hs : s.steps = init ++ [last]) : last.ID = stepID init.length := by
  have hids := h.ids
  rw [hs] at hids
  simp only [List.map_append, List.map_cons, List.map_nil, List.length_append,
    List.length_singleton, List.range_succ] at hids
  have := List.append_inj hids (by simp)
  simpa using this.2

/-- The step reference `Attach` and `AttachInline` compute. -/
theorem S.Inv.stepRef_ok {s : S} (h : s.Inv) (a : RawAttachment)
    (hidx : a.StepIndex =
      match s.currentStep with
      | some _ => some ((s.steps.length : Int) - 1)
      | none => none)
    (hid : a.StepID =
      match s.currentStep with
      | some i => (s.steps[i]?).map (fun st => st.ID)
      | none => none) :
    AttachmentOk s.steps.length a := by
  rcases snoc_cases s.steps with hs | ⟨init, last, hs⟩
  · have hc := h.stepRef_nil hs
    rw [hc] at hidx hid
    exact Or.inl ⟨hidx, hid⟩
  · obtain ⟨hc, hget⟩ := h.stepRef_snoc init last hs
    rw [hc] at hidx hid
    simp only [hget, Option.map_some'] at hid
    refine Or.inr ⟨init.length, by rw [hs]; simp, ?_, ?_⟩
    · rw [hidx, hs]; simp
    · rw [hid, h.last_ID init last hs]

theorem S.Attach_attachments (s : S) (name mediaType path : String) :
    ∃ a : RawAttachment, (s.Attach name mediaType path).attachments = s.attachments ++ [a] ∧
      (a.StepIndex =
        match s.currentStep with
        | some _ => some ((s.steps.length : Int) - 1)
        | none => none) ∧
      (a.StepID =
        match s.currentStep with
        | some i => (s.steps[i]?).map (fun st => st.ID)
        | none => none) := by
  cases hc : s.currentStep <;> by_cases hp : path = "" <;>
    exact ⟨_, by simp only [S.Attach, hc]; rfl, by simp [hp], by simp [hp]⟩

theorem S.AttachInline_attachments (s : S) (name mediaType body encoding : String) :
    ∃ a : RawAttachment,
      (s.AttachInline name mediaType body encoding).attachments = s.attachments ++ [a] ∧
      (a.StepIndex =
        match s.currentStep with
        | some _ => some ((s.steps.length : Int) - 1)
        | none => none) ∧
      (a.StepID =
        match s.currentStep with
        | some i => (s.steps[i]?).map (fun st => st.ID)
        | none => none) := by
  cases hc : s.currentStep <;>
    exact ⟨_, by simp only [S.AttachInline, hc]; rfl, by simp, by simp⟩

/-- In every reachable story every attachment refers to no step or to an existing one. -/
theorem Reachable.attachmentsOk {s : S} (h : Reachable s) :
    ∀ a ∈ s.attachments, AttachmentOk s.steps.length a := by
  induction h with
  | init t scenario opts now c =>
    have hf := Init_fresh t scenario opts now c
    intro a ha
    rw [hf.attachments] at ha
    exact absurd ha (List.not_mem_nil a)
  | addStep keyword txt _ ih =>
    intro a ha
    exact (ih a ha).mono (by rw [S.addStep_steps]; simp)
  | @addDoc s0 entry h0 ih =>
    intro a ha
    cases hc : s0.currentStep with
    | none => rw [S.addDoc_of_none hc] at ha ⊢; exact ih a ha
    | some i =>
      rw [S.addDoc_of_some hc] at ha ⊢
      simp only [modifyAt_length]
      exact ih a ha
  | @Attach s0 name mediaType path h0 ih =>
    intro a ha
    obtain ⟨b, hb, hidx, hid⟩ := S.Attach_attachments s0 name mediaType path
    rw [hb, List.mem_append, List.mem_singleton] at ha
    rcases ha with ha | rfl
    · exact ih a ha
    · exact h0.inv.stepRef_ok a hidx hid
  | @AttachInline s0 name mediaType body encoding h0 ih =>
    intro a ha
    obtain ⟨b, hb, hidx, hid⟩ := S.AttachInline_attachments s0 name mediaType body encoding
    rw [hb, List.mem_append, List.mem_singleton] at ha
    rcases ha with ha | rfl
    · exact ih a ha
    · exact h0.inv.stepRef_ok a hidx hid
  | wrapped _ hw ih =>
    obtain ⟨i, _, rfl⟩ := S.writeCurrent_eq_some hw
    intro a ha
    simp only [modifyAt_length]
    exact ih a ha
  | duration d _ hw ih =>
    obtain ⟨i, _, rfl⟩ := S.writeCurrent_eq_some hw
    intro a ha
    simp only [modifyAt_length]
    exact ih a ha

/-- C30: in every reachable story every attachment has neither stepIndex nor stepId, or
has both, with stepIndex smaller than the number of steps and stepId = `step-<stepIndex>`,
which is the ID of the step at that position. -/
theorem attachment_step_references_agree (s : S) (h : Reachable s) :
    ∀ a ∈ s.attachments,
      (a.StepIndex = none ∧ a.StepID = none) ∨
      ∃ i : Nat, i < s.steps.length ∧ a.StepIndex = some (i : Int) ∧
        a.StepID = some (stepID i) ∧ (s.steps[i]?).map (fun st => st.ID) = a.StepID := by
  intro a ha
  rcases h.attachmentsOk a ha with hn | ⟨i, hi, h1, h2⟩
  · exact Or.inl hn
  · refine Or.inr ⟨i, hi, h1, h2, ?_⟩
    have hids := congrArg (fun l => l[i]?) h.inv.ids
    simp only [List.getElem?_map, List.getElem?_range hi, Option.map_some'] at hids
    rw [h2]; exact hids

/-- An attachment before any step, one on the first step, then more steps and a doc: the
references stay valid. -/
theorem attachment_step_references_agree_witness :
    Reachable (storyAfter (.Attach "a" "text/plain" "a.txt" (.step .Given "g"
      (.AttachInline "b" "text/plain" "hi" "utf-8" (.step .When "w"
        (.doc (noteEntry "n") .ret))))) story0 []) ∧
    (storyAfter (.Attach "a" "text/plain" "a.txt" (.step .Given "g"
      (.AttachInline "b" "text/plain" "hi" "utf-8" (.step .When "w"
        (.doc (noteEntry "n") .ret))))) story0 []).attachments.map
      (fun a => (a.StepIndex, a.StepID)) = [(none, none), (some 0, some "step-0")] ∧
    (∀ a ∈ (storyAfter (.Attach "a" "text/plain" "a.txt" (.step .Given "g"
      (.AttachInline "b" "text/plain" "hi" "utf-8" (.step .When "w"
        (.doc (noteEntry "n") .ret))))) story0 []).attachments,
      (a.StepIndex = none ∧ a.StepID = none) ∨
      ∃ i : Nat, i < (storyAfter (.Attach "a" "text/plain" "a.txt" (.step .Given "g"
        (.AttachInline "b" "text/plain" "hi" "utf-8" (.step .When "w"
          (.doc (noteEntry "n") .ret))))) story0 []).steps.length ∧
        a.StepIndex = some (i : Int) ∧ a.StepID = some (stepID i) ∧
        ((storyAfter (.Attach "a" "text/plain" "a.txt" (.step .Given "g"
          (.AttachInline "b" "text/plain" "hi" "utf-8" (.step .When "w"
            (.doc (noteEntry "n") .ret))))) story0 []).steps[i]?).map (fun st => st.ID)
          = a.StepID) :=
  ⟨Script.run_reachable _ _ (Reachable.init _ _ [] _ _), by decide,
    attachment_step_references_agree _
      (Script.run_reachable (.Attach "a" "text/plain" "a.txt" (.step .Given "g"
        (.AttachInline "b" "text/plain" "hi" "utf-8" (.step .When "w"
          (.doc (noteEntry "n") .ret))))) { story := story0, log := [] }
        (Reachable.init _ _ [] _ _))⟩

/-! ### RunAndReport -/

theorem RunAndReport_eq (sys : Sys) (mRun : Collector → Int × Collector) (start finish : Int)
    (c : Collector) :
    RunAndReport sys mRun start finish c =
      if getAll (mRun { c with startTime := start }).2 = [] then
        { ops := [], report := none, collector := (mRun { c with startTime := start }).2,
          ending := .exit (mRun { c with startTime := start }).1 }
      else
        { ops := (writeRawRun sys
            (runDocument sys finish (mRun { c with startTime := start }).2)
            (outputPathOf sys.getenv)).1,
          report := some (writeRawRun sys
            (runDocument sys finish (mRun { c with startTime := start }).2)
            (outputPathOf sys.getenv)).2,
          collector := (mRun { c with startTime := start }).2,
          ending :=
            match (writeRawRun sys
              (runDocument sys finish (mRun { c with startTime := start }).2)
              (outputPathOf sys.getenv)).2 with
            | .returned _ => .exit (mRun { c with startTime := start }).1
            | .panicked v => .panic v } := by
  simp only [RunAndReport, runDocument, outputPathOf]
  by_cases h : getAll (mRun { c with startTime := start }).2 = []
  · rw [if_pos h, if_neg (by rw [h]; simp)]
  · rw [if_neg h, if_pos (List.length_pos.mpr h)]
    split <;> rename_i heq <;> rw [heq]

theorem writeRawRun_ops (sys : Sys) (run : RawRun) (outputPath : String) :
    ∃ rest, (writeRawRun sys run outputPath).1 = .mkdirAll (sys.dir outputPath) 0o755 :: rest ∧
      (rest = [] ∨ ∃ data, sys.marshalIndent run = .ok data ∧
        rest = [.writeFile outputPath data 0o644]) := by
  simp only [writeRawRun]
  cases sys.mkdirAll (sys.dir outputPath) 0o755 with
  | some err => exact ⟨[], rfl, Or.inl rfl⟩
  | none =>
    cases hm : sys.marshalIndent run with
    | panic v => exact ⟨[], rfl, Or.inl rfl⟩
    | error err => exact ⟨[], rfl, Or.inl rfl⟩
    | ok data => exact ⟨_, rfl, Or.inr ⟨data, rfl, rfl⟩⟩

/-- `writeRawRun` panics exactly when the directory was created and the serialisation
panics. -/
theorem writeRawRun_panicked (sys : Sys) (run : RawRun) (outputPath : String) (v : String) :
    (writeRawRun sys run outputPath).2 = .panicked v ↔
      (sys.mkdirAll (sys.dir outputPath) 0o755 = none ∧ sys.marshalIndent run = .panic v) := by
  simp only [writeRawRun]
  cases sys.mkdirAll (sys.dir outputPath) 0o755 with
  | some err => simp
  | none =>
    cases hm : sys.marshalIndent run with
    | panic w => simp
    | error err => simp
    | ok data => simp

/-- C25: RunAndReport attempts no filesystem call (no directory creation, no file write)
and does not call writeRawRun when the collector holds no test case at the end of the
run; with at least one test case it attempts exactly the calls of writeRawRun on the
document with schemaVersion 1 and the collected test cases in collection order: a
directory creation, then at most one file write, whose data is the serialisation of that
document. -/
theorem RunAndReport_writes_only_with_cases (sys : Sys) (mRun : Collector → Int × Collector)
    (start finish : Int) (c : Collector) :
    ((RunAndReport sys mRun start finish c).ops = [] ↔
      (mRun { c with startTime := start }).2.collected = []) ∧
    ((RunAndReport sys mRun start finish c).report = none ↔
      (mRun { c with startTime := start }).2.collected = []) ∧
    (runDocument sys finish (mRun { c with startTime := start }).2).SchemaVersion = 1 ∧
    (runDocument sys finish (mRun { c with startTime := start }).2).TestCases =
      (mRun { c with startTime := start }).2.collected ∧
    ((RunAndReport sys mRun start finish c).ops =
      if (mRun { c with startTime := start }).2.collected = [] then []
      else (writeRawRun sys (runDocument sys finish (mRun { c with startTime := start }).2)
        (outputPathOf sys.getenv)).1) ∧
    (∀ op ∈ (RunAndReport sys mRun start finish c).ops,
      op = .mkdirAll (sys.dir (outputPathOf sys.getenv)) 0o755 ∨
      ∃ data, sys.marshalIndent
          (runDocument sys finish (mRun { c with startTime := start }).2) = .ok data ∧
        op = .writeFile (outputPathOf sys.getenv) data 0o644) := by
  obtain ⟨rest, hops, hrest⟩ := writeRawRun_ops sys
    (runDocument sys finish (mRun { c with startTime := start }).2) (outputPathOf sys.getenv)
  rw [RunAndReport_eq]
  simp only [getAll]
  by_cases h : (mRun { c with startTime := start }).2.collected = []
  · rw [if_pos h, if_pos h]
    refine ⟨⟨fun _ => h, fun _ => rfl⟩, ⟨fun _ => h, fun _ => rfl⟩, rfl, rfl, rfl, ?_⟩
    intro op hop
    exact absurd hop (List.not_mem_nil op)
  · rw [if_neg h, if_neg h]
    refine ⟨⟨fun hn => ?_, fun hn => absurd hn h⟩,
      ⟨fun hn => Option.noConfusion hn, fun hn => absurd hn h⟩, rfl, rfl, rfl, ?_⟩
    · rw [hops] at hn
      exact absurd hn (List.cons_ne_nil _ _)
    · intro op hop
      rw [hops, List.mem_cons] at hop
      rcases hop with rfl | hop
      · exact Or.inl rfl
      · rcases hrest with rfl | ⟨data, hd, rfl⟩
        · exact absurd hop (List.not_mem_nil op)
        · rw [List.mem_singleton] at hop
          exact Or.inr ⟨data, hd, hop⟩

/-- Two runs on a system where every call succeeds: no test case recorded, nothing is
attempted; one test case recorded, the directory is created and the file written at the
default path. -/
theorem RunAndReport_examples :
    (RunAndReport okSys (fun c => (0, c)) 0 0 {}).ops = [] ∧
    (RunAndReport okSys (fun c => (0, record {} c)) 0 0 {}).ops =
      [.mkdirAll ".executable-stories" 0o755,
        .writeFile ".executable-stories/raw-run.json" "1" 0o644] := by
  decide

/-- C26, counterexample: the test run returns exit code 0 with one recorded test case and
the serialisation of the document panics (a `MarshalJSON` method of a value held in a doc
entry panics). The panic unwinds through `writeRawRun` and `RunAndReport`: the directory
has been created, no file is written, and `RunAndReport` ends with the panic instead of
`os.Exit(0)`. -/
theorem RunAndReport_panics_when_serialisation_panics :
    (RunAndReport { okSys with marshalIndent := fun _ => .panic "MarshalJSON: boom" }
      (fun c => (0, record {} c)) 0 0 {}).ending = .panic "MarshalJSON: boom" ∧
    (RunAndReport { okSys with marshalIndent := fun _ => .panic "MarshalJSON: boom" }
      (fun c => (0, record {} c)) 0 0 {}).ending ≠ .exit 0 ∧
    (RunAndReport { okSys with marshalIndent := fun _ => .panic "MarshalJSON: boom" }
      (fun c => (0, record {} c)) 0 0 {}).report = some (.panicked "MarshalJSON: boom") ∧
    (RunAndReport { okSys with marshalIndent := fun _ => .panic "MarshalJSON: boom" }
      (fun c => (0, record {} c)) 0 0 {}).ops = [.mkdirAll ".executable-stories" 0o755] := by
  decide

/-- C26, amended: `RunAndReport` ends with `os.Exit(code)`, `code` being what the test run
returned, in every case in which the report write does not panic: not attempted,
succeeded, or returned the error of the directory creation, of the serialisation or of the
file write (each of these occurs with every exit code); the report write panics exactly
when there is a test case, the directory was created and the serialisation panics, and
then `RunAndReport` panics with the same value and `os.Exit` is not reached. -/
theorem RunAndReport_exits_with_host_code (sys : Sys) (mRun : Collector → Int × Collector)
    (start finish : Int) (c : Collector) (code : Int) (err : String) :
    ((RunAndReport sys mRun start finish c).ending =
        .exit (mRun { c with startTime := start }).1 ↔
      ∀ v, (RunAndReport sys mRun start finish c).report ≠ some (.panicked v)) ∧
    (∀ v, (RunAndReport sys mRun start finish c).report = some (.panicked v) ↔
      ((mRun { c with startTime := start }).2.collected ≠ [] ∧
        sys.mkdirAll (sys.dir (outputPathOf sys.getenv)) 0o755 = none ∧
        sys.marshalIndent (runDocument sys finish (mRun { c with startTime := start }).2) =
          .panic v)) ∧
    (∀ v, (RunAndReport sys mRun start finish c).report = some (.panicked v) →
      (RunAndReport sys mRun start finish c).ending = .panic v) ∧
    (RunAndReport okSys (fun c => (code, c)) start finish {}).report = none ∧
    (RunAndReport okSys (fun c => (code, c)) start finish {}).ending = .exit code ∧
    (RunAndReport okSys (fun c => (code, record {} c)) start finish {}).report =
      some (.returned none) ∧
    (RunAndReport okSys (fun c => (code, record {} c)) start finish {}).ending = .exit code ∧
    (RunAndReport { okSys with mkdirAll := fun _ _ => some err }
      (fun c => (code, record {} c)) start finish {}).report =
        some (.returned (some (.mkdir err))) ∧
    (RunAndReport { okSys with mkdirAll := fun _ _ => some err }
      (fun c => (code, record {} c)) start finish {}).ending = .exit code ∧
    (RunAndReport { okSys with marshalIndent := fun _ => .error err }
      (fun c => (code, record {} c)) start finish {}).report =
        some (.returned (some (.marshal err))) ∧
    (RunAndReport { okSys with marshalIndent := fun _ => .error err }
      (fun c => (code, record {} c)) start finish {}).ending = .exit code ∧
    (RunAndReport { okSys with writeFile := fun _ _ _ => some err }
      (fun c => (code, record {} c)) start finish {}).report =
        some (.returned (some (.write err))) ∧
    (RunAndReport { okSys with writeFile := fun _ _ _ => some err }
      (fun c => (code, record {} c)) start finish {}).ending = .exit code := by
  refine ⟨?_, ?_, ?_, rfl, rfl, rfl, rfl, rfl, rfl, rfl, rfl, rfl, rfl⟩
  · rw [RunAndReport_eq]
    by_cases h : getAll (mRun { c with startTime := start }).2 = []
    · rw [if_pos h]
      exact ⟨fun _ v hv => Option.noConfusion hv, fun _ => rfl⟩
    · rw [if_neg h]
      show (match (writeRawRun sys (runDocument sys finish
          (mRun { c with startTime := start }).2) (outputPathOf sys.getenv)).2 with
        | .returned _ => RunEnding.exit (mRun { c with startTime := start }).1
        | .panicked v => RunEnding.panic v) = _ ↔
        ∀ v, some (writeRawRun sys (runDocument sys finish
          (mRun { c with startTime := start }).2) (outputPathOf sys.getenv)).2 ≠ _
      cases (writeRawRun sys (runDocument sys finish (mRun { c with startTime := start }).2)
          (outputPathOf sys.getenv)).2 with
      | returned e =>
        exact ⟨fun _ v hv => WriteEnding.noConfusion (Option.some.inj hv), fun _ => rfl⟩
      | panicked w =>
        constructor
        · intro hex; exact RunEnding.noConfusion hex
        · intro hall; exact absurd rfl (hall w)
  · intro v
    rw [RunAndReport_eq]
    by_cases h : getAll (mRun { c with startTime := start }).2 = []
    · rw [if_pos h]
      constructor
      · intro hv; exact Option.noConfusion hv
      · intro hv; exact absurd h hv.1
    · rw [if_neg h]
      constructor
      · intro hv
        exact ⟨h, (writeRawRun_panicked _ _ _ _).1 (Option.some.inj hv)⟩
      · intro hv
        exact congrArg some ((writeRawRun_panicked _ _ _ _).2 hv.2)
  · intro v
    rw [RunAndReport_eq]
    by_cases h : getAll (mRun { c with startTime := start }).2 = []
    · rw [if_pos h]
      intro hv; exact Option.noConfusion hv
    · rw [if_neg h]
      intro hv
      show (match (writeRawRun sys (runDocument sys finish
          (mRun { c with startTime := start }).2) (outputPathOf sys.getenv)).2 with
        | .returned _ => RunEnding.exit (mRun { c with startTime := start }).1
        | .panicked v => RunEnding.panic v) = _
      rw [Option.some.inj hv]

/-! ### The JSON form of a step -/

theorem StoryStep.jsonKeys_eq (st : StoryStep) :
    st.jsonKeys =
      (if st.ID = "" then [] else ["id"]) ++ ["keyword", "text"] ++
      (if st.Mode = "" then [] else ["mode"]) ++
      (if st.Wrapped = false then [] else ["wrapped"]) ++
      (if st.Docs = [] then [] else ["docs"]) ++
      (if st.DurationMs = none then [] else ["durationMs"]) := by
  simp only [StoryStep.jsonKeys, StoryStep.jsonMembers, List.map_append, List.length_eq_zero]
  congr 1
  · congr 1
    · congr 1
      · congr 1
        · congr 1
          split <;> rfl
        · split <;> rfl
      · split <;> rfl
    · split <;> rfl
  · cases st.DurationMs <;> rfl

/-- C27, counterexample: the step stored by `Given("x")` on a fresh story is serialised
with the members `id`, `keyword` and `text` only; `wrapped` and `docs` are absent. -/
theorem unwrapped_step_without_docs_omits_wrapped_and_docs :
    (storyAfter (.step .Given "x" .ret) story0 []).steps.map StoryStep.jsonKeys =
      [["id", "keyword", "text"]] ∧
    (storyAfter (.step .Given "x" .ret) story0 []).steps.map (fun st => (st.Wrapped, st.Docs)) =
      [(false, [])] ∧
    ¬ (∀ st ∈ (storyAfter (.step .Given "x" .ret) story0 []).steps,
        "wrapped" ∈ st.jsonKeys ∧ "docs" ∈ st.jsonKeys) := by
  decide

theorem stepID_ne_empty (n : Nat) : stepID n ≠ "" := by
  unfold stepID
  exact append_ne_empty _ _ (by decide)

/-- No builder call writes the `Mode` of a step. -/
theorem Reachable.modes {s : S} (h : Reachable s) :
    ∀ m ∈ s.steps.map (fun st => st.Mode), m = "" := by
  induction h with
  | init t scenario opts now c =>
    have hf := Init_fresh t scenario opts now c
    intro m hm
    rw [hf.steps] at hm
    exact absurd hm (List.not_mem_nil m)
  | addStep keyword txt _ ih =>
    intro m hm
    rw [S.addStep_steps, List.map_append, List.mem_append] at hm
    rcases hm with hm | hm
    · exact ih m hm
    · simpa using hm
  | @addDoc s0 entry h0 ih =>
    cases hc : s0.currentStep with
    | none => rw [S.addDoc_of_none hc]; exact ih
    | some i =>
      rw [S.addDoc_of_some hc]
      intro m hm
      dsimp only at hm
      rw [modifyAt_map] at hm
      · exact ih m hm
      · intro st; rfl
  | Attach name mediaType path _ ih => exact ih
  | AttachInline name mediaType body encoding _ ih => exact ih
  | wrapped _ hw ih =>
    obtain ⟨i, _, rfl⟩ := S.writeCurrent_eq_some hw
    intro m hm
    dsimp only at hm
    rw [modifyAt_map] at hm
    · exact ih m hm
    · intro st; rfl
  | duration d _ hw ih =>
    obtain ⟨i, _, rfl⟩ := S.writeCurrent_eq_some hw
    intro m hm
    dsimp only at hm
    rw [modifyAt_map] at hm
    · exact ih m hm
    · intro st; rfl

/-- C27, amended: in the JSON object of every step of every reachable story the members
`id`, `keyword` and `text` are present; `wrapped` is present exactly when the step is
wrapped, `docs` exactly when the step has at least one doc entry, `durationMs` exactly
when a duration was recorded; there is no other member. -/
theorem step_json_members (s : S) (h : Reachable s) (st : StoryStep) (hst : st ∈ s.steps) :
    "id" ∈ st.jsonKeys ∧ "keyword" ∈ st.jsonKeys ∧ "text" ∈ st.jsonKeys ∧
    ("wrapped" ∈ st.jsonKeys ↔ st.Wrapped = true) ∧
    ("docs" ∈ st.jsonKeys ↔ st.Docs ≠ []) ∧
    ("durationMs" ∈ st.jsonKeys ↔ st.DurationMs ≠ none) ∧
    (∀ k ∈ st.jsonKeys, k ∈ ["id", "keyword", "text", "wrapped", "docs", "durationMs"]) := by
  have hid : st.ID ≠ "" := by
    have hmem : st.ID ∈ s.steps.map (fun st => st.ID) := List.mem_map_of_mem _ hst
    rw [h.inv.ids, List.mem_map] at hmem
    obtain ⟨i, _, hi⟩ := hmem
    rw [← hi]; exact stepID_ne_empty i
  have hmode : st.Mode = "" := h.modes st.Mode (List.mem_map_of_mem _ hst)
  rw [StoryStep.jsonKeys_eq, if_neg hid, if_pos hmode]
  cases hw : st.Wrapped <;> by_cases hd : st.Docs = [] <;>
    cases hdur : st.DurationMs <;> simp [hd]

/-- A story with a plain step, a wrapped step and a step with a doc entry. -/
theorem step_json_members_witness :
    (storyAfter (.step .Given "g" (.Fn "When" "w" 0 2000000 .ret
      (.step .Then "t" (.doc (noteEntry "n") .ret)))) story0 []).steps.map StoryStep.jsonKeys =
      [["id", "keyword", "text"], ["id", "keyword", "text", "wrapped", "durationMs"],
        ["id", "keyword", "text", "docs"]] ∧
    ("wrapped" ∈ StoryStep.jsonKeys { ID := "step-1", Keyword := "When", Text := "w", Wrapped := true, DurationMs := some 2 } ↔
      StoryStep.Wrapped { ID := "step-1", Keyword := "When", Text := "w", Wrapped := true, DurationMs := some 2 } = true) :=
  ⟨by decide,
    (step_json_members _
      (Script.run_reachable (.step .Given "g" (.Fn "When" "w" 0 2000000 .ret
        (.step .Then "t" (.doc (noteEntry "n") .ret)))) { story := story0, log := [] }
        (Reachable.init _ _ [] _ _))
      { ID := "step-1", Keyword := "When", Text := "w", Wrapped := true, DurationMs := some 2 }
      (by decide)).2.2.2.1⟩


/-! ### Concurrent flows -/

theorem flatten_map_set_eq {α β : Type} (g : α → List β) (l : List α) (i : Nat) (x y : α)
    (hx : l[i]? = some x) (h : g y = g x) :
    ((l.set i y).map g).flatten = (l.map g).flatten := by
  induction l generalizing i with
  | nil => simp at hx
  | cons a as ih =>
    cases i with
    | zero =>
      simp only [List.getElem?_cons_zero, Option.some.injEq] at hx
      subst hx
      simp [h]
    | succ i =>
      simp only [List.getElem?_cons_succ] at hx
      simp only [List.set_cons_succ, List.map_cons, List.flatten_cons, ih i hx]

theorem flatten_map_set_add {α β : Type} (g : α → List β) (l : List α) (i : Nat) (x y : α)
    (v : β) (hx : l[i]? = some x) (h : List.Perm (g y) (v :: g x)) :
    List.Perm ((l.set i y).map g).flatten (v :: (l.map g).flatten) := by
  induction l generalizing i with
  | nil => simp at hx
  | cons a as ih =>
    cases i with
    | zero =>
      simp only [List.getElem?_cons_zero, Option.some.injEq] at hx
      subst hx
      simp only [List.set_cons_zero, List.map_cons, List.flatten_cons]
      exact (List.Perm.append_right _ h)
    | succ i =>
      simp only [List.getElem?_cons_succ] at hx
      simp only [List.set_cons_succ, List.map_cons, List.flatten_cons]
      exact ((ih i hx).append_left (g a)).trans List.perm_middle

theorem flatten_map_set_remove {α β : Type} (g : α → List β) (l : List α) (i : Nat) (x y : α)
    (v : β) (hx : l[i]? = some x) (h : List.Perm (g x) (v :: g y)) :
    List.Perm (l.map g).flatten (v :: ((l.set i y).map g).flatten) := by
  induction l generalizing i with
  | nil => simp at hx
  | cons a as ih =>
    cases i with
    | zero =>
      simp only [List.getElem?_cons_zero, Option.some.injEq] at hx
      subst hx
      simp only [List.set_cons_zero, List.map_cons, List.flatten_cons]
      exact (List.Perm.append_right _ h)
    | succ i =>
      simp only [List.getElem?_cons_succ] at hx
      simp only [List.set_cons_succ, List.map_cons, List.flatten_cons]
      exact ((ih i hx).append_left (g a)).trans List.perm_middle

theorem sum_map_set {α : Type} (g : α → Nat) (l : List α) (i : Nat) (x y : α)
    (hx : l[i]? = some x) :
    ((l.set i y).map g).sum + g x = (l.map g).sum + g y := by
  induction l generalizing i with
  | nil => simp at hx
  | cons a as ih =>
    cases i with
    | zero =>
      simp only [List.getElem?_cons_zero, Option.some.injEq] at hx
      subst hx
      simp only [List.set_cons_zero, List.map_cons, List.sum_cons]
      omega
    | succ i =>
      simp only [List.getElem?_cons_succ] at hx
      simp only [List.set_cons_succ, List.map_cons, List.sum_cons]
      have := ih i hx
      omega

theorem getElem?_set_cases {α : Type} (l : List α) (i j : Nat) (x y z : α)
    (hx : l[i]? = some x) (hz : (l.set i y)[j]? = some z) :
    (j = i ∧ z = y) ∨ (j ≠ i ∧ l[j]? = some z) := by
  by_cases hji : j = i
  · subst hji
    have hlt : j < l.length := by
      rcases Nat.lt_or_ge j l.length with h | h
      · exact h
      · rw [List.getElem?_eq_none h] at hx; exact absurd hx (by simp)
    rw [List.getElem?_set_self hlt] at hz
    exact Or.inl ⟨rfl, (Option.some.inj hz).symm⟩
  · rw [List.getElem?_set_ne (fun h => hji h.symm)] at hz
    exact Or.inr ⟨hji, hz⟩

theorem set_getElem?_same {α : Type} (l : List α) (i : Nat) (x : α) (hx : l[i]? = some x) :
    l.set i x = l := by
  induction l generalizing i with
  | nil => rfl
  | cons a as ih =>
    cases i with
    | zero =>
      simp only [List.getElem?_cons_zero, Option.some.injEq] at hx
      subst hx
      rfl
    | succ i =>
      simp only [List.getElem?_cons_succ] at hx
      simp only [List.set_cons_succ, ih i hx]

theorem Conc.step_of {st : Conc} {tid : Nat} {f : Flow} (hf : st.flows[tid]? = some f)
    {mu1 : Option Nat} {c1 : Collector} {f1 : Flow}
    (hs : f.step tid st.mu st.c = (mu1, c1, f1)) :
    st.step tid = { mu := mu1, c := c1, flows := st.flows.set tid f1 } := by
  simp only [Conc.step, hf, hs]

theorem Conc.step_noop {st : Conc} {tid : Nat} {f : Flow} (hf : st.flows[tid]? = some f)
    (hs : f.step tid st.mu st.c = (st.mu, st.c, f)) : st.step tid = st := by
  rw [Conc.step_of hf hs, set_getElem?_same _ _ _ hf]

theorem Conc.Inv.inv_update {progs : List (List CollectorCall)} {st : Conc}
    (h : Conc.Inv progs st) {tid : Nat} {f : Flow} (hf : st.flows[tid]? = some f)
    (mu1 : Option Nat) (c1 : Collector) (f1 : Flow)
    (hown : st.mu = none ∨ st.mu = some tid)
    (hmu : (f1.pc ≠ .idle ∧ mu1 = some tid) ∨ (f1.pc = .idle ∧ mu1 = none))
    (hpc : f1.pcOk c1)
    (htaken : List.Perm ((st.flows.set tid f1).map Flow.taken).flatten (List.range c1.orderSeq))
    (hrec : List.Perm (c1.collected ++ ((st.flows.set tid f1).map Flow.pending).flatten)
      (progs.map recordsOf).flatten)
    (htodo : c1.orderSeq + ((st.flows.set tid f1).map Flow.todo).sum = (progs.map ordersOf).sum) :
    Conc.Inv progs { mu := mu1, c := c1, flows := st.flows.set tid f1 } := by
  have hidle : ∀ (j : Nat) (g : Flow), j ≠ tid → st.flows[j]? = some g → g.pc = .idle := by
    intro j g hj hg
    by_contra hne
    have := (h.holder j g hg).1 hne
    rcases hown with hn | hs
    · rw [hn] at this; exact Option.noConfusion this
    · rw [hs] at this; exact hj (Option.some.inj this).symm
  refine ⟨?_, ?_, ?_, htaken, hrec, htodo⟩
  · intro j g hg
    rcases getElem?_set_cases _ _ _ _ _ _ hf hg with ⟨rfl, rfl⟩ | ⟨hj, hg0⟩
    · rcases hmu with ⟨h1, h2⟩ | ⟨h1, h2⟩
      · exact ⟨fun _ => h2, fun _ => h1⟩
      · exact ⟨fun hn => absurd h1 hn, fun hn => by rw [h2] at hn; exact Option.noConfusion hn⟩
    · have hg1 := hidle j g hj hg0
      constructor
      · intro hn; exact absurd hg1 hn
      · intro hm
        rcases hmu with ⟨_, h2⟩ | ⟨_, h2⟩
        · rw [h2] at hm; exact absurd (Option.some.inj hm).symm hj
        · rw [h2] at hm; exact Option.noConfusion hm
  · intro j hm
    rcases hmu with ⟨_, h2⟩ | ⟨_, h2⟩
    · rw [h2] at hm
      have hj : tid = j := Option.some.inj hm
      subst hj
      have hlt : tid < st.flows.length := by
        rcases Nat.lt_or_ge tid st.flows.length with hl | hl
        · exact hl
        · rw [List.getElem?_eq_none hl] at hf; exact absurd hf (by simp)
      exact ⟨f1, List.getElem?_set_self hlt⟩
    · rw [h2] at hm; exact Option.noConfusion hm
  · intro j g hg
    rcases getElem?_set_cases _ _ _ _ _ _ hf hg with ⟨rfl, rfl⟩ | ⟨hj, hg0⟩
    · exact hpc
    · have hg1 := hidle j g hj hg0
      simp only [Flow.pcOk, hg1]

theorem sum_map_set_eq {α : Type} (g : α → Nat) (l : List α) (i : Nat) (x y : α)
    (hx : l[i]? = some x) (h : g y = g x) :
    ((l.set i y).map g).sum = (l.map g).sum := by
  have := sum_map_set g l i x y hx
  omega

theorem sum_map_set_succ {α : Type} (g : α → Nat) (l : List α) (i : Nat) (x y : α)
    (hx : l[i]? = some x) (h : g x = g y + 1) :
    ((l.set i y).map g).sum + 1 = (l.map g).sum := by
  have := sum_map_set g l i x y hx
  omega

theorem range_succ_perm (n : Nat) {l : List Nat} (h : List.Perm l (List.range n)) :
    List.Perm (n :: l) (List.range (n + 1)) := by
  rw [List.range_succ]
  exact ((List.Perm.cons n h).trans (List.perm_append_singleton n (List.range n)).symm)

/-- Every statement of every flow keeps the invariant. -/
theorem Conc.Inv.inv_step {progs : List (List CollectorCall)} {st : Conc}
    (h : Conc.Inv progs st) (tid : Nat) : Conc.Inv progs (st.step tid) := by
  cases hf : st.flows[tid]? with
  | none => simp only [Conc.step, hf]; exact h
  | some f =>
    have hhold := h.holder tid f hf
    have hok := h.pcs tid f hf
    obtain ⟨calls, pc, got⟩ := f
    cases pc with
    | idle =>
      cases calls with
      | nil => rw [Conc.step_noop hf rfl]; exact h
      | cons call rest =>
        by_cases hm : st.mu = none
        · have hs : Flow.step tid st.mu st.c { calls := call :: rest, pc := .idle, got := got } =
              (some tid, st.c, { calls := call :: rest, pc := .locked, got := got }) := by
            simp [Flow.step, hm]
          rw [Conc.step_of hf hs]
          refine h.inv_update hf _ _ _ (Or.inl hm) (Or.inl ⟨by simp, rfl⟩) ?_ ?_ ?_ ?_
          · simp [Flow.pcOk]
          · rw [flatten_map_set_eq _ _ _ _ _ hf]
            · exact h.taken
            · rfl
          · rw [flatten_map_set_eq _ _ _ _ _ hf]
            · exact h.records
            · rfl
          · rw [sum_map_set_eq Flow.todo _ _ _ _ hf]
            · exact h.todo
            · rfl
        · have hs : Flow.step tid st.mu st.c { calls := call :: rest, pc := .idle, got := got } =
              (st.mu, st.c, { calls := call :: rest, pc := .idle, got := got }) := by
            simp [Flow.step, hm]
          rw [Conc.step_noop hf hs]; exact h
    | locked =>
      have hmu : st.mu = some tid := hhold.1 (by simp)
      cases calls with
      | nil => rw [Conc.step_noop hf rfl]; exact h
      | cons call rest =>
        cases call with
        | nextOrder =>
          rw [Conc.step_of hf rfl]
          refine h.inv_update hf _ _ _ (Or.inr hmu) (Or.inl ⟨by simp, hmu⟩) ?_ ?_ ?_ ?_
          · simp [Flow.pcOk]
          · rw [flatten_map_set_eq _ _ _ _ _ hf]
            · exact h.taken
            · rfl
          · rw [flatten_map_set_eq _ _ _ _ _ hf]
            · exact h.records
            · rfl
          · rw [sum_map_set_eq Flow.todo _ _ _ _ hf]
            · exact h.todo
            · rfl
        | record tc =>
          rw [Conc.step_of hf rfl]
          refine h.inv_update hf _ _ _ (Or.inr hmu) (Or.inl ⟨by simp, hmu⟩) ?_ ?_ ?_ ?_
          · simp [Flow.pcOk]
          · rw [flatten_map_set_eq _ _ _ _ _ hf]
            · exact h.taken
            · rfl
          · rw [flatten_map_set_eq _ _ _ _ _ hf]
            · exact h.records
            · rfl
          · rw [sum_map_set_eq Flow.todo _ _ _ _ hf]
            · exact h.todo
            · rfl
    | readSeq n =>
      have hmu : st.mu = some tid := hhold.1 (by simp)
      obtain ⟨⟨rest, hcalls⟩, hn⟩ := hok
      simp only at hcalls
      subst hcalls
      rw [Conc.step_of hf rfl]
      refine h.inv_update hf _ _ _ (Or.inr hmu) (Or.inl ⟨by simp, hmu⟩) ?_ ?_ ?_ ?_
      · exact ⟨⟨rest, rfl⟩, hn, rfl⟩
      · rw [flatten_map_set_eq _ _ _ _ _ hf]
        · exact h.taken
        · rfl
      · rw [flatten_map_set_eq _ _ _ _ _ hf]
        · exact h.records
        · rfl
      · rw [sum_map_set_eq Flow.todo _ _ _ _ hf]
        · exact h.todo
        · rfl
    | loadedSeq n tmp =>
      have hmu : st.mu = some tid := hhold.1 (by simp)
      obtain ⟨⟨rest, hcalls⟩, hn, htmp⟩ := hok
      simp only at hcalls
      subst hcalls
      subst hn
      subst htmp
      rw [Conc.step_of hf rfl]
      refine h.inv_update hf _ _ _ (Or.inr hmu) (Or.inl ⟨by simp, hmu⟩) ?_ ?_ ?_ ?_
      · exact ⟨⟨rest, rfl⟩, rfl⟩
      · have hp := flatten_map_set_add Flow.taken _ _ _
          { calls := .nextOrder :: rest, pc := .storedSeq st.c.orderSeq, got := got }
          st.c.orderSeq hf (by simp [Flow.taken])
        exact hp.trans (range_succ_perm st.c.orderSeq h.taken)
      · rw [flatten_map_set_eq _ _ _ _ _ hf]
        · exact h.records
        · rfl
      · have e : ((st.flows.set tid { calls := .nextOrder :: rest, pc := .storedSeq st.c.orderSeq, got := got }).map
            Flow.todo).sum + 1 = (st.flows.map Flow.todo).sum :=
          sum_map_set_succ Flow.todo _ _ _ _ hf rfl
        have := h.todo
        simp only
        omega
    | storedSeq n =>
      have hmu : st.mu = some tid := hhold.1 (by simp)
      obtain ⟨⟨rest, hcalls⟩, hn⟩ := hok
      simp only at hcalls
      subst hcalls
      rw [Conc.step_of hf rfl]
      refine h.inv_update hf _ _ _ (Or.inr hmu) (Or.inr ⟨rfl, rfl⟩) ?_ ?_ ?_ ?_
      · simp [Flow.pcOk]
      · rw [flatten_map_set_eq _ _ _ _ _ hf]
        · exact h.taken
        · simp [Flow.taken]
      · rw [flatten_map_set_eq _ _ _ _ _ hf]
        · exact h.records
        · rfl
      · rw [sum_map_set_eq Flow.todo _ _ _ _ hf]
        · exact h.todo
        · rfl
    | loadedCol old =>
      have hmu : st.mu = some tid := hhold.1 (by simp)
      obtain ⟨⟨tc, rest, hcalls⟩, hold⟩ := hok
      simp only at hcalls
      subst hcalls
      rw [Conc.step_of hf rfl]
      refine h.inv_update hf _ _ _ (Or.inr hmu) (Or.inl ⟨by simp, hmu⟩) ?_ ?_ ?_ ?_
      · exact ⟨tc, rest, rfl⟩
      · rw [flatten_map_set_eq _ _ _ _ _ hf]
        · exact h.taken
        · rfl
      · have hp := flatten_map_set_remove Flow.pending _ _ _
          { calls := .record tc :: rest, pc := .storedCol, got := got } tc hf
          (List.Perm.refl _)
        simp only
        rw [hold]
        refine List.Perm.trans ?_ h.records
        rw [List.append_assoc]
        exact (List.Perm.append_left _ hp).symm
      · rw [sum_map_set_eq Flow.todo _ _ _ _ hf]
        · exact h.todo
        · rfl
    | storedCol =>
      have hmu : st.mu = some tid := hhold.1 (by simp)
      obtain ⟨tc, rest, hcalls⟩ := hok
      simp only at hcalls
      subst hcalls
      rw [Conc.step_of hf rfl]
      refine h.inv_update hf _ _ _ (Or.inr hmu) (Or.inr ⟨rfl, rfl⟩) ?_ ?_ ?_ ?_
      · simp [Flow.pcOk]
      · rw [flatten_map_set_eq _ _ _ _ _ hf]
        · exact h.taken
        · rfl
      · rw [flatten_map_set_eq _ _ _ _ _ hf]
        · exact h.records
        · rfl
      · rw [sum_map_set_eq Flow.todo _ _ _ _ hf]
        · exact h.todo
        · rfl

theorem Conc.Inv.inv_run {progs : List (List CollectorCall)} (sched : List Nat) {st : Conc}
    (h : Conc.Inv progs st) : Conc.Inv progs (st.run sched) := by
  induction sched generalizing st with
  | nil => exact h
  | cons tid rest ih => exact ih (h.inv_step tid)

theorem Conc.run_append (st : Conc) (a b : List Nat) : st.run (a ++ b) = (st.run a).run b := by
  simp [Conc.run, List.foldl_append]

theorem Conc.inv_start (progs : List (List CollectorCall)) (c : Collector) :
    Conc.Inv progs (Conc.start progs c) := by
  have hflow : ∀ (tid : Nat) (f : Flow), (Conc.start progs c).flows[tid]? = some f →
      f.pc = .idle := by
    intro tid f hf
    simp only [Conc.start, List.getElem?_map, Option.map_eq_some'] at hf
    obtain ⟨p, _, rfl⟩ := hf
    rfl
  refine ⟨?_, ?_, ?_, ?_, ?_, ?_⟩
  · intro tid f hf
    have := hflow tid f hf
    constructor
    · intro hn; exact absurd this hn
    · intro hm; exact Option.noConfusion hm
  · intro tid hm; exact Option.noConfusion hm
  · intro tid f hf
    simp only [Flow.pcOk, hflow tid f hf]
  · have : ((Conc.start progs c).flows.map Flow.taken).flatten = [] := by
      simp only [Conc.start, List.map_map]
      induction progs with
      | nil => rfl
      | cons p ps ih => simp [Flow.taken, ih]
    rw [this]
    exact List.Perm.refl _
  · have : ((Conc.start progs c).flows.map Flow.pending) = progs.map recordsOf := by
      simp only [Conc.start, List.map_map]
      apply List.map_congr_left
      intro p _
      rfl
    rw [this]
    exact List.Perm.refl _
  · have : ((Conc.start progs c).flows.map Flow.todo) = progs.map ordersOf := by
      simp only [Conc.start, List.map_map]
      apply List.map_congr_left
      intro p _
      rfl
    rw [this]
    simp [Conc.start, reset]

theorem Flow.idle_of_done {c : Collector} {f : Flow} (hok : f.pcOk c) (hc : f.calls = []) :
    f.pc = .idle := by
  obtain ⟨calls, pc, got⟩ := f
  simp only at hc
  subst hc
  cases pc <;> simp [Flow.pcOk] at hok ⊢

/-- When every flow has returned from all its calls: the values taken are the values
returned, nothing is pending, and the collector holds what the calls add up to. -/
theorem Conc.Inv.at_end {progs : List (List CollectorCall)} {st : Conc}
    (h : Conc.Inv progs st) (hdone : st.finished = true) :
    List.Perm st.orders (List.range (progs.map ordersOf).sum) ∧
    st.c.orderSeq = (progs.map ordersOf).sum ∧
    List.Perm st.c.collected (progs.map recordsOf).flatten ∧
    st.mu = none := by
  have hall : ∀ (tid : Nat) (f : Flow), st.flows[tid]? = some f →
      f.calls = [] ∧ f.pc = .idle := by
    intro tid f hf
    have hmem : f ∈ st.flows := List.getElem?_mem hf
    have hc : f.calls = [] := by
      have := List.all_eq_true.1 hdone f hmem
      simpa using this
    exact ⟨hc, Flow.idle_of_done (h.pcs tid f hf) hc⟩
  have hmem : ∀ f ∈ st.flows, f.calls = [] ∧ f.pc = .idle := by
    intro f hf
    obtain ⟨tid, hlt, htid⟩ := List.getElem_of_mem hf
    exact hall tid f (by rw [List.getElem?_eq_getElem hlt, htid])
  have htaken : st.flows.map Flow.taken = st.flows.map (fun f => f.got) := by
    apply List.map_congr_left
    intro f hf
    simp [Flow.taken, (hmem f hf).2]
  have hpending : (st.flows.map Flow.pending).flatten = [] := by
    rw [List.flatten_eq_nil_iff]
    intro l hl
    obtain ⟨f, hf, rfl⟩ := List.mem_map.1 hl
    obtain ⟨calls, pc, got⟩ := f
    obtain ⟨h1, h2⟩ := hmem _ hf
    simp only at h1 h2
    subst h1; subst h2
    rfl
  have htodo : (st.flows.map Flow.todo).sum = 0 := by
    rw [List.sum_eq_zero_iff]
    intro n hn
    obtain ⟨f, hf, rfl⟩ := List.mem_map.1 hn
    obtain ⟨calls, pc, got⟩ := f
    obtain ⟨h1, h2⟩ := hmem _ hf
    simp only at h1 h2
    subst h1; subst h2
    rfl
  have hseq : st.c.orderSeq = (progs.map ordersOf).sum := by
    have := h.todo
    omega
  refine ⟨?_, hseq, ?_, ?_⟩
  · have := h.taken
    rw [htaken, hseq] at this
    exact this
  · have := h.records
    rw [hpending, List.append_nil] at this
    exact this
  · cases hm : st.mu with
    | none => rfl
    | some t =>
      obtain ⟨f, hf⟩ := h.held t hm
      exact absurd (hall t f hf).2 ((h.holder t f hf).2 hm)

theorem Conc.fuel_step_lt {st : Conc} {tid : Nat} {f : Flow} (hf : st.flows[tid]? = some f)
    {mu1 : Option Nat} {c1 : Collector} {f1 : Flow}
    (hs : f.step tid st.mu st.c = (mu1, c1, f1)) (hlt : f1.fuel < f.fuel) :
    (st.step tid).fuel < st.fuel := by
  rw [Conc.step_of hf hs]
  have := sum_map_set Flow.fuel st.flows tid f f1 hf
  simp only [Conc.fuel]
  omega

theorem fuel_rest_le (rest : List CollectorCall) (got : List Nat) :
    Flow.fuel { calls := rest, pc := .idle, got := got } ≤ 5 * rest.length := by
  cases rest <;> simp [Flow.fuel]
  omega

/-- While some flow has calls left, some flow can execute a statement. -/
theorem Conc.Inv.progress {progs : List (List CollectorCall)} {st : Conc}
    (h : Conc.Inv progs st) (hnf : st.finished = false) :
    ∃ tid, (st.step tid).fuel < st.fuel := by
  cases hm : st.mu with
  | none =>
    have : ∃ f ∈ st.flows, f.calls ≠ [] := by
      by_contra hcon
      have hall : st.finished = true := by
        simp only [Conc.finished, List.all_eq_true, List.isEmpty_iff]
        intro f hf
        by_contra hne
        exact hcon ⟨f, hf, hne⟩
      rw [hall] at hnf
      exact Bool.noConfusion hnf
    obtain ⟨f, hfm, hne⟩ := this
    obtain ⟨tid, hlt, htid⟩ := List.getElem_of_mem hfm
    have hf : st.flows[tid]? = some f := by rw [List.getElem?_eq_getElem hlt, htid]
    have hidle : f.pc = .idle := by
      by_contra hn
      have := (h.holder tid f hf).1 hn
      rw [hm] at this
      exact Option.noConfusion this
    obtain ⟨calls, pc, got⟩ := f
    simp only at hidle hne
    subst hidle
    cases calls with
    | nil => exact absurd rfl hne
    | cons call rest =>
      refine ⟨tid, Conc.fuel_step_lt hf
        (show _ = (some tid, st.c, { calls := call :: rest, pc := .locked, got := got }) from ?_) ?_⟩
      · simp [Flow.step, hm]
      · simp [Flow.fuel]
  | some t =>
    obtain ⟨f, hf⟩ := h.held t hm
    have hne : f.pc ≠ .idle := (h.holder t f hf).2 hm
    have hok := h.pcs t f hf
    refine ⟨t, ?_⟩
    obtain ⟨calls, pc, got⟩ := f
    cases pc with
    | idle => exact absurd rfl hne
    | locked =>
      cases calls with
      | nil => exact absurd rfl hok
      | cons call rest =>
        cases call with
        | nextOrder => exact Conc.fuel_step_lt hf rfl (by simp [Flow.fuel])
        | record tc => exact Conc.fuel_step_lt hf rfl (by simp [Flow.fuel])
    | readSeq n =>
      obtain ⟨⟨rest, hcalls⟩, _⟩ := hok
      simp only at hcalls
      subst hcalls
      exact Conc.fuel_step_lt hf rfl (by simp [Flow.fuel])
    | loadedSeq n tmp =>
      obtain ⟨⟨rest, hcalls⟩, _⟩ := hok
      simp only at hcalls
      subst hcalls
      exact Conc.fuel_step_lt hf rfl (by simp [Flow.fuel])
    | storedSeq n =>
      obtain ⟨⟨rest, hcalls⟩, _⟩ := hok
      simp only at hcalls
      subst hcalls
      refine Conc.fuel_step_lt hf rfl ?_
      have := fuel_rest_le rest (got ++ [n])
      simp only [Flow.fuel, List.tail_cons] at this ⊢
      omega
    | loadedCol old =>
      obtain ⟨⟨tc, rest, hcalls⟩, _⟩ := hok
      simp only at hcalls
      subst hcalls
      exact Conc.fuel_step_lt hf rfl (by simp [Flow.fuel])
    | storedCol =>
      obtain ⟨tc, rest, hcalls⟩ := hok
      simp only at hcalls
      subst hcalls
      refine Conc.fuel_step_lt hf rfl ?_
      have := fuel_rest_le rest got
      simp only [Flow.fuel, List.tail_cons] at this ⊢
      omega

/-- From every state of the process the flows can be scheduled to the end: no flow waits
for the mutex forever. -/
theorem Conc.Inv.completes {progs : List (List CollectorCall)} (n : Nat) :
    ∀ st : Conc, Conc.Inv progs st → st.fuel ≤ n → ∃ sched, (st.run sched).finished = true := by
  induction n with
  | zero =>
    intro st h hn
    cases hfin : st.finished with
    | true => exact ⟨[], hfin⟩
    | false =>
      obtain ⟨tid, hlt⟩ := h.progress hfin
      omega
  | succ n ih =>
    intro st h hn
    cases hfin : st.finished with
    | true => exact ⟨[], hfin⟩
    | false =>
      obtain ⟨tid, hlt⟩ := h.progress hfin
      obtain ⟨sched, hs⟩ := ih (st.step tid) (h.inv_step tid) (by omega)
      exact ⟨tid :: sched, hs⟩

theorem sum_map_const_of {α : Type} (g : α → Nat) (k : Nat) (l : List α)
    (h : ∀ x ∈ l, g x = k) : (l.map g).sum = l.length * k := by
  induction l with
  | nil => simp
  | cons a as ih =>
    have h1 := h a (List.mem_cons_self a as)
    have h2 := ih (fun x hx => h x (List.mem_cons_of_mem a hx))
    simp only [List.map_cons, List.sum_cons, List.length_cons, h1, h2]
    ring

theorem length_flatten_map_of {α β : Type} (g : α → List β) (k : Nat) (l : List α)
    (h : ∀ x ∈ l, (g x).length = k) : (l.map g).flatten.length = l.length * k := by
  induction l with
  | nil => simp
  | cons a as ih =>
    have h1 := h a (List.mem_cons_self a as)
    have h2 := ih (fun x hx => h x (List.mem_cons_of_mem a hx))
    simp only [List.map_cons, List.flatten_cons, List.length_append, List.length_cons, h1, h2]
    ring

/-- C28: flows that create and finalize stories concurrently, under every schedule of
their statements: when `flows` flows have each created and finalized `perFlow` stories
after a reset (10 and 10 in the claim), the source-order values returned are exactly the
numbers below `flows * perFlow`, each once, and the collector holds exactly the
`flows * perFlow` recorded test cases, each as often as it was recorded; and from every
point of every schedule the flows can run to the end. -/
theorem concurrent_flows_lose_nothing (progs : List (List CollectorCall)) (c : Collector)
    (sched : List Nat) (flows perFlow : Nat)
    (hflows : progs.length = flows)
    (heach : ∀ p ∈ progs, ordersOf p = perFlow ∧ (recordsOf p).length = perFlow)
    (hdone : ((Conc.start progs c).run sched).finished = true) :
    List.Perm ((Conc.start progs c).run sched).orders (List.range (flows * perFlow)) ∧
    ((Conc.start progs c).run sched).orders.Nodup ∧
    ((Conc.start progs c).run sched).orders.length = flows * perFlow ∧
    ((Conc.start progs c).run sched).c.orderSeq = flows * perFlow ∧
    List.Perm ((Conc.start progs c).run sched).c.collected (progs.map recordsOf).flatten ∧
    ((Conc.start progs c).run sched).c.collected.length = flows * perFlow ∧
    (∀ pre : List Nat, ∃ ext, ((Conc.start progs c).run (pre ++ ext)).finished = true) := by
  have hinv := (Conc.inv_start progs c).inv_run sched
  obtain ⟨hperm, hseq, hrec, _⟩ := hinv.at_end hdone
  have hsum : (progs.map ordersOf).sum = flows * perFlow := by
    rw [sum_map_const_of ordersOf perFlow progs (fun p hp => (heach p hp).1), hflows]
  have hlen : (progs.map recordsOf).flatten.length = flows * perFlow := by
    rw [length_flatten_map_of recordsOf perFlow progs (fun p hp => (heach p hp).2), hflows]
  rw [hsum] at hperm hseq
  refine ⟨hperm, ?_, ?_, hseq, hrec, ?_, ?_⟩
  · exact (List.Perm.nodup_iff hperm).2 (List.nodup_range _)
  · rw [hperm.length_eq, List.length_range]
  · rw [hrec.length_eq, hlen]
  · intro pre
    obtain ⟨ext, hext⟩ := Conc.Inv.completes _ _ ((Conc.inv_start progs c).inv_run pre)
      (Nat.le_refl _)
    exact ⟨ext, by rw [Conc.run_append]; exact hext⟩

set_option maxRecDepth 100000 in
/-- Two flows of two stories each under the round-robin schedule: the flows alternate
statement by statement, the waiting flow retries `mu.Lock()`. -/
theorem concurrent_flows_lose_nothing_witness :
    ((Conc.start [storiesInTurn (fun i => { Retry := i }) 2,
        storiesInTurn (fun i => { Retry := 10 + i }) 2] {}).run (roundRobin 2 40)).finished = true ∧
    ((Conc.start [storiesInTurn (fun i => { Retry := i }) 2,
        storiesInTurn (fun i => { Retry := 10 + i }) 2] {}).run (roundRobin 2 40)).flows.map
      (fun f => f.got) = [[0, 2], [1, 3]] ∧
    (((Conc.start [storiesInTurn (fun i => { Retry := i }) 2,
        storiesInTurn (fun i => { Retry := 10 + i }) 2] {}).run (roundRobin 2 40)).c.collected.map
      (fun tc => tc.Retry)) = [0, 10, 1, 11] ∧
    ((Conc.start [storiesInTurn (fun i => { Retry := i }) 2,
        storiesInTurn (fun i => { Retry := 10 + i }) 2] {}).run (roundRobin 2 40)).c.collected.length
      = 2 * 2 :=
  ⟨by decide, by decide, by decide,
    (concurrent_flows_lose_nothing
      [storiesInTurn (fun i => { Retry := i }) 2, storiesInTurn (fun i => { Retry := 10 + i }) 2]
      {} (roundRobin 2 40) 2 2 rfl (by decide) (by decide)).2.2.2.2.2.1⟩

/-! ### Doc and attachment calls and step creation -/

theorem SameSteps.same_refl (s : S) : SameSteps s s := ⟨rfl, rfl, rfl, rfl⟩

theorem SameSteps.same_addStep {s s1 : S} (h : SameSteps s s1) (keyword txt : String) :
    SameSteps (s.addStep keyword txt) (s1.addStep keyword txt) := by
  have hlen : s.steps.length = s1.steps.length := by
    have := congrArg List.length h.steps
    simpa using this
  refine ⟨?_, ?_, ?_, ?_⟩
  · rw [S.addStep_steps, S.addStep_steps, List.map_append, List.map_append, h.steps, h.seen,
      h.counter]
  · rw [S.addStep_seenPrimary, S.addStep_seenPrimary, h.seen]
  · rw [S.addStep_stepCounter, S.addStep_stepCounter, h.counter]
  · rw [S.addStep_currentStep, S.addStep_currentStep, hlen]

theorem SameSteps.same_addDoc {s s1 : S} (h : SameSteps s s1) (entry : DocEntry) :
    SameSteps (s.addDoc entry) s1 := by
  cases hc : s.currentStep with
  | none =>
    rw [S.addDoc_of_none hc]
    exact ⟨h.steps, h.seen, h.counter, h.current⟩
  | some i =>
    rw [S.addDoc_of_some hc]
    refine ⟨?_, h.seen, h.counter, h.current⟩
    refine Eq.trans ?_ h.steps
    apply modifyAt_map
    intro st
    rfl

theorem SameSteps.same_Attach {s s1 : S} (h : SameSteps s s1) (name mediaType path : String) :
    SameSteps (s.Attach name mediaType path) s1 :=
  ⟨h.steps, h.seen, h.counter, h.current⟩

theorem SameSteps.same_AttachInline {s s1 : S} (h : SameSteps s s1)
    (name mediaType body encoding : String) :
    SameSteps (s.AttachInline name mediaType body encoding) s1 :=
  ⟨h.steps, h.seen, h.counter, h.current⟩

/-- Running a sequence of calls and running its text steps only keeps two stories alike. -/
theorem SameSteps.same_runCalls (lib : Lib) (calls : List BuilderCall) :
    ∀ s s1 : S, SameSteps s s1 →
      SameSteps (runCalls lib s calls) (runCalls lib s1 (stepCallsOnly calls)) := by
  induction calls with
  | nil => intro s s1 h; exact h
  | cons call rest ih =>
    intro s s1 h
    cases call with
    | step k txt =>
      have := ih (s.textCall k txt) (s1.textCall k txt)
        (by rw [S.textCall_eq, S.textCall_eq]; exact h.same_addStep _ _)
      exact this
    | doc call =>
      have := ih (s.docCall lib call) s1 (by rw [S.docCall_eq]; exact h.same_addDoc _)
      exact this
    | Attach name mediaType path =>
      exact ih (s.Attach name mediaType path) s1 (h.same_Attach _ _ _)
    | AttachInline name mediaType body encoding =>
      exact ih (s.AttachInline name mediaType body encoding) s1 (h.same_AttachInline _ _ _ _)

theorem stepShape_withoutDocs (st : StoryStep) : stepShape st.withoutDocs = stepShape st := rfl

/-- C31: doc and attachment calls never influence step creation. For every sequence of
builder calls (text steps, doc methods, Attach, AttachInline) run on any story, in
particular on a fresh one, the resulting steps have the same number and, at every
position, the same id, keyword, text and wrapped flag (indeed every field but the doc
entries) as the steps produced by the same sequence with all doc and attachment calls
removed; the seen-set, the step counter and the current step agree too, so later step
creation is not influenced either. -/
theorem docs_and_attachments_never_influence_steps (lib : Lib) (s : S)
    (calls : List BuilderCall) :
    (runCalls lib s calls).steps.length = (runCalls lib s (stepCallsOnly calls)).steps.length ∧
    (∀ i : Nat, ((runCalls lib s calls).steps[i]?).map stepShape =
      ((runCalls lib s (stepCallsOnly calls)).steps[i]?).map stepShape) ∧
    (runCalls lib s calls).steps.map stepShape =
      (runCalls lib s (stepCallsOnly calls)).steps.map stepShape ∧
    (runCalls lib s calls).steps.map StoryStep.withoutDocs =
      (runCalls lib s (stepCallsOnly calls)).steps.map StoryStep.withoutDocs ∧
    (runCalls lib s calls).seenPrimary = (runCalls lib s (stepCallsOnly calls)).seenPrimary ∧
    (runCalls lib s calls).stepCounter = (runCalls lib s (stepCallsOnly calls)).stepCounter ∧
    (runCalls lib s calls).currentStep = (runCalls lib s (stepCallsOnly calls)).currentStep := by
  have h := SameSteps.same_runCalls lib calls s s (SameSteps.same_refl s)
  have hshape : (runCalls lib s calls).steps.map stepShape =
      (runCalls lib s (stepCallsOnly calls)).steps.map stepShape := by
    have := congrArg (List.map stepShape) h.steps
    simpa only [List.map_map, Function.comp_def, stepShape_withoutDocs] using this
  refine ⟨?_, ?_, hshape, h.steps, h.seen, h.counter, h.current⟩
  · have := congrArg List.length hshape
    simpa using this
  · intro i
    have := congrArg (fun l => l[i]?) hshape
    simpa only [List.getElem?_map] using this

/-- A fresh story with docs and attachments before, between and after three steps: the
steps are those of the three text calls alone, while the doc entries went to the story
and to the steps. -/
theorem docs_and_attachments_example :
    (runCalls plainLib story0
      [.doc (.Note "n"), .Attach "a" "text/plain" "a.txt", .step .Given "g",
        .doc (.Tag ["t"]), .step .Given "h", .AttachInline "b" "text/plain" "x" "utf-8",
        .doc (.Kv "k" (.str "v")), .step .Then "t"]).steps.map stepShape =
      [("step-0", "Given", "g", false), ("step-1", "And", "h", false),
        ("step-2", "Then", "t", false)] ∧
    (runCalls plainLib story0
      [.step .Given "g", .step .Given "h", .step .Then "t"]).steps.map stepShape =
      [("step-0", "Given", "g", false), ("step-1", "And", "h", false),
        ("step-2", "Then", "t", false)] ∧
    (runCalls plainLib story0
      [.doc (.Note "n"), .Attach "a" "text/plain" "a.txt", .step .Given "g",
        .doc (.Tag ["t"]), .step .Given "h", .AttachInline "b" "text/plain" "x" "utf-8",
        .doc (.Kv "k" (.str "v")), .step .Then "t"]).steps.map (fun st => st.Docs.length) =
      [1, 1, 0] := by
  decide

end ES
